import Mathlib

set_option maxRecDepth 100000

/-!
# Verification of the todo scheduling/ordering engine

A shallow embedding of the todo-list scheduling and ordering engine of the
`ai-todo-calendar` repository (the todos page: `addTodo`, `deleteTodo`,
`editTodo`, `postponeToTomorrow`, `handleDragEnd`, and the
localStorage persistence pipeline), together with proofs and refutations of
the specification's claims about it.

Conventions of the embedding:
* JavaScript numbers that are todo ids or order values are modelled as `Nat`
  (the code only ever produces non-negative integers for them); the result of
  `parseInt`, which can be negative or `NaN`, is modelled as `Option Int`
  (`none` = `NaN`).
* `undefined` deadlines are `none`; a present deadline string `d` is `some d`.
* JavaScript's stable `Array.prototype.sort` with comparator
  `(a, b) => a.order - b.order` is modelled by a stable insertion sort.
* A JavaScript `Map` built from `[key, value]` pairs (later pairs overwrite
  earlier ones) is modelled by `jsMapLookup`.
* Thrown-and-caught exceptions in the persistence layer are modelled with
  `Option` (`none` = an exception was raised).
-/

/-- The `Todo` record of the source (`interface Todo`): id, title, completed,
optional deadline (ISO `YYYY-MM-DD` string), and manual order. -/
structure Todo where
  id : Nat
  title : String
  completed : Bool
  deadline : Option String
  order : Nat
deriving DecidableEq, Repr

/-- The set of characters JavaScript treats as whitespace for `String.prototype.trim`
and for the leading-whitespace skip of `parseInt` (WhiteSpace ∪ LineTerminator). -/
def jsWhitespaceChar (c : Char) : Bool :=
  c.toNat = 9 || c.toNat = 10 || c.toNat = 11 || c.toNat = 12 || c.toNat = 13 ||
  c.toNat = 32 || c.toNat = 160 || c.toNat = 0x1680 ||
  (0x2000 ≤ c.toNat && c.toNat ≤ 0x200A) ||
  c.toNat = 0x2028 || c.toNat = 0x2029 || c.toNat = 0x202F ||
  c.toNat = 0x205F || c.toNat = 0x3000 || c.toNat = 0xFEFF

/-- JavaScript `String.prototype.trim`: strip leading and trailing whitespace. -/
def jsTrim (s : String) : String :=
  ⟨((s.data.dropWhile jsWhitespaceChar).reverse.dropWhile jsWhitespaceChar).reverse⟩

/-- Does `pat` occur at the head of `cs`? (helper for `jsRemoveFirst`). -/
def headMatches : List Char → List Char → Bool
  | [], _ => true
  | _ :: _, [] => false
  | p :: ps, c :: cs => p = c && headMatches ps cs

/-- Helper for `jsRemoveFirst`: remove the first occurrence of `pat`. -/
def removeFirstAux (pat : List Char) : List Char → List Char
  | [] => []
  | c :: cs =>
    if headMatches pat (c :: cs) then (c :: cs).drop pat.length
    else c :: removeFirstAux pat cs

/-- JavaScript `s.replace(pat, "")` with a (non-empty) string pattern: removes
only the first occurrence of `pat`, leaving `s` unchanged when `pat` does not
occur. Used by the source as `id.replace("todo-", "")`. -/
def jsRemoveFirst (s pat : String) : String :=
  ⟨removeFirstAux pat.data s.data⟩

/-- Decimal digit value of a character, if it is one. -/
def decDigitVal (c : Char) : Option Nat :=
  if '0' ≤ c && c ≤ '9' then some (c.toNat - 48) else none

/-- Hexadecimal digit value of a character, if it is one. -/
def hexDigitVal (c : Char) : Option Nat :=
  if '0' ≤ c && c ≤ '9' then some (c.toNat - 48)
  else if 'a' ≤ c && c ≤ 'f' then some (c.toNat - 97 + 10)
  else if 'A' ≤ c && c ≤ 'F' then some (c.toNat - 65 + 10)
  else none

/-- Accumulate the longest prefix of digits (in the given base, via `dv`).
`none` accumulator means no digit has been seen yet (`NaN`). -/
def parseIntDigits (dv : Char → Option Nat) (base : Nat) :
    List Char → Option Nat → Option Nat
  | [], acc => acc
  | c :: cs, acc =>
    match dv c with
    | some d => parseIntDigits dv base cs (some ((acc.getD 0) * base + d))
    | none => acc

/-- JavaScript `parseInt(s)` (radix unspecified): skip leading whitespace, an
optional sign, auto-detect a `0x`/`0X` hex prefix, then read the longest prefix
of digits, ignoring any trailing garbage; `NaN` (here `none`) if no digit is
read. E.g. `parseInt("2025-03-10") = 2025`, `parseInt("unscheduled") = NaN`. -/
def jsParseInt (s : String) : Option Int :=
  let cs := s.data.dropWhile jsWhitespaceChar
  let signed : Bool × List Char :=
    match cs with
    | '-' :: rest => (true, rest)
    | '+' :: rest => (false, rest)
    | _ => (false, cs)
  let based : Nat × List Char :=
    match signed.2 with
    | '0' :: 'x' :: rest => (16, rest)
    | '0' :: 'X' :: rest => (16, rest)
    | rest => (10, rest)
  let dv := if based.1 = 16 then hexDigitVal else decDigitVal
  match parseIntDigits dv based.1 based.2 none with
  | none => none
  | some n => some (if signed.1 then -(n : Int) else (n : Int))

/-- The drop-target date test of `handleDragEnd`:
`dropTarget.match(/^\d{4}-\d{2}-\d{2}$/)`. -/
def isDateFormat (s : String) : Bool :=
  match s.data with
  | [y1, y2, y3, y4, h1, m1, m2, h2, d1, d2] =>
    y1.isDigit && y2.isDigit && y3.isDigit && y4.isDigit && h1 = '-' &&
    m1.isDigit && m2.isDigit && h2 = '-' && d1.isDigit && d2.isDigit
  | _ => false

/-- JavaScript truthiness of the optional `deadline` field: `undefined` and the
empty string are falsy. `!t.deadline` in the source is `Todo.noDeadline`. -/
def Todo.noDeadline (t : Todo) : Bool :=
  match t.deadline with
  | none => true
  | some s => s = ""

/-- Truthiness of an optional deadline value (for `if (sourceDeadline)` and
`activeTodo.deadline ? _ : _` in the source). -/
def truthyDeadline : Option String → Bool
  | none => false
  | some s => s ≠ ""

/-- Stable insertion of a todo into a list sorted ascending by `order`,
placing it before later elements of equal `order` (stability). -/
def insertByOrder (t : Todo) : List Todo → List Todo
  | [] => [t]
  | u :: us => if t.order ≤ u.order then t :: u :: us else u :: insertByOrder t us

/-- JavaScript's stable `array.sort((a, b) => a.order - b.order)`, modelled by a
stable insertion sort (equal-`order` elements keep their relative position). -/
def sortByOrder : List Todo → List Todo
  | [] => []
  | t :: ts => insertByOrder t (sortByOrder ts)

/-- `seq.map((todo, index) => [todo.id, index])` starting at index `n`. -/
def withIdx (n : Nat) : List Todo → List (Nat × Nat)
  | [] => []
  | t :: ts => (t.id, n) :: withIdx (n + 1) ts

/-- Lookup in a JavaScript `Map` built with `new Map(pairs)`: later pairs
overwrite earlier ones, so the *last* matching pair wins. `none` models
`map.has(k) === false`. -/
def jsMapLookup (pairs : List (Nat × Nat)) (k : Nat) : Option Nat :=
  pairs.foldl (fun acc p => if p.1 = k then some p.2 else acc) none

/-- The recurring renumbering step of the source: build
`new Map(seq.map((todo, index) => [todo.id, index]))` from a sequence and apply
`todos.map(todo => orderMap.has(todo.id) ? { ...todo, order: orderMap.get(todo.id) } : todo)`. -/
def densifyByMap (seq : List Todo) (todos : List Todo) : List Todo :=
  let omap := withIdx 0 seq
  todos.map fun t =>
    match jsMapLookup omap t.id with
    | some i => { t with order := i }
    | none => t

/-- Renumber the members of the bucket selected by `p` to their position in
the bucket's sequence sorted by `order` (the source's repeated
filter–sort–map–renumber pattern). -/
def renumberBucket (p : Todo → Bool) (todos : List Todo) : List Todo :=
  densifyByMap (sortByOrder (todos.filter p)) todos

/-- Insert `x` at index `n` (appending when `n` exceeds the length), as
JavaScript `array.splice(n, 0, x)` does for `0 ≤ n`. -/
def insertAt (x : Todo) : Nat → List Todo → List Todo
  | 0, l => x :: l
  | _ + 1, [] => [x]
  | n + 1, y :: l => y :: insertAt x n l

/-- Remove the element at index `n`, as `array.splice(n, 1)` does. -/
def removeAt : Nat → List Todo → List Todo
  | _, [] => []
  | 0, _ :: l => l
  | n + 1, y :: l => y :: removeAt n l

/-- dnd-kit's `arrayMove(array, from, to)`: remove the element at `from` and
re-insert it at `to` — a stable single-element relocation, not a swap. The
source only calls it with `from`/`to` returned by successful `findIndex`es,
so they are in range. -/
def arrayMove (l : List Todo) (i j : Nat) : List Todo :=
  match l[i]? with
  | none => l
  | some x => insertAt x j (removeAt i l)

/-- `addTodo` of the source: reject input whose trim is empty, otherwise append
a todo with the *raw* (untrimmed) input as title, no deadline, and
`order = number of current unscheduled todos`. The fresh `Date.now()` id is a
parameter. -/
def addTodo (todos : List Todo) (newId : Nat) (inputValue : String) : List Todo :=
  if jsTrim inputValue = "" then todos
  else
    let unscheduledCount := (todos.filter fun t => t.noDeadline).length
    todos ++ [{ id := newId, title := inputValue, completed := false,
                deadline := none, order := unscheduledCount }]

/-- `deleteTodo` of the source: no-op when the id is absent; otherwise remove
the todo and renumber the remaining todos of its bucket (the unscheduled
bucket when its deadline was `undefined`, its date bucket otherwise). -/
def deleteTodo (todos : List Todo) (id : Nat) : List Todo :=
  match todos.find? (fun t => t.id = id) with
  | none => todos
  | some todoToDelete =>
    let updatedTodos := todos.filter fun t => t.id ≠ id
    match todoToDelete.deadline with
    | none => renumberBucket (fun t => t.noDeadline) updatedTodos
    | some d => renumberBucket (fun t => t.deadline = some d) updatedTodos

/-- `editTodo` of the source: replace the title of the todo with the given id
(no validation here — the blank-title rejection lives in the item component). -/
def editTodo (todos : List Todo) (id : Nat) (newTitle : String) : List Todo :=
  todos.map fun t => if t.id = id then { t with title := newTitle } else t

/-- `handleSave` of the sortable-item component composed with `editTodo`: the
edit is applied with the *trimmed* value only when the trim is non-empty,
otherwise discarded. -/
def handleSave (todos : List Todo) (id : Nat) (editValue : String) : List Todo :=
  if jsTrim editValue ≠ "" then editTodo todos id (jsTrim editValue) else todos

/-- `todos.find(t => t.id === v)` where `v` came from `parseInt` (so may be
`NaN`, which `===` never matches). -/
def findById (todos : List Todo) (v : Option Int) : Option Todo :=
  match v with
  | none => none
  | some n => todos.find? fun t => (t.id : Int) = n

/-- `t.id === v` for a parsed (possibly-`NaN`) id. -/
def idMatches (t : Todo) (v : Option Int) : Bool :=
  match v with
  | none => false
  | some n => (t.id : Int) = n

/-- `list.findIndex(p)` with `-1` modelled as `none`. -/
def findIdxAux (p : Todo → Bool) : List Todo → Option Nat
  | [] => none
  | t :: ts => if p t then some 0 else (findIdxAux p ts).map (· + 1)

/-- `list.findIndex(t => t.id === v)` (`-1` is `none`). -/
def findIndexById (l : List Todo) (v : Option Int) : Option Nat :=
  match v with
  | none => none
  | some n => findIdxAux (fun t => (t.id : Int) = n) l

/-- `postponeToTomorrow` of the source, with the clock-derived `today` and
`tomorrow` date strings as parameters: move the incomplete todos of `today`
(in `order`-sorted sequence) to `tomorrow`, appending after `tomorrow`'s
existing members, then renumber what remains at `today`. Early-returns
unchanged when `today` has no incomplete todos. -/
def uncompletedTodayTodos (todos : List Todo) (today : String) : List Todo :=
  sortByOrder (todos.filter fun t => t.deadline = some today && !t.completed)

/-- The body of the `todos.map` of `postponeToTomorrow`: a todo found at index
`i` of the moved sequence gets `deadline = tomorrow` and
`order = tomorrowCount + i` (JavaScript `findIndex` is `findIdxAux`, with
`-1` as `none`); everything else passes through. -/
def postponeApply (moved : List Todo) (tomorrow : String) (tomorrowCount : Nat)
    (t : Todo) : Todo :=
  match findIdxAux (fun u => u.id = t.id) moved with
  | some i => { t with
      deadline := some tomorrow
      order := tomorrowCount + i }
  | none => t

/-- The first pass of `postponeToTomorrow`: move every uncompleted `today`
todo to `tomorrow`, appended after `tomorrow`'s existing members in moved
order. -/
def postponeUpdated (todos : List Todo) (today tomorrow : String) : List Todo :=
  todos.map (postponeApply (uncompletedTodayTodos todos today) tomorrow
    (todos.filter fun t => t.deadline = some tomorrow).length)

def postponeToTomorrow (todos : List Todo) (today tomorrow : String) : List Todo :=
  if (uncompletedTodayTodos todos today).length = 0 then todos
  else renumberBucket (fun t => t.deadline = some today)
    (postponeUpdated todos today tomorrow)


/-- The bucket sequence the reorder branch works on: the active todo's bucket
(`activeTodo.deadline ? date bucket : unscheduled bucket`), sorted by
`order`. -/
def reorderList (todos : List Todo) (a : Todo) : List Todo :=
  if truthyDeadline a.deadline then
    sortByOrder (todos.filter fun t => t.deadline = a.deadline)
  else
    sortByOrder (todos.filter fun t => t.noDeadline)

/-- The same-bucket reorder branch of `handleDragEnd` (the block guarded by
`activeTodo && overTodo && activeTodo.deadline === overTodo.deadline`): when
both parsed ids resolve to todos with identical `deadline` fields and the two
occupy distinct positions of the bucket's `order`-sorted sequence, relocate
with `arrayMove`, renumber the sequence, and early-return (`some`); in every
other situation control falls through (`none`). -/
def reorderStep (todos : List Todo) (activeTodoId overTodoId : Option Int) :
    Option (List Todo) :=
  match findById todos activeTodoId, findById todos overTodoId with
  | some a, some _o =>
    if a.deadline = _o.deadline then
      match findIndexById (reorderList todos a) activeTodoId,
            findIndexById (reorderList todos a) overTodoId with
      | some oldIndex, some newIndex =>
        if oldIndex ≠ newIndex then
          some (densifyByMap (arrayMove (reorderList todos a) oldIndex newIndex) todos)
        else none
      | _, _ => none
    else none
  | _, _ => none

/-- The `updatedTodos` of the `"unscheduled"` branch: the dragged todo with
its deadline cleared and its order set to the current size of the unscheduled
bucket (which still counts the dragged todo itself when it is unscheduled). -/
def unschedUpdatedTodos (todos : List Todo) (activeTodoId : Option Int) : List Todo :=
  todos.map fun t =>
    if idMatches t activeTodoId then
      { t with
        deadline := none
        order := (todos.filter fun u => u.noDeadline).length }
    else t

/-- The `"unscheduled"`-zone branch of `handleDragEnd`: clear the deadline of
the dragged todo, append it at the end of the unscheduled bucket, and — when
it came from a (truthy) scheduled date — renumber that source bucket. -/
def dropToUnscheduled (todos : List Todo) (activeTodoId : Option Int) : List Todo :=
  if truthyDeadline ((findById todos activeTodoId).bind (·.deadline)) then
    renumberBucket
      (fun t => t.deadline = (findById todos activeTodoId).bind (·.deadline))
      (unschedUpdatedTodos todos activeTodoId)
  else unschedUpdatedTodos todos activeTodoId

/-- The `updatedTodos` of the date-zone branch: the dragged todo with its
deadline set to the target date and its order set to the size of the target
bucket (`targetDayTodos` excludes the dragged todo itself). -/
def dateUpdatedTodos (todos : List Todo) (activeTodoId : Option Int)
    (dropTarget : String) : List Todo :=
  todos.map fun t =>
    if idMatches t activeTodoId then
      { t with
        deadline := some dropTarget
        order := (sortByOrder (todos.filter fun u =>
          u.deadline = some dropTarget && !(idMatches u activeTodoId))).length }
    else t

/-- The date-zone branch of `handleDragEnd`: set the deadline of the dragged
todo to the target date, append it at the end of that bucket, and — when it
came from a different bucket — renumber the source bucket (the unscheduled one
when its deadline was `undefined`). -/
def dropToDate (todos : List Todo) (activeTodoId : Option Int) (dropTarget : String) :
    List Todo :=
  if (findById todos activeTodoId).bind (·.deadline) ≠ some dropTarget then
    match (findById todos activeTodoId).bind (·.deadline) with
    | none => renumberBucket (fun t => t.noDeadline)
        (dateUpdatedTodos todos activeTodoId dropTarget)
    | some d => renumberBucket (fun t => t.deadline = some d)
        (dateUpdatedTodos todos activeTodoId dropTarget)
  else dateUpdatedTodos todos activeTodoId dropTarget

/-- The bucket-zone part of `handleDragEnd` (the code after the reorder branch
falls through): `"unscheduled"` and `YYYY-MM-DD` targets move the todo, any
other target string is ignored. -/
def zoneStep (todos : List Todo) (activeTodoId : Option Int) (dropTarget : String) :
    List Todo :=
  if dropTarget = "unscheduled" then dropToUnscheduled todos activeTodoId
  else if isDateFormat dropTarget then dropToDate todos activeTodoId dropTarget
  else todos

/-- `handleDragEnd` of the source. `over = none` is a cancelled drag. Both ids
are strings; the numeric todo ids are recovered with
`parseInt(id.replace("todo-", ""))`. The same-bucket reorder branch is tried
first and early-returns when it fires; otherwise the drop target string is
interpreted as a bucket zone. -/
def handleDragEnd (todos : List Todo) (activeId : String) (over : Option String) :
    List Todo :=
  match over with
  | none => todos
  | some overId =>
    let activeTodoId := jsParseInt (jsRemoveFirst activeId "todo-")
    let overTodoId := jsParseInt (jsRemoveFirst overId "todo-")
    match reorderStep todos activeTodoId overTodoId with
    | some result => result
    | none => zoneStep todos activeTodoId overId

/-- Membership of a todo in the bucket with key `k` (`none` = unscheduled):
bucket membership is determined solely by the `deadline` field. -/
def inBucket (k : Option String) (t : Todo) : Bool := t.deadline = k

/-- The `order` values of the members of the bucket selected by `p`. -/
def bucketOrders (p : Todo → Bool) (todos : List Todo) : List Nat :=
  (todos.filter p).map (·.order)

/-- Invariant I1 for one bucket: its `order` values are exactly
`{0, …, n-1}` (as a multiset — so no gaps and no duplicates). -/
def DenseP (p : Todo → Bool) (todos : List Todo) : Prop :=
  (bucketOrders p todos).Perm (List.range (todos.filter p).length)

instance instDecidableDenseP (p : Todo → Bool) (todos : List Todo) :
    Decidable (DenseP p todos) :=
  inferInstanceAs (Decidable (List.Perm _ _))

/-- Invariant I1: every bucket (every deadline value, plus the unscheduled
bucket) is densely ordered. -/
def DenseAll (todos : List Todo) : Prop :=
  ∀ k : Option String, DenseP (inBucket k) todos

/-- Well-formedness of a collection, as guaranteed by the data model: ids are
unique, and no todo carries the (falsy, never produced) empty-string
deadline. -/
def WellFormed (todos : List Todo) : Prop :=
  (todos.map (·.id)).Nodup ∧ ∀ t ∈ todos, t.deadline ≠ some ""

example : jsParseInt "2025-03-10" = some 2025 := by decide
example : jsParseInt "unscheduled" = none := by decide
example : jsParseInt (jsRemoveFirst "todo-17" "todo-") = some 17 := by decide
example : isDateFormat "2025-03-10" = true := by decide
example : isDateFormat "unscheduled" = false := by decide
example : jsTrim "  hi  " = "hi" := by decide
example : sortByOrder [⟨1, "a", false, none, 2⟩, ⟨2, "b", false, none, 0⟩] =
    [⟨2, "b", false, none, 0⟩, ⟨1, "a", false, none, 2⟩] := by decide
example : arrayMove [⟨1, "a", false, none, 0⟩, ⟨2, "b", false, none, 1⟩] 1 0 =
    [⟨2, "b", false, none, 1⟩, ⟨1, "a", false, none, 0⟩] := by decide

/-! ## The persistence layer

`loadTodos` reads the storage slot, `JSON.parse`s it, and applies the
legacy order-assignment pass inside a `try`/`catch`; saving is
`JSON.stringify(todos)`. We model JSON values (`Js`), a faithful `JSON.parse`
(strict grammar, thrown `SyntaxError` = `none`), `JSON.stringify` for the
values the application writes, and the object-spread semantics of the legacy
pass. -/

/-- A parsed JSON value as a JavaScript value. Numbers keep their source
lexeme (the application never does arithmetic on loaded numbers, and
`JSON.stringify` of the numbers the application creates reproduces the
canonical decimal lexeme). Object field lists are collision-free by
construction (`JSON.parse` lets a repeated key overwrite the value in
place). -/
inductive Js where
  | null : Js
  | bool : Bool → Js
  | num : String → Js
  | str : String → Js
  | arr : List Js → Js
  | obj : List (String × Js) → Js

/-- Set a field on a JavaScript object: overwrite in place when the key is
present, append otherwise. -/
def setField (fs : List (String × Js)) (k : String) (v : Js) : List (String × Js) :=
  if fs.any (fun p => p.1 = k) then
    fs.map fun p => if p.1 = k then (k, v) else p
  else fs ++ [(k, v)]

/-- Read a field of a JavaScript object (`none` = `undefined`). -/
def jsGetField (fs : List (String × Js)) (k : String) : Option Js :=
  match fs.find? (fun p => p.1 = k) with
  | some p => some p.2
  | none => none

/-- JSON insignificant whitespace. -/
def jsonWs (c : Char) : Bool :=
  c = ' ' || c = '\t' || c = '\n' || c = '\r'

/-- Skip insignificant whitespace. -/
def skipWs (cs : List Char) : List Char := cs.dropWhile jsonWs

/-- Longest digit prefix and the rest. -/
def spanDigits (cs : List Char) : List Char × List Char :=
  (cs.takeWhile Char.isDigit, cs.dropWhile Char.isDigit)

/-- Lex the integer part of a JSON number: `0` or a nonzero digit followed by
digits (leading zeros are a syntax error). -/
def lexIntPart : List Char → Option (List Char × List Char)
  | [] => none
  | c :: rest =>
    if c = '0' then some (['0'], rest)
    else if c.isDigit then some (c :: (spanDigits rest).1, (spanDigits rest).2)
    else none

/-- Lex the optional fraction part; a `.` not followed by a digit is a syntax
error for the whole number. -/
def lexFracPart : List Char → Option (List Char × List Char)
  | [] => some ([], [])
  | c :: rest =>
    if c = '.' then
      if (spanDigits rest).1.isEmpty then none
      else some ('.' :: (spanDigits rest).1, (spanDigits rest).2)
    else some ([], c :: rest)

/-- Lex the optional exponent part; `e`/`E` without following digits is a
syntax error for the whole number. -/
def lexExpPart : List Char → Option (List Char × List Char)
  | c :: rest =>
    if c = 'e' || c = 'E' then
      let signed : List Char × List Char :=
        match rest with
        | '+' :: r => (['+'], r)
        | '-' :: r => (['-'], r)
        | r => ([], r)
      let s := spanDigits signed.2
      if s.1.isEmpty then none else some (c :: signed.1 ++ s.1, s.2)
    else some ([], c :: rest)
  | [] => some ([], [])

/-- The integer-fraction-exponent tail of a JSON number after the optional
sign. -/
def lexNumberTail (sign : List Char) (cs : List Char) : Option (String × List Char) :=
  match lexIntPart cs with
  | none => none
  | some (ip, r1) =>
    match lexFracPart r1 with
    | none => none
    | some (fp, r2) =>
      match lexExpPart r2 with
      | none => none
      | some (ep, r3) => some (⟨sign ++ ip ++ fp ++ ep⟩, r3)

/-- Lex a complete JSON number token, returning its lexeme. -/
def lexNumber (cs : List Char) : Option (String × List Char) :=
  match cs with
  | [] => lexNumberTail [] []
  | c :: rest => if c = '-' then lexNumberTail ['-'] rest else lexNumberTail [] (c :: rest)

/-- Prepend a decoded character to the result of lexing the rest of a string
body (failure propagates). -/
def consStr (c : Char) : Option (List Char × List Char) → Option (List Char × List Char)
  | none => none
  | some p => some (c :: p.1, p.2)

/-- Lex the body of a JSON string (after the opening quote), decoding escape
sequences, up to and including the closing quote. Unescaped control
characters are a syntax error. (`\uXXXX` escapes are decoded with
`Char.ofNat`; lone-surrogate corner cases of UTF-16 are outside the model.) -/
def lexStringBody : List Char → Option (List Char × List Char)
  | [] => none
  | c :: rest =>
    if c = '"' then some ([], rest)
    else if c = '\\' then
      match rest with
      | [] => none
      | e :: r2 =>
        if e = '"' then consStr '"' (lexStringBody r2)
        else if e = '\\' then consStr '\\' (lexStringBody r2)
        else if e = '/' then consStr '/' (lexStringBody r2)
        else if e = 'b' then consStr (Char.ofNat 8) (lexStringBody r2)
        else if e = 'f' then consStr (Char.ofNat 12) (lexStringBody r2)
        else if e = 'n' then consStr '\n' (lexStringBody r2)
        else if e = 'r' then consStr '\r' (lexStringBody r2)
        else if e = 't' then consStr '\t' (lexStringBody r2)
        else if e = 'u' then
          match r2 with
          | h1 :: h2 :: h3 :: h4 :: r =>
            match hexDigitVal h1, hexDigitVal h2, hexDigitVal h3, hexDigitVal h4 with
            | some a, some b, some x, some d =>
              consStr (Char.ofNat (((a * 16 + b) * 16 + x) * 16 + d)) (lexStringBody r)
            | _, _, _, _ => none
          | _ => none
        else none
    else if c.toNat < 32 then none
    else consStr c (lexStringBody rest)

mutual

/-- Parse one JSON value. The fuel strictly decreases on every recursive
descent, each of which first consumes at least one input character, so the
generous fuel `jsonParse` supplies never runs out on real input. -/
def parseValue : Nat → List Char → Option (Js × List Char)
  | 0, _ => none
  | fuel + 1, cs =>
    match skipWs cs with
    | [] => none
    | c :: rest =>
      if c = 'n' then
        match rest with
        | k1 :: k2 :: k3 :: r =>
          if k1 = 'u' ∧ k2 = 'l' ∧ k3 = 'l' then some (.null, r) else none
        | _ => none
      else if c = 't' then
        match rest with
        | k1 :: k2 :: k3 :: r =>
          if k1 = 'r' ∧ k2 = 'u' ∧ k3 = 'e' then some (.bool true, r) else none
        | _ => none
      else if c = 'f' then
        match rest with
        | k1 :: k2 :: k3 :: k4 :: r =>
          if k1 = 'a' ∧ k2 = 'l' ∧ k3 = 's' ∧ k4 = 'e' then some (.bool false, r)
          else none
        | _ => none
      else if c = '"' then
        match lexStringBody rest with
        | some (body, r) => some (.str ⟨body⟩, r)
        | none => none
      else if c = '[' then
        match skipWs rest with
        | [] => parseItems fuel rest []
        | c2 :: r =>
          if c2 = ']' then some (.arr [], r)
          else parseItems fuel rest []
      else if c = Char.ofNat 123 then
        match skipWs rest with
        | [] => parseFields fuel rest []
        | c2 :: r =>
          if c2 = Char.ofNat 125 then some (.obj [], r)
          else parseFields fuel rest []
      else
        match lexNumber (c :: rest) with
        | some (lex, r) => some (.num lex, r)
        | none => none

/-- Parse the comma-separated items of a non-empty JSON array, then the
closing bracket. -/
def parseItems : Nat → List Char → List Js → Option (Js × List Char)
  | 0, _, _ => none
  | fuel + 1, cs, acc =>
    match parseValue fuel cs with
    | none => none
    | some (v, rest) =>
      match skipWs rest with
      | [] => none
      | c :: r2 =>
        if c = ',' then parseItems fuel r2 (acc ++ [v])
        else if c = ']' then some (.arr (acc ++ [v]), r2)
        else none

/-- Parse the comma-separated `"key": value` fields of a non-empty JSON
object, then the closing brace; a repeated key overwrites the value in
place, as `JSON.parse` does. -/
def parseFields : Nat → List Char → List (String × Js) → Option (Js × List Char)
  | 0, _, _ => none
  | fuel + 1, cs, acc =>
    match skipWs cs with
    | [] => none
    | q :: rest =>
      if q = '"' then
        match lexStringBody rest with
        | none => none
        | some (key, r1) =>
          match skipWs r1 with
          | [] => none
          | c0 :: r2 =>
            if c0 = ':' then
              match parseValue fuel r2 with
              | none => none
              | some (v, r3) =>
                match skipWs r3 with
                | [] => none
                | c :: r4 =>
                  if c = ',' then parseFields fuel r4 (setField acc ⟨key⟩ v)
                  else if c = Char.ofNat 125 then
                    some (.obj (setField acc ⟨key⟩ v), r4)
                  else none
            else none
      else none

end

/-- `JSON.parse`: parse one value and require only whitespace to remain;
`none` models a thrown `SyntaxError`. The fuel `2 * length + 2` is more than
any input can consume, since at least one character is consumed for every two
units of fuel spent. -/
def jsonParse (s : String) : Option Js :=
  match parseValue (2 * s.length + 2) s.data with
  | some (v, rest) => if skipWs rest = [] then some v else none
  | none => none

/-- Lowercase hexadecimal digit for `n < 16`. -/
def toHexDigit (n : Nat) : Char :=
  if n < 10 then Char.ofNat (48 + n) else Char.ofNat (87 + n)

/-- Per-character escaping of `JSON.stringify` for string values: `"`,
`\`, the short control escapes, `\u00XX` for the remaining control
characters, and everything else verbatim. -/
def escapeChar (c : Char) : List Char :=
  if c = '"' then ['\\', '"']
  else if c = '\\' then ['\\', '\\']
  else if c.toNat = 8 then ['\\', 'b']
  else if c.toNat = 9 then ['\\', 't']
  else if c.toNat = 10 then ['\\', 'n']
  else if c.toNat = 12 then ['\\', 'f']
  else if c.toNat = 13 then ['\\', 'r']
  else if c.toNat < 32 then
    ['\\', 'u', '0', '0', toHexDigit (c.toNat / 16), toHexDigit (c.toNat % 16)]
  else [c]

/-- `JSON.stringify` of a string value. -/
def stringifyStr (s : String) : List Char :=
  '"' :: (s.data.map escapeChar).flatten ++ ['"']

mutual

/-- `JSON.stringify` (no indentation) of a JavaScript value. -/
def stringifyVal : Js → List Char
  | .null => 'n' :: ['u', 'l', 'l']
  | .bool true => 't' :: ['r', 'u', 'e']
  | .bool false => 'f' :: ['a', 'l', 's', 'e']
  | .num lex => lex.data
  | .str s => stringifyStr s
  | .arr [] => ['[', ']']
  | .arr (v :: vs) => '[' :: (stringifyVal v ++ stringifyItems vs) ++ [']']
  | .obj [] => [Char.ofNat 123, Char.ofNat 125]
  | .obj (f :: fs) =>
    Char.ofNat 123 :: (stringifyField f ++ stringifyFields fs) ++ [Char.ofNat 125]

/-- The remaining array items, each preceded by a comma. -/
def stringifyItems : List Js → List Char
  | [] => []
  | v :: vs => ',' :: stringifyVal v ++ stringifyItems vs

/-- One `"key":value` object field. -/
def stringifyField : String × Js → List Char
  | (k, v) => stringifyStr k ++ ':' :: stringifyVal v

/-- The remaining object fields, each preceded by a comma. -/
def stringifyFields : List (String × Js) → List Char
  | [] => []
  | f :: fs => ',' :: stringifyField f ++ stringifyFields fs

end

/-- Little-endian decimal digits of `n`; the first (fuel) argument only needs
to be at least `n`, since `n / 10 < n` for positive `n`. -/
def natStrAux : Nat → Nat → List Char
  | 0, _ => []
  | _ + 1, 0 => []
  | fuel + 1, n => Char.ofNat (48 + n % 10) :: natStrAux fuel (n / 10)

/-- Canonical decimal rendering of a `Nat` (what `JSON.stringify` prints for
the ids and order values the application creates). -/
def natStr (n : Nat) : String :=
  if n = 0 then "0" else ⟨(natStrAux n n).reverse⟩

/-- Decimal value of a digit string (for reading a stored number back). -/
def decodeNat (s : String) : Option Nat :=
  if s.data ≠ [] && s.data.all Char.isDigit then
    some (s.data.foldl (fun a c => a * 10 + (c.toNat - 48)) 0)
  else none

/-- The JSON object `JSON.stringify` writes for one todo: `deadline` is
omitted when `undefined`, the other fields are always present. -/
def todoToJs (t : Todo) : Js :=
  .obj ([("id", .num (natStr t.id)), ("title", .str t.title),
         ("completed", .bool t.completed)] ++
        (match t.deadline with
         | none => []
         | some d => [("deadline", .str d)]) ++
        [("order", .num (natStr t.order))])

/-- `JSON.stringify(todos)`: the persisted representation of a collection. -/
def saveTodos (todos : List Todo) : String :=
  ⟨stringifyVal (.arr (todos.map todoToJs))⟩

/-- Own enumerable properties of `{ ...v }` for a parsed JSON value: an
object's fields, the indexed characters of a string, the indexed elements of
an array, and nothing for the primitives. (`null` never reaches this point:
the legacy pass throws on `null.order` first.) -/
def spreadProps : Js → List (String × Js)
  | .obj fs => fs
  | .str s => (List.range s.length).zipWith (fun j c => (natStr j, Js.str ⟨[c]⟩)) s.data
  | .arr vs => (List.range vs.length).zipWith (fun j v => (natStr j, v)) vs
  | _ => []

/-- One element of the legacy pass
`{ ...todo, order: todo.order !== undefined ? todo.order : index }`;
`none` models the `TypeError` thrown by `todo.order` when the element is
`null` (caught by the surrounding `try`). Parsed JSON never contains
`undefined`, so a present `order` field is kept whatever its value. -/
def loadPassElem (i : Nat) : Js → Option Js
  | .null => none
  | v =>
    let props := spreadProps v
    some (.obj (setField props "order" ((jsGetField props "order").getD (.num (natStr i)))))

/-- The legacy pass over the elements of the parsed array, with their
positional indices. -/
def loadPassAux (i : Nat) : List Js → Option (List Js)
  | [] => some []
  | v :: vs =>
    match loadPassElem i v with
    | none => none
    | some w =>
      match loadPassAux (i + 1) vs with
      | none => none
      | some ws => some (w :: ws)

/-- `parsed.map((todo, index) => ({ ...todo, order: ... }))`: `none` models the
`TypeError` thrown when `parsed` is not an array (`.map` is not a function) or
an element is `null`. -/
def loadPass : Js → Option (List Js)
  | .arr elems => loadPassAux 0 elems
  | _ => none

/-- `loadTodos` of the source: read the storage slot (`none` = no entry, and
the empty string is falsy, so both skip the parse), `JSON.parse` it, apply the
legacy pass; any exception is caught and the in-memory collection is left as
the initial `[]`. The function is total: no exception reaches the caller. -/
def loadTodos (stored : Option String) : List Js :=
  match stored with
  | none => []
  | some s =>
    if s = "" then []
    else
      match jsonParse s with
      | none => []
      | some v =>
        match loadPass v with
        | none => []
        | some todos => todos

/-- Reading a stored object back as a `Todo` record (how the application
subsequently uses the loaded value): numeric `id` and `order`, string
`title`, boolean `completed`, optional string `deadline`. -/
def jsToTodo (v : Js) : Option Todo :=
  match v with
  | .obj fs =>
    match jsGetField fs "id", jsGetField fs "title",
          jsGetField fs "completed", jsGetField fs "order" with
    | some (.num i), some (.str ti), some (.bool c), some (.num o) =>
      match decodeNat i, decodeNat o with
      | some idv, some ov =>
        match jsGetField fs "deadline" with
        | none => some { id := idv, title := ti, completed := c,
                         deadline := none, order := ov }
        | some (.str d) => some { id := idv, title := ti, completed := c,
                                  deadline := some d, order := ov }
        | some _ => none
      | _, _ => none
    | _, _, _, _ => none
  | _ => none

/-- A stored todo record as found in legacy persisted data: the `order` field
may be absent. -/
structure StoredTodo where
  id : Nat
  title : String
  completed : Bool
  deadline : Option String
  order : Option Nat
deriving DecidableEq, Repr

/-- The JSON object of a stored (possibly legacy, order-less) todo. -/
def storedToJs (s : StoredTodo) : Js :=
  .obj ([("id", .num (natStr s.id)), ("title", .str s.title),
         ("completed", .bool s.completed)] ++
        (match s.deadline with
         | none => []
         | some d => [("deadline", .str d)]) ++
        (match s.order with
         | none => []
         | some o => [("order", .num (natStr o))]))

/-- The legacy order-assignment pass at the record level, threading the
positional index: a todo lacking `order` receives its index in the loaded
array; one that has it keeps it. -/
def legacyPassAux : Nat → List StoredTodo → List Todo
  | _, [] => []
  | i, s :: ss =>
    { id := s.id, title := s.title, completed := s.completed,
      deadline := s.deadline, order := s.order.getD i } :: legacyPassAux (i + 1) ss

/-- `stored.map((todo, index) => ({ ...todo, order: todo.order !== undefined
? todo.order : index }))` at the record level. -/
def legacyPass (stored : List StoredTodo) : List Todo :=
  legacyPassAux 0 stored

/-! ## Canonical serialized values (the image of the application's writer) -/

/-- Value of a little-endian list of decimal digit characters. -/
def digitsVal : List Char → Nat
  | [] => 0
  | c :: cs => (c.toNat - 48) + 10 * digitsVal cs

/-- A canonical number lexeme: decimal digits with no leading zero. -/
def canonNumStr (s : String) : Bool :=
  match s.data with
  | [] => false
  | c :: cs => (c :: cs).all Char.isDigit && (c ≠ '0' || cs.isEmpty)

mutual

/-- The parser steps needed for a value (the fuel demand of `parseValue`). -/
def steps : Js → Nat
  | .null => 1
  | .bool _ => 1
  | .num _ => 1
  | .str _ => 1
  | .arr vs => 1 + stepsItemsD vs
  | .obj fs => 1 + stepsFieldsD fs

/-- Fuel demand of the `parseItems` loop. -/
def stepsItemsD : List Js → Nat
  | [] => 0
  | v :: vs => 1 + steps v + stepsItemsD vs

/-- Fuel demand of the `parseFields` loop. -/
def stepsFieldsD : List (String × Js) → Nat
  | [] => 0
  | (_, v) :: fs => 1 + steps v + stepsFieldsD fs

end

mutual

/-- A value in the image of `JSON.stringify` that parses back verbatim:
canonical number lexemes, and objects with distinct keys throughout. -/
def canonVal : Js → Bool
  | .null => true
  | .bool _ => true
  | .num s => canonNumStr s
  | .str _ => true
  | .arr vs => canonItems vs
  | .obj fs => canonFieldsB fs && decide ((fs.map Prod.fst).Nodup)

/-- `canonVal` on every element. -/
def canonItems : List Js → Bool
  | [] => true
  | v :: vs => canonVal v && canonItems vs

/-- `canonVal` on every field value. -/
def canonFieldsB : List (String × Js) → Bool
  | [] => true
  | (_, v) :: fs => canonVal v && canonFieldsB fs

end

/-- The next character (if any) cannot extend a number lexeme. -/
def numStop : List Char → Bool
  | [] => true
  | c :: _ => !(c.isDigit || c = '.' || c = 'e' || c = 'E')

/-! ## Infrastructure: the sort, the order map, and the renumber step -/

/-- The comparator relation used throughout: ascending `order`. -/
def leOrder (a b : Todo) : Prop := a.order ≤ b.order

theorem insertByOrder_perm (t : Todo) (l : List Todo) :
    (insertByOrder t l).Perm (t :: l) := by
  induction l with
  | nil => simp [insertByOrder]
  | cons u us ih =>
    simp only [insertByOrder]
    split
    · exact .refl _
    · exact (ih.cons u).trans (List.Perm.swap t u us)

theorem sortByOrder_perm (l : List Todo) : (sortByOrder l).Perm l := by
  induction l with
  | nil => simp [sortByOrder]
  | cons t ts ih => exact (insertByOrder_perm t (sortByOrder ts)).trans (ih.cons t)

theorem insertByOrder_pairwise {t : Todo} {l : List Todo}
    (h : l.Pairwise leOrder) : (insertByOrder t l).Pairwise leOrder := by
  induction l with
  | nil => simp [insertByOrder, leOrder]
  | cons u us ih =>
    simp only [insertByOrder]
    split
    · rename_i hle
      rw [List.pairwise_cons]
      refine ⟨?_, h⟩
      intro x hx
      rcases List.mem_cons.mp hx with rfl | hx
      · exact hle
      · exact le_trans hle (List.rel_of_pairwise_cons h hx)
    · rename_i hgt
      rw [List.pairwise_cons]
      constructor
      · intro x hx
        rcases List.mem_cons.mp ((insertByOrder_perm t us).mem_iff.mp hx) with rfl | hx
        · exact le_of_not_le hgt
        · exact List.rel_of_pairwise_cons h hx
      · exact ih (List.Pairwise.of_cons h)

theorem sortByOrder_pairwise (l : List Todo) : (sortByOrder l).Pairwise leOrder := by
  induction l with
  | nil => simp [sortByOrder]
  | cons t ts ih => exact insertByOrder_pairwise ih

/-- Position of the first todo with the given id in a sequence. -/
def posOf (k : Nat) : List Todo → Option Nat
  | [] => none
  | t :: ts => if t.id = k then some 0 else (posOf k ts).map (· + 1)

theorem posOf_eq_none_iff {k : Nat} {l : List Todo} :
    posOf k l = none ↔ k ∉ l.map (·.id) := by
  induction l with
  | nil => simp [posOf]
  | cons t ts ih =>
    simp only [posOf, List.map_cons, List.mem_cons]
    by_cases h : t.id = k
    · simp [h]
    · rw [if_neg h]
      constructor
      · intro hmap hc
        have hnone : posOf k ts = none := by
          cases hpo : posOf k ts with
          | none => rfl
          | some i => rw [hpo] at hmap; simp at hmap
        rcases hc with hc | hc
        · exact h hc.symm
        · exact (ih.mp hnone) hc
      · intro hc
        rw [ih.mpr fun hm => hc (Or.inr hm)]
        rfl

theorem posOf_some {k : Nat} {l : List Todo} {i : Nat} (h : posOf k l = some i) :
    ∃ hi : i < l.length, (l.get ⟨i, hi⟩).id = k := by
  induction l generalizing i with
  | nil => simp [posOf] at h
  | cons t ts ih =>
    simp only [posOf] at h
    by_cases ht : t.id = k
    · rw [if_pos ht] at h
      cases h
      exact ⟨by simp, ht⟩
    · rw [if_neg ht] at h
      cases hpo : posOf k ts with
      | none => rw [hpo] at h; simp at h
      | some j =>
        rw [hpo] at h
        have h2 : j + 1 = i := by
          cases h
          rfl
        cases h2
        rcases ih hpo with ⟨hlt, hget⟩
        exact ⟨by simpa using Nat.succ_lt_succ hlt, hget⟩

theorem posOf_get {l : List Todo} (hn : (l.map (·.id)).Nodup) :
    ∀ (i : Nat) (hi : i < l.length), posOf (l.get ⟨i, hi⟩).id l = some i := by
  induction l with
  | nil => intro i hi; simp at hi
  | cons t ts ih =>
    intro i hi
    cases i with
    | zero =>
      show posOf t.id (t :: ts) = some 0
      simp [posOf]
    | succ j =>
      have hj : j < ts.length := by simpa using hi
      have hmem : (ts.get ⟨j, hj⟩).id ∈ ts.map (·.id) :=
        List.mem_map_of_mem _ (List.get_mem ts j hj)
      have hne : t.id ≠ (ts.get ⟨j, hj⟩).id := by
        intro hc
        apply (List.nodup_cons.mp hn).1
        show t.id ∈ ts.map (·.id)
        rw [hc]
        exact hmem
      have hgs : (t :: ts).get ⟨j + 1, hi⟩ = ts.get ⟨j, hj⟩ := rfl
      rw [hgs]
      simp only [posOf]
      rw [if_neg hne, ih (List.nodup_cons.mp hn).2 j hj]
      rfl

theorem foldl_overwrite_skip (k : Nat) (ps : List (Nat × Nat)) (acc : Option Nat)
    (h : ∀ p ∈ ps, p.1 ≠ k) :
    ps.foldl (fun acc p => if p.1 = k then some p.2 else acc) acc = acc := by
  induction ps generalizing acc with
  | nil => rfl
  | cons p ps ih =>
    simp only [List.foldl_cons]
    rw [if_neg (h p (by simp))]
    exact ih _ fun q hq => h q (by simp [hq])

theorem withIdx_map_fst (n : Nat) (l : List Todo) :
    (withIdx n l).map Prod.fst = l.map (·.id) := by
  induction l generalizing n with
  | nil => rfl
  | cons t ts ih => simp [withIdx, ih]

theorem jsMapLookup_withIdx (n k : Nat) (l : List Todo)
    (hn : (l.map (·.id)).Nodup) :
    jsMapLookup (withIdx n l) k = (posOf k l).map (n + ·) := by
  induction l generalizing n with
  | nil => rfl
  | cons t ts ih =>
    simp only [withIdx, jsMapLookup, List.foldl_cons]
    by_cases h : t.id = k
    · rw [if_pos h]
      have hskip : ∀ p ∈ withIdx (n + 1) ts, p.1 ≠ k := by
        intro p hp hk
        apply (List.nodup_cons.mp hn).1
        have hmem : p.1 ∈ (withIdx (n + 1) ts).map Prod.fst :=
          List.mem_map_of_mem _ hp
        rw [withIdx_map_fst] at hmem
        show t.id ∈ ts.map (·.id)
        rw [h, ← hk]
        exact hmem
      rw [foldl_overwrite_skip k _ _ hskip]
      simp [posOf, h]
    · rw [if_neg h]
      have hrec := ih (n + 1) (List.nodup_cons.mp hn).2
      simp only [jsMapLookup] at hrec
      rw [hrec]
      simp only [posOf, if_neg h]
      cases posOf k ts with
      | none => rfl
      | some i => simp [Option.map_map]; omega

/-- The effect of the source's order map on one todo: set its order to the
position of its id in the sequence, when present. -/
def applyPos (seq : List Todo) (t : Todo) : Todo :=
  match posOf t.id seq with
  | some i => { t with order := i }
  | none => t

theorem densifyByMap_eq (seq todos : List Todo) (hn : (seq.map (·.id)).Nodup) :
    densifyByMap seq todos = todos.map (applyPos seq) := by
  unfold densifyByMap
  refine List.map_congr_left ?_
  intro t _
  rw [jsMapLookup_withIdx 0 t.id seq hn]
  unfold applyPos
  cases posOf t.id seq <;> simp

theorem applyPos_id (seq : List Todo) (t : Todo) : (applyPos seq t).id = t.id := by
  unfold applyPos; cases posOf t.id seq <;> rfl

theorem applyPos_deadline (seq : List Todo) (t : Todo) :
    (applyPos seq t).deadline = t.deadline := by
  unfold applyPos; cases posOf t.id seq <;> rfl

theorem applyPos_title (seq : List Todo) (t : Todo) :
    (applyPos seq t).title = t.title := by
  unfold applyPos; cases posOf t.id seq <;> rfl

theorem applyPos_completed (seq : List Todo) (t : Todo) :
    (applyPos seq t).completed = t.completed := by
  unfold applyPos; cases posOf t.id seq <;> rfl

theorem applyPos_of_not_mem {seq : List Todo} {t : Todo}
    (h : t.id ∉ seq.map (·.id)) : applyPos seq t = t := by
  unfold applyPos
  rw [posOf_eq_none_iff.mpr h]

/-- A predicate that ignores the `order` field (all the source's bucket
filters look only at `deadline` and `completed`). -/
def OrderBlind (p : Todo → Bool) : Prop :=
  ∀ (t : Todo) (n : Nat), p { t with order := n } = p t

theorem applyPos_pred {p : Todo → Bool} (hp : OrderBlind p)
    (seq : List Todo) (t : Todo) : p (applyPos seq t) = p t := by
  unfold applyPos
  cases posOf t.id seq with
  | none => rfl
  | some i => exact hp t i

theorem filter_map_applyPos (p : Todo → Bool) (seq todos : List Todo)
    (hp : OrderBlind p) :
    (todos.map (applyPos seq)).filter p = (todos.filter p).map (applyPos seq) := by
  rw [List.filter_map]
  congr 1
  exact List.filter_congr fun t _ => applyPos_pred hp seq t

theorem filter_ids_nodup {todos : List Todo} (p : Todo → Bool)
    (hn : (todos.map (·.id)).Nodup) : ((todos.filter p).map (·.id)).Nodup :=
  ((List.filter_sublist todos).map (·.id)).nodup hn

theorem sortFilter_ids_nodup {todos : List Todo} (p : Todo → Bool)
    (hn : (todos.map (·.id)).Nodup) :
    ((sortByOrder (todos.filter p)).map (·.id)).Nodup :=
  (((sortByOrder_perm (todos.filter p)).map (·.id)).nodup_iff).mpr
    (filter_ids_nodup p hn)

theorem map_applyPos_order_self (bs : List Todo) (hbsn : (bs.map (·.id)).Nodup) :
    bs.map (fun t => (applyPos bs t).order) = List.range bs.length := by
  apply List.ext_get
  · simp
  · intro i h1 h2
    simp only [List.get_map, List.get_range]
    unfold applyPos
    rw [posOf_get hbsn i (by simpa using h1)]

/-- Renumbering a bucket makes it dense: its `order` values become exactly
`{0, …, n-1}`. -/
theorem renumberBucket_dense (p : Todo → Bool) (todos : List Todo)
    (hn : (todos.map (·.id)).Nodup) (hp : OrderBlind p) :
    DenseP p (renumberBucket p todos) := by
  have hperm := sortByOrder_perm (todos.filter p)
  have hbsn := sortFilter_ids_nodup p hn
  unfold renumberBucket DenseP bucketOrders
  rw [densifyByMap_eq _ _ hbsn, filter_map_applyPos _ _ _ hp, List.map_map]
  have hmp :
      ((todos.filter p).map
        ((fun t => t.order) ∘ applyPos (sortByOrder (todos.filter p)))).Perm
      ((sortByOrder (todos.filter p)).map
        (fun t => (applyPos (sortByOrder (todos.filter p)) t).order)) :=
    hperm.symm.map _
  have hself := map_applyPos_order_self _ hbsn
  rw [hself] at hmp
  have hlen : (sortByOrder (todos.filter p)).length = (todos.filter p).length :=
    hperm.length_eq
  rw [hlen] at hmp
  have hlen2 : ((todos.filter p).map (applyPos (sortByOrder (todos.filter p)))).length
      = (todos.filter p).length := by simp
  rw [hlen2]
  exact hmp

/-- Distinct ids pick out a unique element of a collection with `Nodup` ids. -/
theorem eq_of_mem_of_id_eq {todos : List Todo} (hn : (todos.map (·.id)).Nodup)
    {t u : Todo} (ht : t ∈ todos) (hu : u ∈ todos) (h : t.id = u.id) : t = u :=
  List.inj_on_of_nodup_map hn ht hu h

/-- Renumbering the `p`-bucket leaves the members of a disjoint bucket
completely unchanged. -/
theorem renumberBucket_filter_other (p q : Todo → Bool) (todos : List Todo)
    (hn : (todos.map (·.id)).Nodup) (hq : OrderBlind q)
    (hdisj : ∀ t ∈ todos, q t = true → p t = false) :
    (renumberBucket p todos).filter q = todos.filter q := by
  have hbsn := sortFilter_ids_nodup p hn
  unfold renumberBucket
  rw [densifyByMap_eq _ _ hbsn, List.filter_map]
  have hqf : todos.filter (q ∘ applyPos (sortByOrder (todos.filter p))) = todos.filter q :=
    List.filter_congr fun t _ => applyPos_pred hq _ t
  rw [hqf]
  conv_rhs => rw [← List.map_id (todos.filter q)]
  apply List.map_congr_left
  intro t ht
  show applyPos (sortByOrder (todos.filter p)) t = t
  apply applyPos_of_not_mem
  intro hmem
  have hmem2 : t.id ∈ (todos.filter p).map (·.id) :=
    ((sortByOrder_perm (todos.filter p)).map (·.id)).mem_iff.mp hmem
  rcases List.mem_map.mp hmem2 with ⟨u, hu, huid⟩
  have hut : u = t :=
    eq_of_mem_of_id_eq hn (List.mem_of_mem_filter hu) (List.mem_of_mem_filter ht) huid
  have hpu : p u = true := List.of_mem_filter hu
  have hqt : q t = true := List.of_mem_filter ht
  rw [hut] at hpu
  rw [hdisj t (List.mem_of_mem_filter ht) hqt] at hpu
  cases hpu

/-- Renumbering preserves the id sequence. -/
theorem renumberBucket_map_id (p : Todo → Bool) (todos : List Todo)
    (hn : (todos.map (·.id)).Nodup) :
    (renumberBucket p todos).map (·.id) = todos.map (·.id) := by
  have hbsn := sortFilter_ids_nodup p hn
  unfold renumberBucket
  rw [densifyByMap_eq _ _ hbsn, List.map_map]
  exact List.map_congr_left fun t _ => applyPos_id _ t

/-- With `Nodup` ids, erasing the first id match is filtering that id out. -/
theorem eraseP_eq_filter_of_nodup {todos : List Todo} (k : Nat)
    (hn : (todos.map (·.id)).Nodup) :
    todos.eraseP (fun t => t.id = k) = todos.filter (fun t => t.id ≠ k) := by
  induction todos with
  | nil => rfl
  | cons t ts ih =>
    by_cases h : t.id = k
    · rw [List.eraseP_cons_of_pos (by simp [h])]
      rw [List.filter_cons_of_neg (by simp [h])]
      rw [List.filter_eq_self.mpr]
      intro u hu
      simp only [ne_eq, decide_eq_true_eq]
      intro hc
      apply (List.nodup_cons.mp hn).1
      show t.id ∈ ts.map (·.id)
      rw [h, ← hc]
      exact List.mem_map_of_mem _ hu
    · rw [List.eraseP_cons_of_neg (by simp [h])]
      rw [List.filter_cons_of_pos (by simp [h])]
      rw [ih (List.nodup_cons.mp hn).2]

/-- Replacing the unique element with a given id by `b` is, up to permutation,
removing it and adding `b`. -/
theorem map_replace_perm {todos : List Todo} (hn : (todos.map (·.id)).Nodup)
    {a : Todo} (ha : a ∈ todos) (b : Todo) :
    (todos.map fun t => if t.id = a.id then b else t).Perm
      (b :: todos.filter (fun t => t.id ≠ a.id)) := by
  rw [← eraseP_eq_filter_of_nodup a.id hn]
  induction todos with
  | nil => cases ha
  | cons t ts ih =>
    by_cases h : t.id = a.id
    · have hta : t = a := by
        rcases List.mem_cons.mp ha with rfl | hmem
        · rfl
        · exact eq_of_mem_of_id_eq hn (by simp) (by simp [hmem]) h
      rw [List.map_cons, if_pos h, List.eraseP_cons_of_pos (by simp [h])]
      have hrest : ts.map (fun t => if t.id = a.id then b else t) = ts := by
        conv_rhs => rw [← List.map_id ts]
        apply List.map_congr_left
        intro u hu
        show (if u.id = a.id then b else u) = id u
        have hne : u.id ≠ a.id := by
          intro hc
          apply (List.nodup_cons.mp hn).1
          show t.id ∈ ts.map (·.id)
          rw [h, ← hc]
          exact List.mem_map_of_mem _ hu
        rw [if_neg hne]
        rfl
      rw [hrest]
    · have ha' : a ∈ ts := by
        rcases List.mem_cons.mp ha with rfl | hmem
        · exact absurd rfl h
        · exact hmem
      rw [List.map_cons, if_neg h, List.eraseP_cons_of_neg (by simp [h])]
      exact ((ih (List.nodup_cons.mp hn).2 ha').cons t).trans
        (List.Perm.swap b t (ts.eraseP fun u => u.id = a.id))

/-! ## Infrastructure: transferring density across mutations -/

theorem DenseP_of_filter_eq {p : Todo → Bool} {todos todos' : List Todo}
    (h : todos'.filter p = todos.filter p) (hd : DenseP p todos) : DenseP p todos' := by
  unfold DenseP bucketOrders at *
  rw [h]
  exact hd

theorem DenseP_iff_of_filter_eq {p q : Todo → Bool} {l : List Todo}
    (h : l.filter p = l.filter q) : DenseP p l ↔ DenseP q l := by
  unfold DenseP bucketOrders
  rw [h]

theorem DenseP_of_filter_perm {p : Todo → Bool} {todos todos' : List Todo}
    (h : (todos'.filter p).Perm (todos.filter p)) (hd : DenseP p todos) :
    DenseP p todos' := by
  unfold DenseP bucketOrders at *
  refine ((h.map _).trans hd).trans ?_
  rw [h.length_eq]

theorem DenseP_append_one {p : Todo → Bool} {todos todos' : List Todo} {b : Todo}
    (h : (todos'.filter p).Perm (b :: todos.filter p))
    (hb : b.order = (todos.filter p).length)
    (hd : DenseP p todos) : DenseP p todos' := by
  unfold DenseP bucketOrders at *
  have hlen : (todos'.filter p).length = (todos.filter p).length + 1 := by
    rw [h.length_eq]
    rfl
  rw [hlen, List.range_succ]
  refine (h.map _).trans ?_
  rw [List.map_cons, hb]
  exact (hd.cons _).trans (List.perm_append_singleton _ _).symm

/-- The source's bucket filter for a bucket key: `!t.deadline` for the
unscheduled bucket, `t.deadline === d` for a date bucket. -/
def bucketPred : Option String → Todo → Bool
  | none, t => t.noDeadline
  | some d, t => t.deadline = some d

theorem orderBlind_bucketPred (κ : Option String) : OrderBlind (bucketPred κ) := by
  cases κ <;> exact fun _ _ => rfl

theorem orderBlind_inBucket (k : Option String) : OrderBlind (inBucket k) :=
  fun _ _ => rfl

theorem filter_remove_id_eq {todos : List Todo} (hn : (todos.map (·.id)).Nodup)
    {a : Todo} (ha : a ∈ todos) (q : Todo → Bool) (hqa : q a = false) :
    (todos.filter (fun t => t.id ≠ a.id)).filter q = todos.filter q := by
  rw [List.filter_filter]
  apply List.filter_congr
  intro t ht
  by_cases h : t.id = a.id
  · have hta : t = a := eq_of_mem_of_id_eq hn ht ha h
    subst hta
    simp [hqa]
  · simp [h]

theorem renumberBucket_mem {p : Todo → Bool} {todos : List Todo}
    (hn : (todos.map (·.id)).Nodup) {t : Todo}
    (ht : t ∈ renumberBucket p todos) :
    ∃ u ∈ todos, t.deadline = u.deadline := by
  rw [renumberBucket, densifyByMap_eq _ _ (sortFilter_ids_nodup p hn)] at ht
  rcases List.mem_map.mp ht with ⟨u, hu, rfl⟩
  exact ⟨u, hu, applyPos_deadline _ u⟩

/-- The master density argument behind every renumbering site of the source:
renumbering the bucket of key `κ` makes that bucket dense and keeps every
other (already dense) bucket dense. -/
theorem renumberBucket_denseAll (κ : Option String) (updated : List Todo)
    (hn : (updated.map (·.id)).Nodup) (hne : ∀ t ∈ updated, t.deadline ≠ some "")
    (hd : ∀ k, k ≠ κ → DenseP (inBucket k) updated) :
    DenseAll (renumberBucket (bucketPred κ) updated) := by
  intro k
  by_cases hk : k = κ
  · subst hk
    have hdense := renumberBucket_dense (bucketPred k) updated hn (orderBlind_bucketPred k)
    have hfeq : (renumberBucket (bucketPred k) updated).filter (inBucket k) =
        (renumberBucket (bucketPred k) updated).filter (bucketPred k) := by
      apply List.filter_congr
      intro t ht
      cases k with
      | none =>
        show decide (t.deadline = none) = t.noDeadline
        rcases renumberBucket_mem hn ht with ⟨u, hu, hdl⟩
        unfold Todo.noDeadline
        cases hdlc : t.deadline with
        | none => simp
        | some s =>
          have hs : s ≠ "" := by
            intro hc
            exact hne u hu (by rw [← hdl, hdlc, hc])
          simp [hs]
      | some d => rfl
    exact (DenseP_iff_of_filter_eq hfeq).mpr hdense
  · have hdisj : ∀ t ∈ updated, inBucket k t = true → bucketPred κ t = false := by
      intro t ht hkt
      have hdl : t.deadline = k := by simpa [inBucket] using hkt
      cases κ with
      | none =>
        show t.noDeadline = false
        unfold Todo.noDeadline
        cases hdlc : t.deadline with
        | none => rw [hdlc] at hdl; exact absurd hdl.symm hk
        | some s =>
          have hs : s ≠ "" := by
            intro hc
            exact hne t ht (by rw [hdlc, hc])
          simp [hs]
      | some d =>
        show decide (t.deadline = some d) = false
        rw [hdl]
        simp [hk]
    have hfeq := renumberBucket_filter_other (bucketPred κ) (inBucket k) updated hn
      (orderBlind_inBucket k) hdisj
    exact DenseP_of_filter_eq hfeq (hd k hk)

/-- `deleteTodo` preserves Invariant I1 on every bucket. -/
theorem deleteTodo_denseAll (todos : List Todo) (hwf : WellFormed todos)
    (hd : DenseAll todos) (id : Nat) : DenseAll (deleteTodo todos id) := by
  obtain ⟨hn, hne⟩ := hwf
  unfold deleteTodo
  cases hfind : todos.find? (fun t => t.id = id) with
  | none => exact hd
  | some a =>
    have ha : a ∈ todos := List.mem_of_find?_eq_some hfind
    have haid : a.id = id := by simpa using List.find?_some hfind
    subst haid
    have hnu : ((todos.filter (fun t => t.id ≠ a.id)).map (·.id)).Nodup :=
      filter_ids_nodup _ hn
    have hneu : ∀ t ∈ todos.filter (fun t => t.id ≠ a.id), t.deadline ≠ some "" :=
      fun t ht => hne t (List.mem_of_mem_filter ht)
    have hdu : ∀ k, k ≠ a.deadline →
        DenseP (inBucket k) (todos.filter (fun t => t.id ≠ a.id)) := by
      intro k hk
      have hqa : inBucket k a = false := by
        unfold inBucket
        simp only [decide_eq_false_iff_not]
        exact fun hc => hk hc.symm
      exact DenseP_of_filter_eq (filter_remove_id_eq hn ha _ hqa) (hd k)
    show DenseAll (match a.deadline with
      | none => renumberBucket (fun t => t.noDeadline) (todos.filter fun t => t.id ≠ a.id)
      | some d => renumberBucket (fun t => t.deadline = some d)
          (todos.filter fun t => t.id ≠ a.id))
    cases hdl : a.deadline with
    | none =>
      rw [hdl] at hdu
      exact renumberBucket_denseAll none _ hnu hneu hdu
    | some d =>
      rw [hdl] at hdu
      exact renumberBucket_denseAll (some d) _ hnu hneu hdu

/-! ## Infrastructure: densifying along an arbitrary permutation of a bucket -/

theorem noDeadline_eq_isNone {t : Todo} (h : t.deadline ≠ some "") :
    t.noDeadline = decide (t.deadline = none) := by
  unfold Todo.noDeadline
  cases hdl : t.deadline with
  | none => simp
  | some s =>
    have hs : s ≠ "" := fun hc => h (by rw [hdl, hc])
    simp [hs]

theorem densifyByMap_dense (p : Todo → Bool) (seq todos : List Todo)
    (hn : (todos.map (·.id)).Nodup) (hp : OrderBlind p)
    (hperm : seq.Perm (todos.filter p)) :
    DenseP p (densifyByMap seq todos) := by
  have hsn : (seq.map (·.id)).Nodup :=
    ((hperm.map (·.id)).nodup_iff).mpr (filter_ids_nodup p hn)
  unfold DenseP bucketOrders
  rw [densifyByMap_eq _ _ hsn, filter_map_applyPos _ _ _ hp, List.map_map]
  have hmp : ((todos.filter p).map ((fun t => t.order) ∘ applyPos seq)).Perm
      (seq.map fun t => (applyPos seq t).order) := hperm.symm.map _
  rw [map_applyPos_order_self _ hsn, hperm.length_eq] at hmp
  have hlen2 : ((todos.filter p).map (applyPos seq)).length
      = (todos.filter p).length := by simp
  rw [hlen2]
  exact hmp

theorem densifyByMap_filter_other (p q : Todo → Bool) (seq todos : List Todo)
    (hn : (todos.map (·.id)).Nodup) (hq : OrderBlind q)
    (hperm : seq.Perm (todos.filter p))
    (hdisj : ∀ t ∈ todos, q t = true → p t = false) :
    (densifyByMap seq todos).filter q = todos.filter q := by
  have hsn : (seq.map (·.id)).Nodup :=
    ((hperm.map (·.id)).nodup_iff).mpr (filter_ids_nodup p hn)
  rw [densifyByMap_eq _ _ hsn, List.filter_map]
  have hqf : todos.filter (q ∘ applyPos seq) = todos.filter q :=
    List.filter_congr fun t _ => applyPos_pred hq _ t
  rw [hqf]
  conv_rhs => rw [← List.map_id (todos.filter q)]
  apply List.map_congr_left
  intro t ht
  show applyPos seq t = t
  apply applyPos_of_not_mem
  intro hmem
  have hmem2 : t.id ∈ (todos.filter p).map (·.id) := (hperm.map (·.id)).mem_iff.mp hmem
  rcases List.mem_map.mp hmem2 with ⟨u, hu, huid⟩
  have hut : u = t :=
    eq_of_mem_of_id_eq hn (List.mem_of_mem_filter hu) (List.mem_of_mem_filter ht) huid
  have hpu : p u = true := List.of_mem_filter hu
  rw [hut, hdisj t (List.mem_of_mem_filter ht) (List.of_mem_filter ht)] at hpu
  cases hpu

/-- Master density argument for the reorder path: densifying along any
permutation of the bucket with key `κ` makes that bucket dense and keeps the
other (already dense) buckets dense. -/
theorem densifyByMap_denseAll (κ : Option String) (seq todos : List Todo)
    (hn : (todos.map (·.id)).Nodup) (hne : ∀ t ∈ todos, t.deadline ≠ some "")
    (hperm : seq.Perm (todos.filter (bucketPred κ)))
    (hd : ∀ k, k ≠ κ → DenseP (inBucket k) todos) :
    DenseAll (densifyByMap seq todos) := by
  have hsn : (seq.map (·.id)).Nodup :=
    ((hperm.map (·.id)).nodup_iff).mpr (filter_ids_nodup _ hn)
  intro k
  by_cases hk : k = κ
  · subst hk
    have hdense := densifyByMap_dense (bucketPred k) seq todos hn (orderBlind_bucketPred k) hperm
    have hfeq : (densifyByMap seq todos).filter (inBucket k) =
        (densifyByMap seq todos).filter (bucketPred k) := by
      apply List.filter_congr
      intro t ht
      cases k with
      | none =>
        show decide (t.deadline = none) = t.noDeadline
        rw [densifyByMap_eq _ _ hsn] at ht
        rcases List.mem_map.mp ht with ⟨u, hu, rfl⟩
        have hnd : (applyPos seq u).deadline ≠ some "" := by
          rw [applyPos_deadline]
          exact hne u hu
        rw [noDeadline_eq_isNone hnd]
      | some d => rfl
    exact (DenseP_iff_of_filter_eq hfeq).mpr hdense
  · have hdisj : ∀ t ∈ todos, inBucket k t = true → bucketPred κ t = false := by
      intro t ht hkt
      have hdl : t.deadline = k := by simpa [inBucket] using hkt
      cases κ with
      | none =>
        show t.noDeadline = false
        rw [noDeadline_eq_isNone (hne t ht), hdl]
        simp [hk]
      | some d =>
        show decide (t.deadline = some d) = false
        rw [hdl]
        simp [hk]
    have hfeq := densifyByMap_filter_other (bucketPred κ) (inBucket k) seq todos hn
      (orderBlind_inBucket k) hperm hdisj
    exact DenseP_of_filter_eq hfeq (hd k hk)

/-! ## Infrastructure: `arrayMove`, `findIndex`, and the replace-one-todo map -/

theorem insertAt_perm (x : Todo) (n : Nat) (l : List Todo) :
    (insertAt x n l).Perm (x :: l) := by
  induction l generalizing n with
  | nil => cases n <;> exact .refl _
  | cons y ys ih =>
    cases n with
    | zero => exact .refl _
    | succ m =>
      show (y :: insertAt x m ys).Perm (x :: y :: ys)
      exact ((ih m).cons y).trans (List.Perm.swap x y ys)

theorem removeAt_perm {l : List Todo} {i : Nat} {x : Todo} (h : l[i]? = some x) :
    (x :: removeAt i l).Perm l := by
  induction l generalizing i with
  | nil => simp at h
  | cons t ts ih =>
    cases i with
    | zero =>
      simp only [List.getElem?_cons_zero, Option.some_inj] at h
      subst h
      exact .refl _
    | succ j =>
      simp only [List.getElem?_cons_succ] at h
      show (x :: t :: removeAt j ts).Perm (t :: ts)
      exact (List.Perm.swap t x (removeAt j ts)).trans ((ih h).cons t)

theorem arrayMove_perm {l : List Todo} {i : Nat} (j : Nat) (h : i < l.length) :
    (arrayMove l i j).Perm l := by
  unfold arrayMove
  rw [List.getElem?_eq_getElem h]
  exact (insertAt_perm _ _ _).trans (removeAt_perm (List.getElem?_eq_getElem h))

theorem findIdxAux_some {p : Todo → Bool} {l : List Todo} {i : Nat}
    (h : findIdxAux p l = some i) : ∃ hi : i < l.length, p (l.get ⟨i, hi⟩) = true := by
  induction l generalizing i with
  | nil => simp [findIdxAux] at h
  | cons t ts ih =>
    simp only [findIdxAux] at h
    by_cases ht : p t
    · rw [if_pos ht] at h
      cases h
      exact ⟨by simp, ht⟩
    · rw [if_neg ht] at h
      cases hpo : findIdxAux p ts with
      | none => rw [hpo] at h; simp at h
      | some j =>
        rw [hpo] at h
        have h2 : j + 1 = i := by
          cases h
          rfl
        cases h2
        rcases ih hpo with ⟨hlt, hget⟩
        exact ⟨by simpa using Nat.succ_lt_succ hlt, hget⟩

theorem map_if_eq_self {ts : List Todo} {c : Todo → Bool}
    (h : ∀ t ∈ ts, c t = false) (f : Todo → Todo) :
    ts.map (fun t => if c t then f t else t) = ts := by
  conv_rhs => rw [← List.map_id ts]
  apply List.map_congr_left
  intro t ht
  show (if c t then f t else t) = id t
  rw [h t ht]
  simp

theorem map_replace_ids {todos : List Todo} {k : Nat} {b : Todo} (hb : b.id = k) :
    ((todos.map fun t => if t.id = k then b else t).map (·.id)) = todos.map (·.id) := by
  rw [List.map_map]
  apply List.map_congr_left
  intro t _
  by_cases h : t.id = k
  · simp [h, hb]
  · simp [h]

theorem map_replace_mem {todos : List Todo} {a b t : Todo}
    (ht : t ∈ todos.map fun u => if u.id = a.id then b else u) :
    t = b ∨ t ∈ todos := by
  rcases List.mem_map.mp ht with ⟨u, hu, rfl⟩
  by_cases h : u.id = a.id
  · left; simp [h]
  · right; simpa [h] using hu

theorem filter_map_replace_perm_of_not {todos : List Todo}
    (hn : (todos.map (·.id)).Nodup) {a : Todo} (ha : a ∈ todos) (b : Todo)
    (q : Todo → Bool) (hqa : q a = false) (hqb : q b = false) :
    (((todos.map fun t => if t.id = a.id then b else t).filter q)).Perm
      (todos.filter q) := by
  have hp := (map_replace_perm hn ha b).filter q
  rw [List.filter_cons_of_neg (by simp [hqb]), filter_remove_id_eq hn ha q hqa] at hp
  exact hp

theorem filter_map_replace_perm_of_mem {todos : List Todo}
    (hn : (todos.map (·.id)).Nodup) {a : Todo} (ha : a ∈ todos) (b : Todo)
    (q : Todo → Bool) (hqa : q a = false) (hqb : q b = true) :
    (((todos.map fun t => if t.id = a.id then b else t).filter q)).Perm
      (b :: todos.filter q) := by
  have hp := (map_replace_perm hn ha b).filter q
  rw [List.filter_cons_of_pos (by simp [hqb]), filter_remove_id_eq hn ha q hqa] at hp
  exact hp

theorem findById_some {todos : List Todo} {v : Option Int} {a : Todo}
    (h : findById todos v = some a) :
    a ∈ todos ∧ ∃ n : Int, v = some n ∧ (a.id : Int) = n := by
  unfold findById at h
  cases v with
  | none => cases h
  | some n =>
    refine ⟨List.mem_of_find?_eq_some h, n, rfl, ?_⟩
    simpa using List.find?_some h

theorem map_idMatch_eq_replace {todos : List Todo} (hn : (todos.map (·.id)).Nodup)
    {v : Option Int} {a : Todo} (hfind : findById todos v = some a) (g : Todo → Todo) :
    todos.map (fun t => if idMatches t v then g t else t)
      = todos.map (fun t => if t.id = a.id then g a else t) := by
  rcases findById_some hfind with ⟨ha, n, rfl, hai⟩
  apply List.map_congr_left
  intro t ht
  by_cases h : (t.id : Int) = n
  · have hta : t = a := by
      apply eq_of_mem_of_id_eq hn ht ha
      have : (t.id : Int) = (a.id : Int) := by rw [h, hai]
      exact_mod_cast this
    subst hta
    simp [idMatches, h]
  · have hne : t.id ≠ a.id := by
      intro hc
      apply h
      rw [hc, hai]
    simp [idMatches, h, hne]

theorem filter_noDeadline_eq_inBucket {l : List Todo}
    (h : ∀ t ∈ l, t.deadline ≠ some "") :
    l.filter (fun t => t.noDeadline) = l.filter (inBucket none) :=
  List.filter_congr fun t ht => by
    rw [noDeadline_eq_isNone (h t ht)]
    rfl

theorem isDateFormat_ne_empty {s : String} (h : isDateFormat s = true) : s ≠ "" := by
  intro hc
  subst hc
  exact absurd h (by decide)

theorem isDateFormat_ne_unscheduled {s : String} (h : isDateFormat s = true) :
    s ≠ "unscheduled" := by
  intro hc
  subst hc
  exact absurd h (by decide)

/-- Master argument for a cross-bucket move: replace the moved todo by its
relocated copy (appended at the end of the destination bucket, which stays
dense) and renumber the source bucket it left (which becomes dense); all
other buckets are untouched. -/
theorem moveRenumber_denseAll (todos : List Todo)
    (hn : (todos.map (·.id)).Nodup) (hne : ∀ t ∈ todos, t.deadline ≠ some "")
    (hd : DenseAll todos) {a : Todo} (ha : a ∈ todos) (κdst : Option String)
    (hnedst : κdst ≠ some "") (hdiff : κdst ≠ a.deadline) (c : Nat)
    (hc : c = (todos.filter (inBucket κdst)).length) :
    DenseAll (renumberBucket (bucketPred a.deadline)
      (todos.map fun t => if t.id = a.id then
        { a with deadline := κdst, order := c } else t)) := by
  have hnu : (((todos.map fun t => if t.id = a.id then
      { a with deadline := κdst, order := c } else t)).map (·.id)).Nodup := by
    rw [map_replace_ids
      (show ({ a with deadline := κdst, order := c } : Todo).id = a.id from rfl)]
    exact hn
  have hneu : ∀ t ∈ (todos.map fun t => if t.id = a.id then
      { a with deadline := κdst, order := c } else t), t.deadline ≠ some "" := by
    intro t ht
    rcases map_replace_mem ht with rfl | htm
    · exact hnedst
    · exact hne t htm
  apply renumberBucket_denseAll a.deadline _ hnu hneu
  intro k hk
  by_cases hkd : k = κdst
  · subst hkd
    have hperm : (((todos.map fun t => if t.id = a.id then
        { a with deadline := k, order := c } else t)).filter (inBucket k)).Perm
        (({ a with deadline := k, order := c } : Todo) :: todos.filter (inBucket k)) := by
      apply filter_map_replace_perm_of_mem hn ha
      · unfold inBucket
        simp only [decide_eq_false_iff_not]
        exact fun hc2 => hdiff hc2.symm
      · unfold inBucket
        simp
    exact DenseP_append_one hperm hc (hd k)
  · refine DenseP_of_filter_perm ?_ (hd k)
    apply filter_map_replace_perm_of_not hn ha
    · unfold inBucket
      simp only [decide_eq_false_iff_not]
      exact fun hc2 => hk hc2.symm
    · unfold inBucket
      simp only [decide_eq_false_iff_not]
      exact fun hc2 => hkd hc2.symm

theorem findById_none {todos : List Todo} {v : Option Int}
    (h : findById todos v = none) : ∀ t ∈ todos, idMatches t v = false := by
  intro t ht
  unfold findById at h
  cases v with
  | none => rfl
  | some n =>
    have := List.find?_eq_none.mp h t ht
    simpa [idMatches] using this

theorem idMatches_unique {todos : List Todo} (hn : (todos.map (·.id)).Nodup)
    {v : Option Int} {a : Todo} (hfind : findById todos v = some a)
    {t : Todo} (ht : t ∈ todos) (hm : idMatches t v = true) : t = a := by
  rcases findById_some hfind with ⟨ha, n, rfl, hai⟩
  have hti : (t.id : Int) = n := by simpa [idMatches] using hm
  apply eq_of_mem_of_id_eq hn ht ha
  exact_mod_cast hti.trans hai.symm

/-- The `"unscheduled"` drop preserves density in every bucket, provided the
dragged todo was not already unscheduled (in that case the code appends past
the end of the bucket without re-densifying it — see the C1 counterexample). -/
theorem dropToUnscheduled_denseAll (todos : List Todo)
    (hn : (todos.map (·.id)).Nodup) (hne : ∀ t ∈ todos, t.deadline ≠ some "")
    (hd : DenseAll todos) (A : Option Int)
    (hown : ∀ a, findById todos A = some a → a.deadline ≠ none) :
    DenseAll (dropToUnscheduled todos A) := by
  unfold dropToUnscheduled unschedUpdatedTodos
  cases hfind : findById todos A with
  | none =>
    rw [show (Option.bind (none : Option Todo) (·.deadline)) = none from rfl]
    rw [if_neg (by simp [truthyDeadline])]
    rw [map_if_eq_self (findById_none hfind) _]
    exact hd
  | some a =>
    cases hdl : a.deadline with
    | none => exact absurd hdl (hown a hfind)
    | some d =>
      have ham : a ∈ todos := (findById_some hfind).1
      have hdne : d ≠ "" := by
        intro hc
        exact hne a ham (by rw [hdl, hc])
      rw [show (Option.bind (some a) (·.deadline)) = a.deadline from rfl, hdl]
      rw [if_pos (by simp [truthyDeadline, hdne])]
      rw [map_idMatch_eq_replace hn hfind _]
      have hres := moveRenumber_denseAll todos hn hne hd ham none (by simp)
        (by rw [hdl]; simp) ((todos.filter fun u => u.noDeadline).length)
        (show (todos.filter fun u => u.noDeadline).length
          = (todos.filter (inBucket none)).length by
            rw [filter_noDeadline_eq_inBucket hne])
      rw [hdl] at hres
      exact hres

/-- The date-zone drop preserves density in every bucket, provided the target
date is not the dragged todo's own current bucket (in that case the code can
assign a duplicate order — see the C1 counterexample). -/
theorem dropToDate_denseAll (todos : List Todo)
    (hn : (todos.map (·.id)).Nodup) (hne : ∀ t ∈ todos, t.deadline ≠ some "")
    (hd : DenseAll todos) (A : Option Int) {z : String} (hz : isDateFormat z = true)
    (hown : ∀ a, findById todos A = some a → a.deadline ≠ some z) :
    DenseAll (dropToDate todos A z) := by
  have hzne : z ≠ "" := isDateFormat_ne_empty hz
  unfold dropToDate dateUpdatedTodos
  cases hfind : findById todos A with
  | none =>
    rw [show (Option.bind (none : Option Todo) (·.deadline)) = none from rfl]
    rw [if_pos (show (none : Option String) ≠ some z by simp)]
    rw [map_if_eq_self (findById_none hfind) _]
    exact renumberBucket_denseAll none todos hn hne fun k _ => hd k
  | some a =>
    have ham : a ∈ todos := (findById_some hfind).1
    have hcnt : (sortByOrder (todos.filter fun u =>
        u.deadline = some z && !(idMatches u A))).length
        = (todos.filter (inBucket (some z))).length := by
      rw [(sortByOrder_perm _).length_eq]
      have hfe : (todos.filter fun u => u.deadline = some z && !(idMatches u A))
          = todos.filter (inBucket (some z)) := by
        apply List.filter_congr
        intro t ht
        show (decide (t.deadline = some z) && !(idMatches t A)) = inBucket (some z) t
        by_cases hdt : t.deadline = some z
        · have hmf : idMatches t A = false := by
            cases hmo : idMatches t A with
            | false => rfl
            | true =>
              have hta := idMatches_unique hn hfind ht hmo
              rw [hta] at hdt
              exact absurd hdt (hown a hfind)
          simp [hdt, hmf, inBucket]
        · simp [hdt, inBucket]
      rw [hfe]
    cases hdl : a.deadline with
    | none =>
      rw [show (Option.bind (some a) (·.deadline)) = a.deadline from rfl, hdl]
      rw [if_pos (show (none : Option String) ≠ some z by simp)]
      rw [map_idMatch_eq_replace hn hfind _]
      have hres := moveRenumber_denseAll todos hn hne hd ham (some z)
        (by simp [hzne]) (by rw [hdl]; simp)
        ((sortByOrder (todos.filter fun u =>
          u.deadline = some z && !(idMatches u A))).length) hcnt
      rw [hdl] at hres
      exact hres
    | some s =>
      have hsz : some s ≠ some z := by
        intro hc
        apply hown a hfind
        rw [hdl, hc]
      rw [show (Option.bind (some a) (·.deadline)) = a.deadline from rfl, hdl]
      rw [if_pos hsz]
      rw [map_idMatch_eq_replace hn hfind _]
      have hres := moveRenumber_denseAll todos hn hne hd ham (some z)
        (by simp [hzne]) (by rw [hdl]; exact fun hc => hsz hc.symm)
        ((sortByOrder (todos.filter fun u =>
          u.deadline = some z && !(idMatches u A))).length) hcnt
      rw [hdl] at hres
      exact hres

/-- The early-returning reorder branch preserves density in every bucket. -/
theorem reorderStep_denseAll {todos r : List Todo}
    (hn : (todos.map (·.id)).Nodup) (hne : ∀ t ∈ todos, t.deadline ≠ some "")
    (hd : DenseAll todos) {A O : Option Int}
    (h : reorderStep todos A O = some r) : DenseAll r := by
  unfold reorderStep at h
  cases hfa : findById todos A with
  | none => rw [hfa] at h; cases h
  | some a =>
    rw [hfa] at h
    cases hfo : findById todos O with
    | none => rw [hfo] at h; cases h
    | some o =>
      rw [hfo] at h
      replace h : (if a.deadline = o.deadline then
          match findIndexById (reorderList todos a) A,
                findIndexById (reorderList todos a) O with
          | some oldIndex, some newIndex =>
            if oldIndex ≠ newIndex then
              some (densifyByMap (arrayMove (reorderList todos a) oldIndex newIndex) todos)
            else none
          | _, _ => none
        else none) = some r := h
      by_cases hdlo : a.deadline = o.deadline
      · rw [if_pos hdlo] at h
        cases hoi : findIndexById (reorderList todos a) A with
        | none => rw [hoi] at h; cases h
        | some oi =>
          cases hni : findIndexById (reorderList todos a) O with
          | none => rw [hoi, hni] at h; cases h
          | some ni =>
            rw [hoi, hni] at h
            replace h : (if oi ≠ ni then
                some (densifyByMap (arrayMove (reorderList todos a) oi ni) todos)
              else none) = some r := h
            by_cases hnei : oi ≠ ni
            · rw [if_pos hnei] at h
              have hr : densifyByMap (arrayMove (reorderList todos a) oi ni) todos = r := by
                cases h
                rfl
              subst hr
              have ham : a ∈ todos := (findById_some hfa).1
              rcases findById_some hfa with ⟨_, n, hAn, hai⟩
              have hoilt : oi < (reorderList todos a).length := by
                rw [hAn] at hoi
                unfold findIndexById at hoi
                exact (findIdxAux_some hoi).1
              have hperm0 : (arrayMove (reorderList todos a) oi ni).Perm
                  (reorderList todos a) := arrayMove_perm ni hoilt
              cases hadl : a.deadline with
              | none =>
                have hRL : reorderList todos a
                    = sortByOrder (todos.filter fun t => t.noDeadline) := by
                  unfold reorderList
                  rw [hadl]
                  rfl
                apply densifyByMap_denseAll none _ todos hn hne
                · rw [hRL] at hperm0 ⊢
                  exact hperm0.trans (sortByOrder_perm _)
                · exact fun k hk => hd k
              | some d =>
                have hdne : d ≠ "" := by
                  intro hc
                  exact hne a ham (by rw [hadl, hc])
                have hRL : reorderList todos a
                    = sortByOrder (todos.filter fun t => t.deadline = some d) := by
                  unfold reorderList
                  rw [hadl, if_pos (by simp [truthyDeadline, hdne])]
                apply densifyByMap_denseAll (some d) _ todos hn hne
                · rw [hRL] at hperm0 ⊢
                  exact hperm0.trans (sortByOrder_perm _)
                · exact fun k hk => hd k
            · rw [if_neg hnei] at h
              cases h
      · rw [if_neg hdlo] at h
        cases h

/-- A drop target that is the dragged todo's own bucket zone: the situations
`handleDragEnd` mishandles (the only ones in which I1 is violated). -/
def ownZoneDrop (todos : List Todo) (activeId overId : String) : Prop :=
  ∃ a, findById todos (jsParseInt (jsRemoveFirst activeId "todo-")) = some a ∧
    ((overId = "unscheduled" ∧ a.deadline = none) ∨
     (isDateFormat overId = true ∧ a.deadline = some overId))

theorem zoneStep_denseAll (todos : List Todo)
    (hn : (todos.map (·.id)).Nodup) (hne : ∀ t ∈ todos, t.deadline ≠ some "")
    (hd : DenseAll todos) (A : Option Int) (z : String)
    (hown1 : z = "unscheduled" → ∀ a, findById todos A = some a → a.deadline ≠ none)
    (hown2 : isDateFormat z = true → ∀ a, findById todos A = some a →
      a.deadline ≠ some z) :
    DenseAll (zoneStep todos A z) := by
  unfold zoneStep
  by_cases hz : z = "unscheduled"
  · rw [if_pos hz]
    exact dropToUnscheduled_denseAll todos hn hne hd A (hown1 hz)
  · rw [if_neg hz]
    by_cases hdz : isDateFormat z
    · rw [if_pos hdz]
      exact dropToDate_denseAll todos hn hne hd A hdz (hown2 hdz)
    · rw [if_neg hdz]
      exact hd

/-! ## Claim C1: preservation of the dense-ordering invariant -/

/-- **C1 (amended).** For every well-formed collection (unique ids, no
empty-string deadline) in which every bucket's `order` values are exactly
`{0, …, n-1}`, every delete and every drag-end event — *except* a drop onto
the bucket-zone identifier of the dragged todo's own current bucket — leaves
every bucket's `order` values exactly `{0, …, n-1}` again, with no gaps or
duplicates. The excluded own-zone drops genuinely violate the invariant, as
`dragEnd_ownZone_violates_dense` shows, so the claim as frozen is false and
this is the nearest true statement. -/
theorem dragEnd_deleteTodo_preserve_denseAll
    (todos : List Todo) (hwf : WellFormed todos) (hd : DenseAll todos) :
    (∀ id, DenseAll (deleteTodo todos id)) ∧
    (∀ activeId over, (∀ z, over = some z → ¬ ownZoneDrop todos activeId z) →
      DenseAll (handleDragEnd todos activeId over)) := by
  obtain ⟨hn, hne⟩ := hwf
  constructor
  · exact fun id => deleteTodo_denseAll todos ⟨hn, hne⟩ hd id
  · intro activeId over hown
    unfold handleDragEnd
    cases over with
    | none => exact hd
    | some overId =>
      show DenseAll (match reorderStep todos
          (jsParseInt (jsRemoveFirst activeId "todo-"))
          (jsParseInt (jsRemoveFirst overId "todo-")) with
        | some result => result
        | none => zoneStep todos (jsParseInt (jsRemoveFirst activeId "todo-")) overId)
      cases hro : reorderStep todos (jsParseInt (jsRemoveFirst activeId "todo-"))
          (jsParseInt (jsRemoveFirst overId "todo-")) with
      | some result => exact reorderStep_denseAll hn hne hd hro
      | none =>
        show DenseAll (zoneStep todos (jsParseInt (jsRemoveFirst activeId "todo-")) overId)
        apply zoneStep_denseAll todos hn hne hd
        · intro hz a hfind hdl
          exact hown overId rfl ⟨a, hfind, Or.inl ⟨hz, hdl⟩⟩
        · intro hz a hfind hdl
          exact hown overId rfl ⟨a, hfind, Or.inr ⟨hz, hdl⟩⟩

/-- **C1, counterexample.** The frozen claim quantifies over *every* drag-end
event, explicitly including a drop onto the bucket-zone identifier of the
dragged todo's own bucket. The code violates the dense-ordering invariant
there: dropping the only unscheduled todo onto the `"unscheduled"` zone gives
it order 1 (bucket orders `{1}` instead of `{0}`), and dropping a date todo
onto its own date zone duplicates an order (orders `{1, 1}` instead of
`{0, 1}`). -/
theorem dragEnd_ownZone_violates_dense :
    (WellFormed [⟨1, "a", false, none, 0⟩] ∧
      DenseAll [⟨1, "a", false, none, 0⟩] ∧
      ¬ DenseP (inBucket none)
        (handleDragEnd [⟨1, "a", false, none, 0⟩] "todo-1" (some "unscheduled"))) ∧
    (WellFormed [⟨1, "a", false, some "2025-03-10", 0⟩,
        ⟨2, "b", false, some "2025-03-10", 1⟩] ∧
      DenseAll [⟨1, "a", false, some "2025-03-10", 0⟩,
        ⟨2, "b", false, some "2025-03-10", 1⟩] ∧
      ¬ DenseP (inBucket (some "2025-03-10"))
        (handleDragEnd [⟨1, "a", false, some "2025-03-10", 0⟩,
          ⟨2, "b", false, some "2025-03-10", 1⟩] "todo-1" (some "2025-03-10"))) := by
  refine ⟨⟨⟨by decide, by decide⟩, ?_, by decide⟩, ⟨by decide, by decide⟩, ?_, by decide⟩
  · intro k
    cases k with
    | none => decide
    | some s =>
      unfold DenseP bucketOrders
      have hf : ([⟨1, "a", false, none, 0⟩] : List Todo).filter (inBucket (some s)) = [] := by
        simp [inBucket]
      rw [hf]
      exact .refl _
  · intro k
    by_cases h10 : k = some "2025-03-10"
    · subst h10
      decide
    · unfold DenseP bucketOrders
      have hku : (some "2025-03-10" : Option String) ≠ k := fun hc => h10 hc.symm
      have hf : ([⟨1, "a", false, some "2025-03-10", 0⟩,
          ⟨2, "b", false, some "2025-03-10", 1⟩] : List Todo).filter (inBucket k) = [] := by
        simp [inBucket, hku]
      rw [hf]
      exact .refl _

/-- **C1, witness.** The amended theorem applied at a concrete input: a
well-formed dense collection, a delete, and a cross-bucket drag (not an
own-zone drop). -/
theorem dragEnd_deleteTodo_preserve_denseAll_witness :
    DenseAll (deleteTodo [⟨1, "a", false, none, 0⟩] 1) ∧
    DenseAll (handleDragEnd [⟨1, "a", false, none, 0⟩] "todo-1" (some "2025-03-10")) := by
  have hwf : WellFormed [⟨1, "a", false, none, 0⟩] := ⟨by decide, by decide⟩
  have hd : DenseAll [⟨1, "a", false, none, 0⟩] := by
    intro k
    cases k with
    | none => decide
    | some s =>
      unfold DenseP bucketOrders
      have hf : ([⟨1, "a", false, none, 0⟩] : List Todo).filter (inBucket (some s))
          = [] := by
        simp [inBucket]
      rw [hf]
      exact .refl _
  have hmain := dragEnd_deleteTodo_preserve_denseAll _ hwf hd
  refine ⟨hmain.1 1, hmain.2 "todo-1" (some "2025-03-10") ?_⟩
  intro z hz hzo
  cases Option.some.inj hz
  rcases hzo with ⟨a, hfind, hcase⟩
  have hfc : findById [(⟨1, "a", false, none, 0⟩ : Todo)]
      (jsParseInt (jsRemoveFirst "todo-1" "todo-"))
      = some ⟨1, "a", false, none, 0⟩ := by decide
  rw [hfc] at hfind
  cases Option.some.inj hfind
  rcases hcase with ⟨h1, _⟩ | ⟨_, h2⟩
  · exact absurd h1 (by decide)
  · exact absurd h2 (by decide)

/-! ## Infrastructure for the cross-bucket move characterization -/

theorem find?_id_self {todos : List Todo} (hn : (todos.map (·.id)).Nodup)
    {a : Todo} (ha : a ∈ todos) : todos.find? (fun t => t.id = a.id) = some a := by
  induction todos with
  | nil => cases ha
  | cons t ts ih =>
    by_cases h : t.id = a.id
    · have hta : t = a := by
        rcases List.mem_cons.mp ha with rfl | hmem
        · rfl
        · exact eq_of_mem_of_id_eq hn (by simp) (by simp [hmem]) h
      rw [List.find?_cons_of_pos _ (by simp [h]), hta]
    · have ha' : a ∈ ts := by
        rcases List.mem_cons.mp ha with rfl | hmem
        · exact absurd rfl h
        · exact hmem
      rw [List.find?_cons_of_neg _ (by simp [h])]
      exact ih (List.nodup_cons.mp hn).2 ha'

theorem find?_map_id_pres {todos : List Todo} {f : Todo → Todo}
    (hid : ∀ t ∈ todos, (f t).id = t.id) (n : Nat) :
    (todos.map f).find? (fun t => t.id = n)
      = (todos.find? (fun t => t.id = n)).map f := by
  induction todos with
  | nil => rfl
  | cons t ts ih =>
    simp only [List.map_cons]
    by_cases h : t.id = n
    · rw [List.find?_cons_of_pos _ (by simp [hid t (by simp), h]),
        List.find?_cons_of_pos _ (by simp [h])]
      rfl
    · rw [List.find?_cons_of_neg _ (by simp [hid t (by simp), h]),
        List.find?_cons_of_neg _ (by simp [h])]
      exact ih fun u hu => hid u (by simp [hu])

theorem length_filter_ne_id {todos : List Todo} (hn : (todos.map (·.id)).Nodup)
    {a : Todo} (ha : a ∈ todos) :
    (todos.filter (fun t => t.id ≠ a.id)).length + 1 = todos.length := by
  induction todos with
  | nil => cases ha
  | cons t ts ih =>
    by_cases h : t.id = a.id
    · rw [List.filter_cons_of_neg (by simp [h])]
      have hself : ts.filter (fun t => t.id ≠ a.id) = ts := by
        rw [List.filter_eq_self]
        intro u hu
        simp only [ne_eq, decide_eq_true_eq]
        intro hc
        apply (List.nodup_cons.mp hn).1
        show t.id ∈ ts.map (·.id)
        rw [h, ← hc]
        exact List.mem_map_of_mem _ hu
      rw [hself]
      simp
    · have ha' : a ∈ ts := by
        rcases List.mem_cons.mp ha with rfl | hmem
        · exact absurd rfl h
        · exact hmem
      rw [List.filter_cons_of_pos (by simp [h])]
      have := ih (List.nodup_cons.mp hn).2 ha'
      simp only [List.length_cons]
      omega

theorem filter_map_replace_perm_out {todos : List Todo}
    (hn : (todos.map (·.id)).Nodup) {a : Todo} (ha : a ∈ todos) (b : Todo)
    (q : Todo → Bool) (hqb : q b = false) :
    ((todos.map fun t => if t.id = a.id then b else t).filter q).Perm
      ((todos.filter (fun t => t.id ≠ a.id)).filter q) := by
  have hp := (map_replace_perm hn ha b).filter q
  rw [List.filter_cons_of_neg (by simp [hqb])] at hp
  exact hp

/-- When the parsed over-id does not resolve to a todo in the dragged todo's
bucket, the reorder branch falls through and `handleDragEnd` is the zone
handler. -/
theorem handleDragEnd_eq_zoneStep (todos : List Todo)
    {activeId z : String} {a : Todo}
    (hfa : findById todos (jsParseInt (jsRemoveFirst activeId "todo-")) = some a)
    (hnocol : ∀ o, findById todos (jsParseInt (jsRemoveFirst z "todo-")) = some o →
      o.deadline ≠ a.deadline) :
    handleDragEnd todos activeId (some z)
      = zoneStep todos (jsParseInt (jsRemoveFirst activeId "todo-")) z := by
  have hro : reorderStep todos (jsParseInt (jsRemoveFirst activeId "todo-"))
      (jsParseInt (jsRemoveFirst z "todo-")) = none := by
    unfold reorderStep
    rw [hfa]
    cases hfo : findById todos (jsParseInt (jsRemoveFirst z "todo-")) with
    | none => rfl
    | some o =>
      have hne2 : a.deadline ≠ o.deadline := fun hc => hnocol o hfo hc.symm
      show (if a.deadline = o.deadline then _ else none) = none
      rw [if_neg hne2]
  show (match reorderStep todos (jsParseInt (jsRemoveFirst activeId "todo-"))
      (jsParseInt (jsRemoveFirst z "todo-")) with
    | some result => result
    | none => zoneStep todos (jsParseInt (jsRemoveFirst activeId "todo-")) z) = _
  rw [hro]

theorem dropToUnscheduled_eq (todos : List Todo) (hn : (todos.map (·.id)).Nodup)
    {A : Option Int} {a : Todo} (hfa : findById todos A = some a)
    {d : String} (hdl : a.deadline = some d) (hdne : d ≠ "") :
    dropToUnscheduled todos A
      = renumberBucket (fun t => t.deadline = some d)
        (todos.map fun t => if t.id = a.id then
          { a with
            deadline := none
            order := (todos.filter fun u => u.noDeadline).length }
          else t) := by
  unfold dropToUnscheduled unschedUpdatedTodos
  rw [hfa, show (Option.bind (some a) (·.deadline)) = a.deadline from rfl, hdl]
  rw [if_pos (by simp [truthyDeadline, hdne])]
  rw [map_idMatch_eq_replace hn hfa _]

theorem dropToDate_eq_src_none (todos : List Todo) (hn : (todos.map (·.id)).Nodup)
    {A : Option Int} {a : Todo} (hfa : findById todos A = some a)
    {z : String} (hdl : a.deadline = none) :
    dropToDate todos A z
      = renumberBucket (fun t => t.noDeadline)
        (todos.map fun t => if t.id = a.id then
          { a with
            deadline := some z
            order := (sortByOrder (todos.filter fun u =>
              u.deadline = some z && !(idMatches u A))).length }
          else t) := by
  unfold dropToDate dateUpdatedTodos
  rw [hfa, show (Option.bind (some a) (·.deadline)) = a.deadline from rfl, hdl]
  rw [if_pos (show (none : Option String) ≠ some z by simp)]
  rw [map_idMatch_eq_replace hn hfa _]

theorem dropToDate_eq_src_some (todos : List Todo) (hn : (todos.map (·.id)).Nodup)
    {A : Option Int} {a : Todo} (hfa : findById todos A = some a)
    {z s : String} (hdl : a.deadline = some s) (hsz : some s ≠ some z) :
    dropToDate todos A z
      = renumberBucket (fun t => t.deadline = some s)
        (todos.map fun t => if t.id = a.id then
          { a with
            deadline := some z
            order := (sortByOrder (todos.filter fun u =>
              u.deadline = some z && !(idMatches u A))).length }
          else t) := by
  unfold dropToDate dateUpdatedTodos
  rw [hfa, show (Option.bind (some a) (·.deadline)) = a.deadline from rfl, hdl]
  rw [if_pos hsz]
  rw [map_idMatch_eq_replace hn hfa _]

/-- The target-day count of the date branch equals the size of the target
bucket when the dragged todo is not already in it. -/
theorem dateBucketCount_eq (todos : List Todo) (hn : (todos.map (·.id)).Nodup)
    {A : Option Int} {a : Todo} (hfa : findById todos A = some a)
    {z : String} (haz : a.deadline ≠ some z) :
    (todos.filter fun u => u.deadline = some z && !(idMatches u A))
      = todos.filter (inBucket (some z)) := by
  apply List.filter_congr
  intro t ht
  show (decide (t.deadline = some z) && !(idMatches t A)) = inBucket (some z) t
  by_cases hdt : t.deadline = some z
  · have hmf : idMatches t A = false := by
      cases hmo : idMatches t A with
      | false => rfl
      | true =>
        have hta := idMatches_unique hn hfa ht hmo
        rw [hta] at hdt
        exact absurd hdt haz
    simp [hdt, hmf, inBucket]
  · simp [hdt, inBucket]

/-- The heart of the cross-bucket move: after replacing the moved todo by its
relocated copy and renumbering the source bucket it left, the moved todo
carries exactly its new deadline and appended order, the source bucket is
dense and one element shorter, and the moved todo is not among its members. -/
theorem crossMoveCore (todos : List Todo) (hn : (todos.map (·.id)).Nodup)
    (hne : ∀ t ∈ todos, t.deadline ≠ some "")
    {a : Todo} (ha : a ∈ todos) (κdst : Option String) (hdiff : κdst ≠ a.deadline)
    (hbne : κdst ≠ some "") (c : Nat) (p : Todo → Bool) (hp : OrderBlind p)
    (hpiff : ∀ t : Todo, t.deadline ≠ some "" → p t = inBucket a.deadline t) :
    ((renumberBucket p (todos.map fun t => if t.id = a.id then
        { a with deadline := κdst, order := c } else t)).find? (fun t => t.id = a.id)
      = some { a with deadline := κdst, order := c }) ∧
    a.id ∉ ((renumberBucket p (todos.map fun t => if t.id = a.id then
        { a with deadline := κdst, order := c } else t)).filter
          (inBucket a.deadline)).map (·.id) ∧
    DenseP (inBucket a.deadline) (renumberBucket p (todos.map fun t =>
      if t.id = a.id then { a with deadline := κdst, order := c } else t)) ∧
    ((renumberBucket p (todos.map fun t => if t.id = a.id then
        { a with deadline := κdst, order := c } else t)).filter
          (inBucket a.deadline)).length + 1
      = (todos.filter (inBucket a.deadline)).length := by
  set b : Todo := { a with deadline := κdst, order := c } with hbdef
  set updated := todos.map (fun t => if t.id = a.id then b else t) with hupd
  have hbmem : b ∈ updated := by
    rw [hupd]
    have h1 : (fun t => if t.id = a.id then b else t) a = b := by simp
    have h2 := List.mem_map_of_mem (fun t => if t.id = a.id then b else t) ha
    rw [h1] at h2
    exact h2
  have hnu : (updated.map (·.id)).Nodup := by
    rw [hupd, map_replace_ids (show b.id = a.id from rfl)]
    exact hn
  have hneu : ∀ t ∈ updated, t.deadline ≠ some "" := by
    intro t ht
    rw [hupd] at ht
    rcases map_replace_mem ht with rfl | htm
    · exact hbne
    · exact hne t htm
  have hpb : p b = false := by
    rw [hpiff b hbne]
    unfold inBucket
    simp only [decide_eq_false_iff_not]
    show κdst ≠ a.deadline
    exact hdiff
  have hsn : ((sortByOrder (updated.filter p)).map (·.id)).Nodup :=
    sortFilter_ids_nodup p hnu
  have haseq : a.id ∉ (sortByOrder (updated.filter p)).map (·.id) := by
    intro hmem
    have hmem2 : a.id ∈ (updated.filter p).map (·.id) :=
      ((sortByOrder_perm (updated.filter p)).map (·.id)).mem_iff.mp hmem
    rcases List.mem_map.mp hmem2 with ⟨u, hu, huid⟩
    have hub : u = b :=
      eq_of_mem_of_id_eq hnu (List.mem_of_mem_filter hu) hbmem huid
    rw [hub] at hu
    rw [List.mem_filter] at hu
    rw [hpb] at hu
    cases hu.2
  have hren : renumberBucket p updated
      = updated.map (applyPos (sortByOrder (updated.filter p))) := by
    unfold renumberBucket
    exact densifyByMap_eq _ _ hsn
  have hidp : ∀ t ∈ updated, (applyPos (sortByOrder (updated.filter p)) t).id = t.id :=
    fun t _ => applyPos_id _ t
  refine ⟨?_, ?_, ?_, ?_⟩
  · rw [hren, find?_map_id_pres hidp a.id]
    have hfb : updated.find? (fun t => t.id = a.id) = some b := by
      have := find?_id_self hnu hbmem
      exact this
    rw [hfb]
    have : applyPos (sortByOrder (updated.filter p)) b = b :=
      applyPos_of_not_mem haseq
    simp [this]
  · intro hmem
    rw [hren, filter_map_applyPos _ _ _ (orderBlind_inBucket a.deadline)] at hmem
    rw [List.map_map] at hmem
    have hmem2 : a.id ∈ (updated.filter (inBucket a.deadline)).map (·.id) := by
      have he : (updated.filter (inBucket a.deadline)).map
            ((fun t => t.id) ∘ applyPos (sortByOrder (updated.filter p)))
          = (updated.filter (inBucket a.deadline)).map (·.id) :=
        List.map_congr_left fun t _ => applyPos_id _ t
      rw [he] at hmem
      exact hmem
    rcases List.mem_map.mp hmem2 with ⟨u, hu, huid⟩
    have hub : u = b :=
      eq_of_mem_of_id_eq hnu (List.mem_of_mem_filter hu) hbmem huid
    rw [hub] at hu
    rw [List.mem_filter] at hu
    have : inBucket a.deadline b = false := by
      unfold inBucket
      simp only [decide_eq_false_iff_not]
      show κdst ≠ a.deadline
      exact hdiff
    rw [this] at hu
    cases hu.2
  · have hdense := renumberBucket_dense p updated hnu hp
    have hfeq : (renumberBucket p updated).filter (inBucket a.deadline)
        = (renumberBucket p updated).filter p := by
      apply List.filter_congr
      intro t ht
      rcases renumberBucket_mem hnu ht with ⟨u, hu, hdl2⟩
      have : t.deadline ≠ some "" := by
        rw [hdl2]
        exact hneu u hu
      exact (hpiff t this).symm
    exact (DenseP_iff_of_filter_eq hfeq).mpr hdense
  · rw [hren, filter_map_applyPos _ _ _ (orderBlind_inBucket a.deadline)]
    rw [List.length_map]
    have hq : inBucket a.deadline b = false := by
      unfold inBucket
      simp only [decide_eq_false_iff_not]
      show κdst ≠ a.deadline
      exact hdiff
    have hperm := filter_map_replace_perm_out hn ha b (inBucket a.deadline) hq
    rw [← hupd] at hperm
    rw [hperm.length_eq]
    have hcomm : (todos.filter (fun t => t.id ≠ a.id)).filter (inBucket a.deadline)
        = (todos.filter (inBucket a.deadline)).filter (fun t => t.id ≠ a.id) := by
      rw [List.filter_filter, List.filter_filter]
      exact List.filter_congr fun t _ => by
        cases h1 : (decide (t.id ≠ a.id)) <;> cases h2 : inBucket a.deadline t <;> simp [h1, h2]
    rw [hcomm]
    apply length_filter_ne_id (filter_ids_nodup _ hn)
    rw [List.mem_filter]
    refine ⟨ha, ?_⟩
    unfold inBucket
    simp

/-! ## Claim C2: the cross-bucket move -/

/-- **C2 (amended).** For every well-formed collection and every drop of an
existing todo onto a recognized bucket target (`"unscheduled"` or a
`YYYY-MM-DD` string) different from the todo's current bucket — provided the
integer `parseInt` reads off the target string (`NaN` for `"unscheduled"`, the
year for a date string) does not equal the id of a todo sharing the dragged
todo's bucket, in which case the drop is misread as an in-bucket reorder (see
the counterexample) — after `handleDragEnd` the moved todo's `deadline` is the
resolved target key (`none` for `"unscheduled"`, the date string otherwise),
its `order` is the size of the destination bucket before the move, and the
source bucket is re-densified to `{0, …, m-1}` with the moved todo no longer
among its members. -/
theorem handleDragEnd_cross_move (todos : List Todo) (hwf : WellFormed todos)
    (activeId z : String) {a : Todo}
    (hfa : findById todos (jsParseInt (jsRemoveFirst activeId "todo-")) = some a)
    (htgt : (z = "unscheduled" ∧ a.deadline ≠ none) ∨
            (isDateFormat z = true ∧ a.deadline ≠ some z))
    (hnocol : ∀ o, findById todos (jsParseInt (jsRemoveFirst z "todo-")) = some o →
      o.deadline ≠ a.deadline) :
    ((handleDragEnd todos activeId (some z)).find? (fun t => t.id = a.id)
      = some { a with
          deadline := if z = "unscheduled" then none else some z
          order := (todos.filter (inBucket
            (if z = "unscheduled" then none else some z))).length }) ∧
    a.id ∉ ((handleDragEnd todos activeId (some z)).filter
        (inBucket a.deadline)).map (·.id) ∧
    DenseP (inBucket a.deadline) (handleDragEnd todos activeId (some z)) ∧
    ((handleDragEnd todos activeId (some z)).filter (inBucket a.deadline)).length + 1
      = (todos.filter (inBucket a.deadline)).length := by
  obtain ⟨hn, hne⟩ := hwf
  have ham : a ∈ todos := (findById_some hfa).1
  rw [handleDragEnd_eq_zoneStep todos hfa hnocol]
  unfold zoneStep
  rcases htgt with ⟨hzu, hadl⟩ | ⟨hdz, haz⟩
  · subst hzu
    rw [if_pos rfl]
    cases hdl : a.deadline with
    | none => exact absurd hdl hadl
    | some d =>
      have hdne : d ≠ "" := fun hc => hne a ham (by rw [hdl, hc])
      rw [dropToUnscheduled_eq todos hn hfa hdl hdne]
      have hcnt : (todos.filter fun u => u.noDeadline).length
          = (todos.filter (inBucket none)).length := by
        rw [filter_noDeadline_eq_inBucket hne]
      have hcore := crossMoveCore todos hn hne ham none (by rw [hdl]; simp)
        (by simp) ((todos.filter fun u => u.noDeadline).length)
        (fun t => t.deadline = some d) (fun _ _ => rfl)
        (fun t _ => by rw [hdl]; rfl)
      have hif : (if ("unscheduled" : String) = "unscheduled" then (none : Option String)
          else some "unscheduled") = none := rfl
      rw [hdl] at hcore
      rw [hif, ← hcnt]
      exact hcore
  · have hzu : z ≠ "unscheduled" := isDateFormat_ne_unscheduled hdz
    have hzne : z ≠ "" := isDateFormat_ne_empty hdz
    rw [if_neg hzu, if_pos hdz]
    have hcnt : (sortByOrder (todos.filter fun u =>
        u.deadline = some z && !(idMatches u
          (jsParseInt (jsRemoveFirst activeId "todo-"))))).length
        = (todos.filter (inBucket (some z))).length := by
      rw [(sortByOrder_perm _).length_eq, dateBucketCount_eq todos hn hfa haz]
    cases hdl : a.deadline with
    | none =>
      rw [dropToDate_eq_src_none todos hn hfa hdl]
      have hcore := crossMoveCore todos hn hne ham (some z) (by rw [hdl]; simp)
        (by simp [hzne])
        ((sortByOrder (todos.filter fun u =>
          u.deadline = some z && !(idMatches u
            (jsParseInt (jsRemoveFirst activeId "todo-"))))).length)
        (fun t => t.noDeadline) (fun _ _ => rfl)
        (fun t ht => by rw [hdl]; exact noDeadline_eq_isNone ht)
      have hif : (if z = "unscheduled" then (none : Option String) else some z)
          = some z := if_neg hzu
      rw [hdl] at hcore
      rw [hif, ← hcnt]
      exact hcore
    | some s =>
      have hsz : some s ≠ some z := fun hc => haz (hdl.trans hc)
      rw [dropToDate_eq_src_some todos hn hfa hdl hsz]
      have hcore := crossMoveCore todos hn hne ham (some z)
        (by rw [hdl]; exact fun hc => hsz hc.symm) (by simp [hzne])
        ((sortByOrder (todos.filter fun u =>
          u.deadline = some z && !(idMatches u
            (jsParseInt (jsRemoveFirst activeId "todo-"))))).length)
        (fun t => t.deadline = some s) (fun _ _ => rfl)
        (fun t _ => by rw [hdl]; rfl)
      have hif : (if z = "unscheduled" then (none : Option String) else some z)
          = some z := if_neg hzu
      rw [hdl] at hcore
      rw [hif, ← hcnt]
      exact hcore

/-- **C2, counterexample.** Three failures of the frozen claim, each at a
concrete input. (i) `parseInt` collision: dropping the unscheduled todo 1 onto
the date zone `"2025-03-10"` in a collection that also contains an unscheduled
todo with id 2025 is misread as a reorder against todo 2025 (because
`parseInt("2025-03-10") = 2025`), so the moved todo's deadline stays `none`
instead of becoming the date. (ii) With duplicate ids the source bucket is
not re-densified (orders collapse to `{1, 1, …}`). (iii) With an
(ill-formed) empty-string deadline, the moved todo receives order 2 although
the destination (unscheduled) bucket held 0 todos before the move. -/
theorem handleDragEnd_cross_move_cx :
    ((handleDragEnd [⟨1, "a", false, none, 0⟩, ⟨2025, "b", false, none, 1⟩]
        "todo-1" (some "2025-03-10")).find? (fun t => t.id = 1)
      = some ⟨1, "a", false, none, 1⟩) ∧
    ¬ DenseP (inBucket none)
      (handleDragEnd [⟨1, "a", false, none, 0⟩, ⟨1, "b", false, none, 1⟩,
        ⟨5, "c", false, none, 2⟩] "todo-5" (some "2025-03-10")) ∧
    ((handleDragEnd [⟨1, "a", false, some "", 1⟩, ⟨2, "b", false, some "", 0⟩]
        "todo-1" (some "unscheduled")).find? (fun t => t.id = 1)
      = some ⟨1, "a", false, none, 2⟩ ∧
     (([⟨1, "a", false, some "", 1⟩, ⟨2, "b", false, some "", 0⟩] : List Todo).filter
        (inBucket none)).length = 0) :=
  ⟨by decide, by decide, by decide, by decide⟩

/-- **C2, witness.** The amended theorem applied at the spec's own example:
the only unscheduled todo dropped onto a date holding two todos lands there
with order 2, and the unscheduled bucket stays dense. -/
theorem handleDragEnd_cross_move_witness :
    ((handleDragEnd [⟨1, "A", false, none, 0⟩, ⟨2, "x", false, some "2025-03-10", 0⟩,
        ⟨3, "y", false, some "2025-03-10", 1⟩] "todo-1" (some "2025-03-10")).find?
      (fun t => t.id = 1) = some ⟨1, "A", false, some "2025-03-10", 2⟩) ∧
    DenseP (inBucket none)
      (handleDragEnd [⟨1, "A", false, none, 0⟩, ⟨2, "x", false, some "2025-03-10", 0⟩,
        ⟨3, "y", false, some "2025-03-10", 1⟩] "todo-1" (some "2025-03-10")) := by
  have hfa : findById [⟨1, "A", false, none, 0⟩, ⟨2, "x", false, some "2025-03-10", 0⟩,
      ⟨3, "y", false, some "2025-03-10", 1⟩]
      (jsParseInt (jsRemoveFirst "todo-1" "todo-"))
      = some ⟨1, "A", false, none, 0⟩ := by decide
  have h := handleDragEnd_cross_move
    [⟨1, "A", false, none, 0⟩, ⟨2, "x", false, some "2025-03-10", 0⟩,
      ⟨3, "y", false, some "2025-03-10", 1⟩]
    ⟨by decide, by decide⟩ "todo-1" "2025-03-10" hfa
    (Or.inr ⟨by decide, by decide⟩)
    (by
      intro o ho _
      rw [show findById [⟨1, "A", false, none, 0⟩, ⟨2, "x", false, some "2025-03-10", 0⟩,
        ⟨3, "y", false, some "2025-03-10", 1⟩]
        (jsParseInt (jsRemoveFirst "2025-03-10" "todo-")) = none from by decide] at ho
      cases ho)
  exact ⟨h.1, h.2.2.1⟩

/-! ## Claim C3: same-bucket reorder is a stable relocation -/

/-- Assign `order := position` over a sequence, starting at `n` (the
`reordered.map((todo, index) => …)` renumbering, as a sequence). -/
def assignIdxFrom (n : Nat) : List Todo → List Todo
  | [] => []
  | t :: ts => { t with order := n } :: assignIdxFrom (n + 1) ts

theorem assignIdxFrom_length (n : Nat) (l : List Todo) :
    (assignIdxFrom n l).length = l.length := by
  induction l generalizing n with
  | nil => rfl
  | cons t ts ih => simp [assignIdxFrom, ih]

theorem assignIdxFrom_get (n : Nat) (l : List Todo) (i : Nat)
    (h1 : i < (assignIdxFrom n l).length) (h2 : i < l.length) :
    (assignIdxFrom n l).get ⟨i, h1⟩ = { l.get ⟨i, h2⟩ with order := n + i } := by
  induction l generalizing n i with
  | nil => simp at h2
  | cons t ts ih =>
    cases i with
    | zero => simp [assignIdxFrom]
    | succ j =>
      have hj : j < ts.length := by simpa using h2
      have hj1 : j < (assignIdxFrom (n + 1) ts).length := by
        rw [assignIdxFrom_length]; exact hj
      show (assignIdxFrom (n + 1) ts).get ⟨j, hj1⟩ = _
      rw [ih (n + 1) j hj1 hj]
      have : n + 1 + j = n + (j + 1) := by omega
      rw [this]
      rfl

theorem mem_assignIdxFrom_order {n : Nat} {l : List Todo} {u : Todo}
    (h : u ∈ assignIdxFrom n l) : n ≤ u.order := by
  induction l generalizing n with
  | nil => cases h
  | cons t ts ih =>
    rcases List.mem_cons.mp h with rfl | hmem
    · exact le_refl _
    · exact Nat.le_of_succ_le (ih hmem)

theorem assignIdxFrom_pairwise_lt (n : Nat) (l : List Todo) :
    (assignIdxFrom n l).Pairwise (fun s t => s.order < t.order) := by
  induction l generalizing n with
  | nil => exact .nil
  | cons t ts ih =>
    rw [assignIdxFrom, List.pairwise_cons]
    refine ⟨?_, ih (n + 1)⟩
    intro u hu
    exact Nat.lt_of_lt_of_le (Nat.lt_succ_self n) (mem_assignIdxFrom_order hu)

theorem map_applyPos_self (seq : List Todo) (hsn : (seq.map (·.id)).Nodup) :
    seq.map (applyPos seq) = assignIdxFrom 0 seq := by
  apply List.ext_get
  · simp [assignIdxFrom_length]
  · intro i h1 h2
    have hi : i < seq.length := by simpa using h1
    have hia : i < (assignIdxFrom 0 seq).length := h2
    rw [List.get_map, assignIdxFrom_get 0 seq i hia hi]
    unfold applyPos
    rw [posOf_get hsn i hi]
    simp

theorem pairwise_lt_of_le_nodup {l : List Todo}
    (hle : l.Pairwise leOrder) (hnd : (l.map (·.order)).Nodup) :
    l.Pairwise (fun s t => s.order < t.order) := by
  induction l with
  | nil => exact .nil
  | cons t ts ih =>
    rw [List.pairwise_cons] at hle ⊢
    refine ⟨?_, ih hle.2 (List.nodup_cons.mp hnd).2⟩
    intro u hu
    have h1 : t.order ≤ u.order := hle.1 u hu
    have h2 : t.order ≠ u.order := by
      intro hc
      apply (List.nodup_cons.mp hnd).1
      show t.order ∈ ts.map (·.order)
      rw [hc]
      exact List.mem_map_of_mem _ hu
    omega

theorem sortByOrder_eq_of_perm_strict {X Y : List Todo}
    (hperm : X.Perm Y) (hY : Y.Pairwise (fun s t => s.order < t.order)) :
    sortByOrder X = Y := by
  have h1 : (sortByOrder X).Perm Y := (sortByOrder_perm X).trans hperm
  have hndY : (Y.map (·.order)).Nodup := by
    show (Y.map (·.order)).Pairwise (· ≠ ·)
    rw [List.pairwise_map]
    exact hY.imp fun h => Nat.ne_of_lt h
  have hnds : ((sortByOrder X).map (·.order)).Nodup :=
    ((h1.map (·.order)).nodup_iff).mpr hndY
  have h2 : (sortByOrder X).Pairwise (fun s t => s.order < t.order) :=
    pairwise_lt_of_le_nodup (sortByOrder_pairwise X) hnds
  haveI : IsAntisymm Todo (fun s t => s.order < t.order) :=
    ⟨fun a b hab hba => absurd (Nat.lt_trans hab hba) (Nat.lt_irrefl _)⟩
  exact List.eq_of_perm_of_sorted h1 h2 hY

theorem posOf_eq_findIdxAux (k : Nat) (l : List Todo) :
    posOf k l = findIdxAux (fun t => t.id = k) l := by
  induction l with
  | nil => rfl
  | cons t ts ih =>
    simp only [posOf, findIdxAux, ih]
    by_cases h : t.id = k <;> simp [h]

theorem findIdxAux_congr {p q : Todo → Bool} (h : ∀ t, p t = q t) :
    ∀ l, findIdxAux p l = findIdxAux q l := by
  intro l
  induction l with
  | nil => rfl
  | cons t ts ih => simp only [findIdxAux, h t, ih]

theorem findIndexById_eq_posOf {l : List Todo} {n : Int} {k : Nat}
    (hk : (k : Int) = n) : findIndexById l (some n) = posOf k l := by
  unfold findIndexById
  rw [posOf_eq_findIdxAux]
  apply findIdxAux_congr
  intro t
  have hiff : ((t.id : Int) = n) ↔ (t.id = k) := by
    constructor
    · intro h
      exact_mod_cast h.trans hk.symm
    · intro h
      rw [h, hk]
  exact decide_eq_decide.mpr hiff

theorem reorderList_eq_bucket {todos : List Todo} {a : Todo}
    (hne : ∀ t ∈ todos, t.deadline ≠ some "") (ha : a ∈ todos) :
    reorderList todos a = sortByOrder (todos.filter (inBucket a.deadline)) := by
  unfold reorderList
  cases hdl : a.deadline with
  | none =>
    rw [if_neg (by simp [truthyDeadline])]
    rw [filter_noDeadline_eq_inBucket hne]
  | some d =>
    have hdne : d ≠ "" := fun hc => hne a ha (by rw [hdl, hc])
    rw [if_pos (by simp [truthyDeadline, hdne])]
    rfl

/-- **C3.** When both the dragged todo and the drop-target todo exist, share
the same bucket, and occupy distinct positions `oi ≠ ni` of the bucket's
`order`-sorted sequence, `handleDragEnd` performs a stable single-element
relocation (`arrayMove`: remove at `oi`, reinsert at `ni` — not a swap) of
that sequence and assigns `order = index` over the relocated sequence; todos
in all other buckets are completely unchanged. -/
theorem handleDragEnd_reorder (todos : List Todo) (hwf : WellFormed todos)
    (activeId overId : String) {a o : Todo} {oi ni : Nat}
    (hfa : findById todos (jsParseInt (jsRemoveFirst activeId "todo-")) = some a)
    (hfo : findById todos (jsParseInt (jsRemoveFirst overId "todo-")) = some o)
    (hdl : a.deadline = o.deadline)
    (hoi : posOf a.id (sortByOrder (todos.filter (inBucket a.deadline))) = some oi)
    (hni : posOf o.id (sortByOrder (todos.filter (inBucket a.deadline))) = some ni)
    (hnei : oi ≠ ni) :
    ((handleDragEnd todos activeId (some overId)).filter
        (fun t => !(inBucket a.deadline t)))
      = todos.filter (fun t => !(inBucket a.deadline t)) ∧
    sortByOrder ((handleDragEnd todos activeId (some overId)).filter
        (inBucket a.deadline))
      = assignIdxFrom 0 (arrayMove
          (sortByOrder (todos.filter (inBucket a.deadline))) oi ni) := by
  obtain ⟨hn, hne⟩ := hwf
  have ham : a ∈ todos := (findById_some hfa).1
  have hRL := reorderList_eq_bucket hne ham
  rcases findById_some hfa with ⟨_, nA, hAn, haiA⟩
  rcases findById_some hfo with ⟨_, nO, hOn, haiO⟩
  have hfia : findIndexById (reorderList todos a)
      (jsParseInt (jsRemoveFirst activeId "todo-")) = some oi := by
    rw [hAn, findIndexById_eq_posOf haiA, hRL]
    exact hoi
  have hfio : findIndexById (reorderList todos a)
      (jsParseInt (jsRemoveFirst overId "todo-")) = some ni := by
    rw [hOn, findIndexById_eq_posOf haiO, hRL]
    exact hni
  have hro : reorderStep todos (jsParseInt (jsRemoveFirst activeId "todo-"))
      (jsParseInt (jsRemoveFirst overId "todo-"))
      = some (densifyByMap (arrayMove (reorderList todos a) oi ni) todos) := by
    unfold reorderStep
    rw [hfa, hfo]
    show (if a.deadline = o.deadline then
        match findIndexById (reorderList todos a)
            (jsParseInt (jsRemoveFirst activeId "todo-")),
          findIndexById (reorderList todos a)
            (jsParseInt (jsRemoveFirst overId "todo-")) with
        | some oldIndex, some newIndex =>
          if oldIndex ≠ newIndex then
            some (densifyByMap (arrayMove (reorderList todos a) oldIndex newIndex) todos)
          else none
        | _, _ => none
      else none) = _
    rw [if_pos hdl, hfia, hfio]
    show (if oi ≠ ni then
      some (densifyByMap (arrayMove (reorderList todos a) oi ni) todos) else none) = _
    rw [if_pos hnei]
  have hstep : handleDragEnd todos activeId (some overId)
      = densifyByMap
          (arrayMove (sortByOrder (todos.filter (inBucket a.deadline))) oi ni) todos := by
    show (match reorderStep todos (jsParseInt (jsRemoveFirst activeId "todo-"))
        (jsParseInt (jsRemoveFirst overId "todo-")) with
      | some result => result
      | none => zoneStep todos (jsParseInt (jsRemoveFirst activeId "todo-")) overId) = _
    rw [hro, hRL]
  obtain ⟨hoilt, _⟩ := posOf_some hoi
  have hperm2 : (arrayMove (sortByOrder (todos.filter (inBucket a.deadline))) oi ni).Perm
      (todos.filter (inBucket a.deadline)) :=
    (arrayMove_perm ni hoilt).trans (sortByOrder_perm _)
  have hsn2 : ((arrayMove (sortByOrder (todos.filter (inBucket a.deadline))) oi ni).map
      (·.id)).Nodup :=
    ((hperm2.map (·.id)).nodup_iff).mpr (filter_ids_nodup _ hn)
  rw [hstep]
  constructor
  · apply densifyByMap_filter_other (inBucket a.deadline)
      (fun t => !(inBucket a.deadline t)) _ todos hn (fun _ _ => rfl) hperm2
    intro t _ hq
    cases hb : inBucket a.deadline t
    · rfl
    · rw [hb] at hq
      exact absurd hq (by decide)
  · rw [densifyByMap_eq _ _ hsn2,
      filter_map_applyPos _ _ _ (orderBlind_inBucket a.deadline)]
    apply sortByOrder_eq_of_perm_strict
    · refine (List.Perm.map _ hperm2.symm).trans ?_
      rw [map_applyPos_self _ hsn2]
    · exact assignIdxFrom_pairwise_lt 0 _

/-- Witness for the C3 theorem: the claim's 4-item bucket example — dragging
the item at order 3 onto the item at order 0 relocates it to the front and
renumbers the bucket 0,1,2,3. -/
theorem handleDragEnd_reorder_witness :
    WellFormed [⟨1, "a", false, none, 0⟩, ⟨2, "b", false, none, 1⟩,
      ⟨3, "c", false, none, 2⟩, ⟨4, "d", false, none, 3⟩] ∧
    (((handleDragEnd [⟨1, "a", false, none, 0⟩, ⟨2, "b", false, none, 1⟩,
        ⟨3, "c", false, none, 2⟩, ⟨4, "d", false, none, 3⟩] "todo-4"
        (some "todo-1")).filter
          (fun t => !(inBucket (none : Option String) t)))
        = List.filter (fun t => !(inBucket (none : Option String) t))
            [⟨1, "a", false, none, 0⟩, ⟨2, "b", false, none, 1⟩,
             ⟨3, "c", false, none, 2⟩, ⟨4, "d", false, none, 3⟩] ∧
     sortByOrder ((handleDragEnd [⟨1, "a", false, none, 0⟩, ⟨2, "b", false, none, 1⟩,
        ⟨3, "c", false, none, 2⟩, ⟨4, "d", false, none, 3⟩] "todo-4"
        (some "todo-1")).filter (inBucket (none : Option String)))
        = assignIdxFrom 0 (arrayMove
            (sortByOrder (List.filter (inBucket (none : Option String))
              [⟨1, "a", false, none, 0⟩, ⟨2, "b", false, none, 1⟩,
               ⟨3, "c", false, none, 2⟩, ⟨4, "d", false, none, 3⟩])) 3 0)) := by
  have hfa : findById [⟨1, "a", false, none, 0⟩, ⟨2, "b", false, none, 1⟩,
      ⟨3, "c", false, none, 2⟩, ⟨4, "d", false, none, 3⟩]
      (jsParseInt (jsRemoveFirst "todo-4" "todo-"))
      = some ⟨4, "d", false, none, 3⟩ := by decide
  have hfo : findById [⟨1, "a", false, none, 0⟩, ⟨2, "b", false, none, 1⟩,
      ⟨3, "c", false, none, 2⟩, ⟨4, "d", false, none, 3⟩]
      (jsParseInt (jsRemoveFirst "todo-1" "todo-"))
      = some ⟨1, "a", false, none, 0⟩ := by decide
  have hwf : WellFormed [⟨1, "a", false, none, 0⟩, ⟨2, "b", false, none, 1⟩,
      ⟨3, "c", false, none, 2⟩, ⟨4, "d", false, none, 3⟩] := ⟨by decide, by decide⟩
  exact ⟨hwf, handleDragEnd_reorder _ hwf "todo-4" "todo-1"
    hfa hfo rfl (by decide) (by decide) (by decide)⟩

/-! ## Infrastructure for the postpone characterization -/

theorem postponeApply_id (moved : List Todo) (tomorrow : String) (c : Nat)
    (t : Todo) : (postponeApply moved tomorrow c t).id = t.id := by
  unfold postponeApply
  cases findIdxAux (fun u => u.id = t.id) moved <;> rfl

theorem postponeApply_of_not_mem {moved : List Todo} {t : Todo}
    (tomorrow : String) (c : Nat) (h : t.id ∉ moved.map (·.id)) :
    postponeApply moved tomorrow c t = t := by
  unfold postponeApply
  rw [← posOf_eq_findIdxAux, posOf_eq_none_iff.mpr h]

theorem postponeApply_of_pos {moved : List Todo} {t : Todo} {i : Nat}
    (tomorrow : String) (c : Nat) (h : posOf t.id moved = some i) :
    postponeApply moved tomorrow c t = { t with
      deadline := some tomorrow
      order := c + i } := by
  unfold postponeApply
  rw [← posOf_eq_findIdxAux, h]

theorem filter_map_eq_filter (f : Todo → Todo) (p q : Todo → Bool) :
    ∀ l : List Todo, (∀ t ∈ l, p (f t) = q t) →
      (∀ t ∈ l, q t = true → f t = t) →
      (l.map f).filter p = l.filter q := by
  intro l
  induction l with
  | nil => intro _ _; rfl
  | cons t ts ih =>
    intro h1 h2
    have ih2 := ih (fun u hu => h1 u (by simp [hu])) (fun u hu => h2 u (by simp [hu]))
    simp only [List.map_cons, List.filter_cons, h1 t (by simp)]
    cases hq : q t with
    | true => simp [h2 t (by simp) hq, ih2]
    | false => simpa using ih2

theorem assignIdxFrom_eq_self : ∀ (n : Nat) (l : List Todo),
    l.map (fun t => t.order) = List.range' n l.length →
    assignIdxFrom n l = l
  | _, [], _ => rfl
  | n, t :: ts, h => by
    rw [List.length_cons, List.range'_succ, List.map_cons] at h
    have h1 : t.order = n := (List.cons_eq_cons.mp h).1
    have h2 : ts.map (fun t => t.order) = List.range' (n + 1) ts.length :=
      (List.cons_eq_cons.mp h).2
    show { t with order := n } :: assignIdxFrom (n + 1) ts = t :: ts
    rw [assignIdxFrom_eq_self (n + 1) ts h2, ← h1]

theorem assignIdxFrom_sorted_dense {p : Todo → Bool} {todos : List Todo}
    (hd : DenseP p todos) :
    assignIdxFrom 0 (sortByOrder (todos.filter p)) = sortByOrder (todos.filter p) := by
  have hperm : (sortByOrder (todos.filter p)).Perm (todos.filter p) :=
    sortByOrder_perm _
  have hd2 : ((todos.filter p).map (·.order)).Perm
      (List.range (todos.filter p).length) := hd
  have hop : ((sortByOrder (todos.filter p)).map (·.order)).Perm
      (List.range (todos.filter p).length) :=
    (hperm.map (·.order)).trans hd2
  have hnd : ((sortByOrder (todos.filter p)).map (·.order)).Nodup :=
    hop.nodup_iff.mpr (List.nodup_range _)
  have hstrict : (sortByOrder (todos.filter p)).Pairwise
      (fun s t => s.order < t.order) :=
    pairwise_lt_of_le_nodup (sortByOrder_pairwise _) hnd
  have hmaps : ((sortByOrder (todos.filter p)).map (·.order)).Pairwise (· < ·) :=
    List.pairwise_map.mpr hstrict
  haveI : IsAntisymm Nat (· < ·) :=
    ⟨fun a b hab hba => absurd (Nat.lt_trans hab hba) (Nat.lt_irrefl _)⟩
  have hmr : (sortByOrder (todos.filter p)).map (·.order)
      = List.range (todos.filter p).length :=
    List.eq_of_perm_of_sorted hop hmaps (List.pairwise_lt_range _)
  apply assignIdxFrom_eq_self
  show (sortByOrder (todos.filter p)).map (·.order) = _
  rw [hmr, hperm.length_eq, List.range_eq_range']

/-- **C4.** Amended postpone property: for a well-formed collection with
`today ≠ tomorrow` (always true of the clock-derived arguments) and a dense
`today` bucket, `postponeToTomorrow` (1) moves each incomplete `today` todo
found at index `i` of the moved sequence (sorted by prior `order`) to
`deadline = tomorrow` with `order = tomorrowCount + i`, (2) leaves every todo
outside the `today` bucket untouched (including `tomorrow`'s existing
members), and (3) leaves the `today` bucket holding exactly its previously
completed members, in their prior relative order, re-densified to
`{0, …, k-1}`. -/
theorem postponeToTomorrow_spec (todos : List Todo) (today tomorrow : String)
    (hwf : WellFormed todos) (hneq : today ≠ tomorrow)
    (hd : DenseP (fun t => t.deadline = some today) todos) :
    (∀ t ∈ todos, t.deadline = some today → t.completed = false →
      ∀ i : Nat, posOf t.id (uncompletedTodayTodos todos today) = some i →
        (postponeToTomorrow todos today tomorrow).find? (fun u => u.id = t.id)
          = some { t with
              deadline := some tomorrow
              order := (todos.filter fun u => u.deadline = some tomorrow).length + i }) ∧
    (∀ t ∈ todos, t.deadline ≠ some today →
      (postponeToTomorrow todos today tomorrow).find? (fun u => u.id = t.id)
        = some t) ∧
    sortByOrder ((postponeToTomorrow todos today tomorrow).filter
        (fun t => t.deadline = some today))
      = assignIdxFrom 0 (sortByOrder (todos.filter
          (fun t => t.deadline = some today && t.completed))) := by
  obtain ⟨hn, hnes⟩ := hwf
  have hUperm : (uncompletedTodayTodos todos today).Perm
      (todos.filter fun t => t.deadline = some today && !t.completed) :=
    sortByOrder_perm _
  have hUmem : ∀ u ∈ uncompletedTodayTodos todos today,
      u ∈ todos ∧ u.deadline = some today ∧ u.completed = false := by
    intro u hu
    have hu2 := hUperm.mem_iff.mp hu
    have hmem := List.mem_of_mem_filter hu2
    have hprop := List.of_mem_filter hu2
    rw [Bool.and_eq_true] at hprop
    refine ⟨hmem, of_decide_eq_true hprop.1, ?_⟩
    have h2 := hprop.2
    cases hc : u.completed
    · rfl
    · rw [hc] at h2
      exact absurd h2 (by decide)
  have hUid : ∀ t ∈ todos, (t.id ∈ (uncompletedTodayTodos todos today).map (·.id)
      ↔ (t.deadline = some today ∧ t.completed = false)) := by
    intro t ht
    constructor
    · intro hmem
      rcases List.mem_map.mp hmem with ⟨u, hu, huid⟩
      rcases hUmem u hu with ⟨humem, hud, huc⟩
      have hut : u = t := eq_of_mem_of_id_eq hn humem ht huid
      exact ⟨hut ▸ hud, hut ▸ huc⟩
    · intro hpair
      have htf : t ∈ todos.filter fun u => u.deadline = some today && !u.completed :=
        List.mem_filter.mpr ⟨ht, by simp [hpair.1, hpair.2]⟩
      exact List.mem_map_of_mem _ (hUperm.mem_iff.mpr htf)
  by_cases hU0 : (uncompletedTodayTodos todos today).length = 0
  · have hres : postponeToTomorrow todos today tomorrow = todos := by
      unfold postponeToTomorrow
      rw [if_pos hU0]
    have hUnil : uncompletedTodayTodos todos today = [] :=
      List.length_eq_zero.mp hU0
    refine ⟨?_, ?_, ?_⟩
    · intro t ht hdl hc i hpos
      rw [hUnil] at hpos
      cases hpos
    · intro t ht _
      rw [hres]
      exact find?_id_self hn ht
    · rw [hres]
      have hfnil : todos.filter (fun t => t.deadline = some today && !t.completed)
          = [] := by
        rw [hUnil] at hUperm
        exact hUperm.symm.eq_nil
      have hfe : todos.filter (fun t => t.deadline = some today && t.completed)
          = todos.filter (fun t => t.deadline = some today) := by
        apply List.filter_congr
        intro t ht
        by_cases hdl : t.deadline = some today
        · cases hc : t.completed with
          | true => simp [hdl, hc]
          | false =>
            exfalso
            have hmem : t ∈ todos.filter
                (fun t => t.deadline = some today && !t.completed) :=
              List.mem_filter.mpr ⟨ht, by simp [hdl, hc]⟩
            rw [hfnil] at hmem
            cases hmem
        · simp [hdl]
      rw [hfe]
      exact (assignIdxFrom_sorted_dense hd).symm
  · have hres : postponeToTomorrow todos today tomorrow
        = renumberBucket (fun t => t.deadline = some today)
          (postponeUpdated todos today tomorrow) := by
      unfold postponeToTomorrow
      rw [if_neg hU0]
    have hPids : ((postponeUpdated todos today tomorrow).map (·.id))
        = todos.map (·.id) := by
      unfold postponeUpdated
      rw [List.map_map]
      refine List.map_congr_left ?_
      intro t _
      show (postponeApply (uncompletedTodayTodos todos today) tomorrow
        ((todos.filter fun t => t.deadline = some tomorrow).length) t).id = t.id
      exact postponeApply_id _ _ _ t
    have hPn : ((postponeUpdated todos today tomorrow).map (·.id)).Nodup := by
      rw [hPids]
      exact hn
    have hS'n : ((sortByOrder ((postponeUpdated todos today tomorrow).filter
        (fun t => t.deadline = some today))).map (·.id)).Nodup :=
      sortFilter_ids_nodup _ hPn
    have hres2 : postponeToTomorrow todos today tomorrow
        = (postponeUpdated todos today tomorrow).map
            (applyPos (sortByOrder ((postponeUpdated todos today tomorrow).filter
              (fun t => t.deadline = some today)))) := by
      rw [hres]
      unfold renumberBucket
      exact densifyByMap_eq _ _ hS'n
    have hPfilter : (postponeUpdated todos today tomorrow).filter
        (fun t => t.deadline = some today)
      = todos.filter (fun t => t.deadline = some today && t.completed) := by
      unfold postponeUpdated
      apply filter_map_eq_filter
      · intro t ht
        by_cases hmemU : t.id ∈ (uncompletedTodayTodos todos today).map (·.id)
        · obtain ⟨hdl, hc⟩ := (hUid t ht).mp hmemU
          cases hpos : posOf t.id (uncompletedTodayTodos todos today) with
          | none => exact absurd hmemU (posOf_eq_none_iff.mp hpos)
          | some i =>
            have hne2 : (some tomorrow : Option String) ≠ some today := by
              intro hcc
              exact hneq (Option.some.inj hcc).symm
            simp [postponeApply_of_pos _ _ hpos, hne2, hc]
        · rw [postponeApply_of_not_mem _ _ hmemU]
          by_cases hdl : t.deadline = some today
          · cases hc : t.completed with
            | true => simp [hdl, hc]
            | false => exact absurd ((hUid t ht).mpr ⟨hdl, hc⟩) hmemU
          · simp [hdl]
      · intro t ht hq
        rw [Bool.and_eq_true] at hq
        apply postponeApply_of_not_mem
        intro hmem
        obtain ⟨_, hc2⟩ := (hUid t ht).mp hmem
        rw [hc2] at hq
        exact absurd hq.2 (by decide)
    have hres3 : postponeToTomorrow todos today tomorrow
        = todos.map (fun s => applyPos
            (sortByOrder ((postponeUpdated todos today tomorrow).filter
              (fun t => t.deadline = some today)))
            (postponeApply (uncompletedTodayTodos todos today) tomorrow
              ((todos.filter fun t => t.deadline = some tomorrow).length) s)) := by
      rw [hres2]
      unfold postponeUpdated
      rw [List.map_map]
      rfl
    have hfid : ∀ u ∈ todos, ((fun s => applyPos
        (sortByOrder ((postponeUpdated todos today tomorrow).filter
          (fun t => t.deadline = some today)))
        (postponeApply (uncompletedTodayTodos todos today) tomorrow
          ((todos.filter fun t => t.deadline = some tomorrow).length) s)) u).id
        = u.id := by
      intro u _
      show (applyPos _ (postponeApply _ _ _ u)).id = u.id
      rw [applyPos_id, postponeApply_id]
    refine ⟨?_, ?_, ?_⟩
    · intro t ht hdl hc i hpos
      rw [hres3, find?_map_id_pres hfid t.id, find?_id_self hn ht]
      show some (applyPos _ (postponeApply _ _ _ t)) = _
      rw [postponeApply_of_pos _ _ hpos]
      have hnotS : ({ t with
          deadline := some tomorrow
          order := (todos.filter fun t => t.deadline = some tomorrow).length + i }
            : Todo).id
          ∉ (sortByOrder ((postponeUpdated todos today tomorrow).filter
            (fun t => t.deadline = some today))).map (·.id) := by
        show t.id ∉ _
        rw [hPfilter]
        intro hmem
        have hmem2 : t.id ∈ (todos.filter
            (fun t => t.deadline = some today && t.completed)).map (·.id) :=
          ((sortByOrder_perm _).map (·.id)).mem_iff.mp hmem
        rcases List.mem_map.mp hmem2 with ⟨u, hu, huid⟩
        have hut : u = t := eq_of_mem_of_id_eq hn (List.mem_of_mem_filter hu) ht huid
        have hpc := List.of_mem_filter hu
        rw [hut, Bool.and_eq_true, hc] at hpc
        exact absurd hpc.2 (by decide)
      rw [applyPos_of_not_mem hnotS]
    · intro t ht hdl
      rw [hres3, find?_map_id_pres hfid t.id, find?_id_self hn ht]
      show some (applyPos _ (postponeApply _ _ _ t)) = some t
      have hnotU : t.id ∉ (uncompletedTodayTodos todos today).map (·.id) := fun hm =>
        hdl ((hUid t ht).mp hm).1
      rw [postponeApply_of_not_mem _ _ hnotU]
      have hnotS : t.id ∉ (sortByOrder ((postponeUpdated todos today tomorrow).filter
          (fun t => t.deadline = some today))).map (·.id) := by
        rw [hPfilter]
        intro hmem
        have hmem2 : t.id ∈ (todos.filter
            (fun t => t.deadline = some today && t.completed)).map (·.id) :=
          ((sortByOrder_perm _).map (·.id)).mem_iff.mp hmem
        rcases List.mem_map.mp hmem2 with ⟨u, hu, huid⟩
        have hut : u = t := eq_of_mem_of_id_eq hn (List.mem_of_mem_filter hu) ht huid
        have hpc := List.of_mem_filter hu
        rw [hut, Bool.and_eq_true] at hpc
        exact hdl (of_decide_eq_true hpc.1)
      rw [applyPos_of_not_mem hnotS]
    · rw [hres2]
      have hOB : OrderBlind (fun t => t.deadline = some today) := fun t n => rfl
      rw [filter_map_applyPos _ _ _ hOB, hPfilter]
      have hscn : ((sortByOrder (todos.filter
          (fun t => t.deadline = some today && t.completed))).map (·.id)).Nodup :=
        sortFilter_ids_nodup _ hn
      apply sortByOrder_eq_of_perm_strict
      · refine (List.Perm.map _ (sortByOrder_perm _).symm).trans ?_
        rw [map_applyPos_self _ hscn]
      · exact assignIdxFrom_pairwise_lt 0 _

/-- Witness for the C4 theorem: the spec's postpone scenario —
`"2025-03-10"` holds one incomplete and one complete todo, `"2025-03-11"`
one existing todo; the incomplete todo moves to `"2025-03-11"` with
`order = 1 + 0`, the complete todo stays behind re-densified to order `0`. -/
theorem postponeToTomorrow_spec_witness :
    WellFormed [⟨1, "i", false, some "2025-03-10", 0⟩,
      ⟨2, "c", true, some "2025-03-10", 1⟩,
      ⟨3, "x", false, some "2025-03-11", 0⟩] ∧
    "2025-03-10" ≠ "2025-03-11" ∧
    DenseP (fun t => t.deadline = some "2025-03-10")
      [⟨1, "i", false, some "2025-03-10", 0⟩,
       ⟨2, "c", true, some "2025-03-10", 1⟩,
       ⟨3, "x", false, some "2025-03-11", 0⟩] ∧
    ((∀ t ∈ ([⟨1, "i", false, some "2025-03-10", 0⟩,
        ⟨2, "c", true, some "2025-03-10", 1⟩,
        ⟨3, "x", false, some "2025-03-11", 0⟩] : List Todo),
      t.deadline = some "2025-03-10" → t.completed = false →
      ∀ i : Nat, posOf t.id (uncompletedTodayTodos
          [⟨1, "i", false, some "2025-03-10", 0⟩,
           ⟨2, "c", true, some "2025-03-10", 1⟩,
           ⟨3, "x", false, some "2025-03-11", 0⟩] "2025-03-10") = some i →
        (postponeToTomorrow [⟨1, "i", false, some "2025-03-10", 0⟩,
            ⟨2, "c", true, some "2025-03-10", 1⟩,
            ⟨3, "x", false, some "2025-03-11", 0⟩]
            "2025-03-10" "2025-03-11").find? (fun u => u.id = t.id)
          = some { t with
              deadline := some "2025-03-11"
              order := (([⟨1, "i", false, some "2025-03-10", 0⟩,
                  ⟨2, "c", true, some "2025-03-10", 1⟩,
                  ⟨3, "x", false, some "2025-03-11", 0⟩] : List Todo).filter
                  fun u => u.deadline = some "2025-03-11").length + i }) ∧
    (∀ t ∈ ([⟨1, "i", false, some "2025-03-10", 0⟩,
        ⟨2, "c", true, some "2025-03-10", 1⟩,
        ⟨3, "x", false, some "2025-03-11", 0⟩] : List Todo),
      t.deadline ≠ some "2025-03-10" →
      (postponeToTomorrow [⟨1, "i", false, some "2025-03-10", 0⟩,
          ⟨2, "c", true, some "2025-03-10", 1⟩,
          ⟨3, "x", false, some "2025-03-11", 0⟩]
          "2025-03-10" "2025-03-11").find? (fun u => u.id = t.id)
        = some t) ∧
    sortByOrder ((postponeToTomorrow [⟨1, "i", false, some "2025-03-10", 0⟩,
          ⟨2, "c", true, some "2025-03-10", 1⟩,
          ⟨3, "x", false, some "2025-03-11", 0⟩]
          "2025-03-10" "2025-03-11").filter
        (fun t => t.deadline = some "2025-03-10"))
      = assignIdxFrom 0 (sortByOrder
          (([⟨1, "i", false, some "2025-03-10", 0⟩,
             ⟨2, "c", true, some "2025-03-10", 1⟩,
             ⟨3, "x", false, some "2025-03-11", 0⟩] : List Todo).filter
            (fun t => t.deadline = some "2025-03-10" && t.completed)))) := by
  have hwf : WellFormed [⟨1, "i", false, some "2025-03-10", 0⟩,
      ⟨2, "c", true, some "2025-03-10", 1⟩,
      ⟨3, "x", false, some "2025-03-11", 0⟩] := ⟨by decide, by decide⟩
  exact ⟨hwf, by decide, by decide,
    postponeToTomorrow_spec _ _ _ hwf (by decide) (by decide)⟩

/-- Counterexample for C4 as frozen ("for every collection and dates
fromDate/toDate"). (1) With `fromDate = toDate` the single incomplete todo
ends at `order = 0`, not the claimed `tomorrowCount + index = 1 + 0`: the
renumber pass overwrites the appended order. (2) With no incomplete todo at
`fromDate` the function early-returns, so a `fromDate` bucket holding one
completed todo at `order = 5` is NOT re-densified to `{0}`. -/
theorem postponeToTomorrow_cx :
    ((postponeToTomorrow [⟨1, "a", false, some "2025-03-10", 0⟩]
        "2025-03-10" "2025-03-10").find? (fun u => u.id = 1)
      = some ⟨1, "a", false, some "2025-03-10", 0⟩ ∧
     (([(⟨1, "a", false, some "2025-03-10", 0⟩ : Todo)].filter
        (fun u => u.deadline = some "2025-03-10")).length = 1 ∧
     posOf 1 (uncompletedTodayTodos [⟨1, "a", false, some "2025-03-10", 0⟩]
        "2025-03-10") = some 0)) ∧
    (postponeToTomorrow [⟨1, "a", true, some "2025-03-10", 5⟩]
        "2025-03-10" "2025-03-11"
      = [⟨1, "a", true, some "2025-03-10", 5⟩] ∧
     ¬ DenseP (fun t => t.deadline = some "2025-03-10")
        (postponeToTomorrow [⟨1, "a", true, some "2025-03-10", 5⟩]
          "2025-03-10" "2025-03-11")) := by
  exact ⟨⟨by decide, by decide, by decide⟩, by decide, by decide⟩

/-! ## Infrastructure: the JSON round trip -/

theorem char_eq_of_toNat_eq {c d : Char} (h : c.toNat = d.toNat) : c = d := by
  have h2 : Char.ofNat c.toNat = Char.ofNat d.toNat := by rw [h]
  rwa [Char.ofNat_toNat, Char.ofNat_toNat] at h2

theorem char_ne_of_toNat_ne {c d : Char} (h : c.toNat ≠ d.toNat) : c ≠ d :=
  fun e => h (congrArg Char.toNat e)

theorem isDigit_toNat {c : Char} (h : c.isDigit = true) :
    48 ≤ c.toNat ∧ c.toNat ≤ 57 := by
  simp [Char.isDigit, Char.le_def] at h
  exact h

theorem digit_char_facts {c : Char} (h : c.isDigit = true) :
    jsonWs c = false ∧ c ≠ 'n' ∧ c ≠ 't' ∧ c ≠ 'f' ∧ c ≠ '"' ∧ c ≠ '[' ∧
    c ≠ Char.ofNat 123 ∧ c ≠ '-' ∧ c ≠ '.' ∧ c ≠ 'e' ∧ c ≠ 'E' ∧ c ≠ ']' ∧
    c ≠ Char.ofNat 125 ∧ c ≠ ',' := by
  obtain ⟨h1, h2⟩ := isDigit_toNat h
  have hne : ∀ d : Char, d.toNat < 48 ∨ 57 < d.toNat → c ≠ d := by
    intro d hd
    apply char_ne_of_toNat_ne
    omega
  refine ⟨?_, hne 'n' (by decide), hne 't' (by decide), hne 'f' (by decide),
    hne '"' (by decide), hne '[' (by decide), hne (Char.ofNat 123) (by decide),
    hne '-' (by decide), hne '.' (by decide), hne 'e' (by decide),
    hne 'E' (by decide), hne ']' (by decide), hne (Char.ofNat 125) (by decide),
    hne ',' (by decide)⟩
  simp [jsonWs, hne ' ' (by decide), hne '\t' (by decide), hne '\n' (by decide),
    hne '\r' (by decide)]

theorem ofNat_digit_facts : ∀ r ∈ List.range 10,
    (Char.ofNat (48 + r)).isDigit = true ∧ (Char.ofNat (48 + r)).toNat = 48 + r ∧
    (Char.ofNat (48 + r) = '0' ↔ r = 0) := by decide

theorem ofNat_digit_isDigit {r : Nat} (h : r < 10) :
    (Char.ofNat (48 + r)).isDigit = true :=
  (ofNat_digit_facts r (List.mem_range.mpr h)).1

theorem ofNat_digit_toNat {r : Nat} (h : r < 10) :
    (Char.ofNat (48 + r)).toNat = 48 + r :=
  (ofNat_digit_facts r (List.mem_range.mpr h)).2.1

theorem ofNat_digit_ne_zero {r : Nat} (h : r < 10) (hr : r ≠ 0) :
    Char.ofNat (48 + r) ≠ '0' :=
  fun e => hr ((ofNat_digit_facts r (List.mem_range.mpr h)).2.2.mp e)

theorem natStrAux_zero (f : Nat) : natStrAux f 0 = [] := by
  cases f <;> rfl

theorem natStrAux_spec : ∀ fuel n, 0 < n → n ≤ fuel →
    ∃ d ds, natStrAux fuel n = ds ++ [d] ∧ d ≠ '0' ∧
      ((ds ++ [d]).all Char.isDigit) = true ∧ digitsVal (ds ++ [d]) = n := by
  intro fuel
  induction fuel with
  | zero =>
    intro n h1 h2
    omega
  | succ f ih =>
    intro n h1 h2
    have hd10 : n % 10 < 10 := Nat.mod_lt _ (by omega)
    by_cases hq : n / 10 = 0
    · refine ⟨Char.ofNat (48 + n % 10), [], ?_, ?_, ?_, ?_⟩
      · cases n with
        | zero => omega
        | succ m =>
          show Char.ofNat (48 + (m + 1) % 10) :: natStrAux f ((m + 1) / 10) = _
          rw [hq, natStrAux_zero]
          rfl
      · exact ofNat_digit_ne_zero hd10 (by omega)
      · simp [ofNat_digit_isDigit hd10]
      · show (Char.ofNat (48 + n % 10)).toNat - 48 + 10 * digitsVal [] = n
        rw [ofNat_digit_toNat hd10]
        show 48 + n % 10 - 48 + 10 * 0 = n
        omega
    · have hq1 : 0 < n / 10 := Nat.pos_of_ne_zero hq
      have hq2 : n / 10 ≤ f := by
        have hlt : n / 10 < n := Nat.div_lt_self h1 (by omega)
        omega
      obtain ⟨d, ds, heq, hdz, hall, hval⟩ := ih (n / 10) hq1 hq2
      cases n with
      | zero => omega
      | succ m =>
        refine ⟨d, Char.ofNat (48 + (m + 1) % 10) :: ds, ?_, hdz, ?_, ?_⟩
        · show Char.ofNat (48 + (m + 1) % 10) :: natStrAux f ((m + 1) / 10) = _
          rw [heq]
          rfl
        · show ((Char.ofNat (48 + (m + 1) % 10) :: (ds ++ [d])).all Char.isDigit) = true
          rw [List.all_cons, ofNat_digit_isDigit (by omega), hall]
          rfl
        · show (Char.ofNat (48 + (m + 1) % 10)).toNat - 48
              + 10 * digitsVal (ds ++ [d]) = m + 1
          rw [ofNat_digit_toNat (by omega), hval]
          omega

theorem foldl_reverse_digits : ∀ l : List Char,
    l.reverse.foldl (fun a c => a * 10 + (c.toNat - 48)) 0 = digitsVal l
  | [] => rfl
  | c :: cs => by
    rw [List.reverse_cons, List.foldl_append, foldl_reverse_digits cs]
    show digitsVal cs * 10 + (c.toNat - 48) = (c.toNat - 48) + 10 * digitsVal cs
    omega

theorem natStr_spec (n : Nat) : ∃ c cs, (natStr n).data = c :: cs ∧
    ((c :: cs).all Char.isDigit) = true ∧ (c ≠ '0' ∨ cs = []) ∧
    (c :: cs).foldl (fun a ch => a * 10 + (ch.toNat - 48)) 0 = n := by
  by_cases h0 : n = 0
  · subst h0
    exact ⟨'0', [], by rfl, by decide, Or.inr rfl, by decide⟩
  · obtain ⟨d, ds, heq, hdz, hall, hval⟩ :=
      natStrAux_spec n n (Nat.pos_of_ne_zero h0) le_rfl
    have hrev : (ds ++ [d]).reverse = d :: ds.reverse := by
      rw [List.reverse_append]
      rfl
    have hdata : (natStr n).data = d :: ds.reverse := by
      unfold natStr
      rw [if_neg h0]
      show (natStrAux n n).reverse = _
      rw [heq, hrev]
    refine ⟨d, ds.reverse, hdata, ?_, Or.inl hdz, ?_⟩
    · rw [← hrev]
      simp only [List.all_eq_true] at hall ⊢
      intro x hx
      exact hall x (List.mem_reverse.mp hx)
    · rw [← hrev, foldl_reverse_digits, hval]

theorem decodeNat_natStr (n : Nat) : decodeNat (natStr n) = some n := by
  obtain ⟨c, cs, hdata, hall, _, hfold⟩ := natStr_spec n
  unfold decodeNat
  rw [hdata]
  have hc : (decide ((c :: cs) ≠ []) && (c :: cs).all Char.isDigit) = true := by
    simp [hall]
  rw [if_pos hc, hfold]

theorem canonNumStr_natStr (n : Nat) : canonNumStr (natStr n) = true := by
  obtain ⟨c, cs, hdata, hall, hz, _⟩ := natStr_spec n
  unfold canonNumStr
  rw [hdata]
  rcases hz with hz | hz
  · simp [hall, hz]
  · subst hz
    simp only [List.all_cons, List.all_nil, Bool.and_true] at hall
    simp [hall]

theorem skipWs_cons {c : Char} (l : List Char) (h : jsonWs c = false) :
    skipWs (c :: l) = c :: l := by
  simp [skipWs, List.dropWhile_cons, h]

theorem hexDigitVal_toHexDigit {n : Nat} (h : n < 16) :
    hexDigitVal (toHexDigit n) = some n := by
  have hall : ∀ m ∈ List.range 16, hexDigitVal (toHexDigit m) = some m := by decide
  exact hall n (List.mem_range.mpr h)

theorem lexStringBody_cons_other {c : Char} (cs : List Char) (h1 : c ≠ '"')
    (h2 : c ≠ '\\') (h3 : ¬ c.toNat < 32) :
    lexStringBody (c :: cs) = consStr c (lexStringBody cs) := by
  conv_lhs => unfold lexStringBody
  rw [if_neg h1, if_neg h2, if_neg h3]

theorem lexStringBody_escape (c : Char) (cs : List Char) :
    lexStringBody (escapeChar c ++ cs) = consStr c (lexStringBody cs) := by
  by_cases h1 : c = '"'
  · subst h1
    rw [show escapeChar '"' ++ cs = '\\' :: '"' :: cs from rfl]
    conv_lhs => unfold lexStringBody
    rw [if_neg (by decide), if_pos rfl]
    dsimp only []
    rw [if_pos rfl]
  by_cases h2 : c = '\\'
  · subst h2
    rw [show escapeChar '\\' ++ cs = '\\' :: '\\' :: cs from rfl]
    conv_lhs => unfold lexStringBody
    rw [if_neg (by decide), if_pos rfl]
    dsimp only []
    rw [if_neg (by decide), if_pos rfl]
  by_cases h3 : c.toNat = 8
  · have hce : c = Char.ofNat 8 :=
      char_eq_of_toNat_eq (h3.trans (show (8 : Nat) = (Char.ofNat 8).toNat by decide))
    subst hce
    rw [show escapeChar (Char.ofNat 8) ++ cs = '\\' :: 'b' :: cs from rfl]
    conv_lhs => unfold lexStringBody
    rw [if_neg (by decide), if_pos rfl]
    dsimp only []
    rw [if_neg (by decide), if_neg (by decide), if_neg (by decide), if_pos rfl]
  by_cases h4 : c.toNat = 9
  · have hce : c = Char.ofNat 9 :=
      char_eq_of_toNat_eq (h4.trans (show (9 : Nat) = (Char.ofNat 9).toNat by decide))
    subst hce
    rw [show escapeChar (Char.ofNat 9) ++ cs = '\\' :: 't' :: cs from rfl]
    conv_lhs => unfold lexStringBody
    rw [if_neg (by decide), if_pos rfl]
    dsimp only []
    rw [if_neg (by decide), if_neg (by decide), if_neg (by decide), if_neg (by decide),
      if_neg (by decide), if_neg (by decide), if_neg (by decide), if_pos rfl]
  by_cases h5 : c.toNat = 10
  · have hce : c = Char.ofNat 10 :=
      char_eq_of_toNat_eq (h5.trans (show (10 : Nat) = (Char.ofNat 10).toNat by decide))
    subst hce
    rw [show escapeChar (Char.ofNat 10) ++ cs = '\\' :: 'n' :: cs from rfl]
    conv_lhs => unfold lexStringBody
    rw [if_neg (by decide), if_pos rfl]
    dsimp only []
    rw [if_neg (by decide), if_neg (by decide), if_neg (by decide), if_neg (by decide),
      if_neg (by decide), if_pos rfl]
  by_cases h6 : c.toNat = 12
  · have hce : c = Char.ofNat 12 :=
      char_eq_of_toNat_eq (h6.trans (show (12 : Nat) = (Char.ofNat 12).toNat by decide))
    subst hce
    rw [show escapeChar (Char.ofNat 12) ++ cs = '\\' :: 'f' :: cs from rfl]
    conv_lhs => unfold lexStringBody
    rw [if_neg (by decide), if_pos rfl]
    dsimp only []
    rw [if_neg (by decide), if_neg (by decide), if_neg (by decide), if_neg (by decide),
      if_pos rfl]
  by_cases h7 : c.toNat = 13
  · have hce : c = Char.ofNat 13 :=
      char_eq_of_toNat_eq (h7.trans (show (13 : Nat) = (Char.ofNat 13).toNat by decide))
    subst hce
    rw [show escapeChar (Char.ofNat 13) ++ cs = '\\' :: 'r' :: cs from rfl]
    conv_lhs => unfold lexStringBody
    rw [if_neg (by decide), if_pos rfl]
    dsimp only []
    rw [if_neg (by decide), if_neg (by decide), if_neg (by decide), if_neg (by decide),
      if_neg (by decide), if_neg (by decide), if_pos rfl]
  by_cases hc : c.toNat < 32
  · have hdiv : c.toNat / 16 < 16 := by omega
    have hmod : c.toNat % 16 < 16 := by omega
    have hesc : escapeChar c = ['\\', 'u', '0', '0',
        toHexDigit (c.toNat / 16), toHexDigit (c.toNat % 16)] := by
      unfold escapeChar
      rw [if_neg h1, if_neg h2, if_neg h3, if_neg h4, if_neg h5, if_neg h6,
        if_neg h7, if_pos hc]
    rw [hesc]
    show lexStringBody ('\\' :: 'u' :: '0' :: '0'
        :: toHexDigit (c.toNat / 16) :: toHexDigit (c.toNat % 16) :: cs) = _
    conv_lhs => unfold lexStringBody
    rw [if_neg (by decide), if_pos rfl]
    dsimp only []
    rw [if_neg (by decide), if_neg (by decide), if_neg (by decide), if_neg (by decide),
      if_neg (by decide), if_neg (by decide), if_neg (by decide), if_neg (by decide),
      if_pos rfl]
    rw [show hexDigitVal '0' = some 0 from rfl,
      hexDigitVal_toHexDigit hdiv, hexDigitVal_toHexDigit hmod]
    show consStr (Char.ofNat (((0 * 16 + 0) * 16 + c.toNat / 16) * 16 + c.toNat % 16))
        (lexStringBody cs) = _
    have harith : ((0 * 16 + 0) * 16 + c.toNat / 16) * 16 + c.toNat % 16 = c.toNat := by
      omega
    rw [harith, Char.ofNat_toNat]
  · have hesc : escapeChar c = [c] := by
      unfold escapeChar
      rw [if_neg h1, if_neg h2, if_neg h3, if_neg h4, if_neg h5, if_neg h6,
        if_neg h7, if_neg hc]
    rw [hesc]
    show lexStringBody (c :: cs) = _
    exact lexStringBody_cons_other cs h1 h2 hc

theorem lexStringBody_flatten : ∀ (l : List Char) (rest : List Char),
    lexStringBody ((l.map escapeChar).flatten ++ '"' :: rest) = some (l, rest)
  | [], rest => by
    rw [show ((List.map escapeChar []).flatten ++ '"' :: rest) = '"' :: rest from rfl]
    conv_lhs => unfold lexStringBody
    rw [if_pos rfl]
  | c :: cs, rest => by
    rw [List.map_cons, List.flatten_cons, List.append_assoc,
      lexStringBody_escape c _, lexStringBody_flatten cs rest]
    rfl

theorem numStop_facts {rest : List Char} (h : numStop rest = true) :
    ∀ x xs, rest = x :: xs → x.isDigit = false ∧ x ≠ '.' ∧ x ≠ 'e' ∧ x ≠ 'E' := by
  intro x xs he
  subst he
  simp [numStop] at h
  exact ⟨h.1.1.1, h.1.1.2, h.1.2, h.2⟩

theorem takedrop_digits_append : ∀ (ds rest : List Char),
    ds.all Char.isDigit = true →
    (∀ x xs, rest = x :: xs → x.isDigit = false) →
    (ds ++ rest).takeWhile Char.isDigit = ds ∧
    (ds ++ rest).dropWhile Char.isDigit = rest
  | [], rest, _, hr => by
    cases rest with
    | nil => exact ⟨rfl, rfl⟩
    | cons x xs =>
      simp [List.takeWhile_cons, List.dropWhile_cons, hr x xs rfl]
  | d :: ds, rest, hall, hr => by
    simp only [List.all_cons, Bool.and_eq_true] at hall
    have ih := takedrop_digits_append ds rest hall.2 hr
    simp [List.cons_append, List.takeWhile_cons, List.dropWhile_cons, hall.1,
      ih.1, ih.2]

theorem spanDigits_append (ds rest : List Char) (hds : ds.all Char.isDigit = true)
    (hr : ∀ x xs, rest = x :: xs → x.isDigit = false) :
    spanDigits (ds ++ rest) = (ds, rest) := by
  unfold spanDigits
  rw [(takedrop_digits_append ds rest hds hr).1,
    (takedrop_digits_append ds rest hds hr).2]

theorem lexIntPart_canon {c : Char} {cs rest : List Char}
    (hall : ((c :: cs).all Char.isDigit) = true) (hz : c ≠ '0' ∨ cs = [])
    (hstop : numStop rest = true) :
    lexIntPart (c :: (cs ++ rest)) = some (c :: cs, rest) := by
  simp only [List.all_cons, Bool.and_eq_true] at hall
  have hnd : ∀ x xs, rest = x :: xs → x.isDigit = false := fun x xs he =>
    (numStop_facts hstop x xs he).1
  have hspan : spanDigits (cs ++ rest) = (cs, rest) :=
    spanDigits_append cs rest hall.2 hnd
  conv_lhs => unfold lexIntPart
  dsimp only []
  by_cases hc0 : c = '0'
  · have hcs : cs = [] := by
      rcases hz with hz | hz
      · exact absurd hc0 hz
      · exact hz
    subst hcs
    subst hc0
    simp
  · rw [if_neg hc0, if_pos hall.1, hspan]

theorem lexFracPart_stop {rest : List Char} (hstop : numStop rest = true) :
    lexFracPart rest = some ([], rest) := by
  cases rest with
  | nil => rfl
  | cons x xs =>
    have hf := numStop_facts hstop x xs rfl
    conv_lhs => unfold lexFracPart
    dsimp only []
    rw [if_neg hf.2.1]

theorem lexExpPart_stop {rest : List Char} (hstop : numStop rest = true) :
    lexExpPart rest = some ([], rest) := by
  cases rest with
  | nil => rfl
  | cons x xs =>
    have hf := numStop_facts hstop x xs rfl
    conv_lhs => unfold lexExpPart
    dsimp only []
    rw [if_neg (by simp [hf.2.2.1, hf.2.2.2])]

theorem lexNumber_canon {lex : String} {rest : List Char}
    (hc : canonNumStr lex = true) (hstop : numStop rest = true) :
    lexNumber (lex.data ++ rest) = some (lex, rest) := by
  obtain ⟨ld⟩ := lex
  cases ld with
  | nil => simp [canonNumStr] at hc
  | cons c cs =>
    replace hc : ((c :: cs).all Char.isDigit
        && (decide (c ≠ '0') || cs.isEmpty)) = true := hc
    rw [Bool.and_eq_true] at hc
    have hall := hc.1
    have hz : c ≠ '0' ∨ cs = [] := by
      have hc2 := hc.2
      rw [Bool.or_eq_true] at hc2
      rcases hc2 with h | h
      · exact Or.inl (of_decide_eq_true h)
      · cases cs with
        | nil => exact Or.inr rfl
        | cons y ys => cases h
    have hcd : c.isDigit = true := by
      have hall2 := hall
      simp only [List.all_cons, Bool.and_eq_true] at hall2
      exact hall2.1
    have hfacts := digit_char_facts hcd
    show lexNumber ((c :: cs) ++ rest) = some (⟨c :: cs⟩, rest)
    rw [List.cons_append]
    conv_lhs => unfold lexNumber
    dsimp only []
    rw [if_neg hfacts.2.2.2.2.2.2.2.1]
    conv_lhs => unfold lexNumberTail
    rw [lexIntPart_canon hall hz hstop]
    dsimp only []
    rw [lexFracPart_stop hstop]
    dsimp only []
    rw [lexExpPart_stop hstop]
    simp

theorem setField_append {acc : List (String × Js)} {k : String} (v : Js)
    (h : ∀ p ∈ acc, p.1 ≠ k) : setField acc k v = acc ++ [(k, v)] := by
  unfold setField
  have hany : acc.any (fun p => p.1 = k) = false := by
    simp only [List.any_eq_false, decide_eq_true_eq]
    exact h
  rw [hany]
  simp

theorem numStop_cons (c : Char) (l : List Char) :
    numStop (c :: l)
      = !(c.isDigit || decide (c = '.') || decide (c = 'e') || decide (c = 'E')) := by
  conv_lhs => unfold numStop

theorem numStop_items (ws : List Js) (rest : List Char) :
    numStop (stringifyItems ws ++ ']' :: rest) = true := by
  cases ws with
  | nil =>
    rw [show stringifyItems [] ++ ']' :: rest = ']' :: rest from rfl, numStop_cons]
    decide
  | cons w2 ws2 =>
    rw [show stringifyItems (w2 :: ws2) ++ ']' :: rest
        = ',' :: ((stringifyVal w2 ++ stringifyItems ws2) ++ ']' :: rest) from by
      rw [show stringifyItems (w2 :: ws2)
          = (',' :: stringifyVal w2) ++ stringifyItems ws2 from rfl]
      simp [List.cons_append, List.append_assoc], numStop_cons]
    decide

theorem numStop_fields (fs : List (String × Js)) (rest : List Char) :
    numStop (stringifyFields fs ++ Char.ofNat 125 :: rest) = true := by
  cases fs with
  | nil =>
    rw [show stringifyFields [] ++ Char.ofNat 125 :: rest
        = Char.ofNat 125 :: rest from rfl, numStop_cons]
    decide
  | cons f2 fs2 =>
    rw [show stringifyFields (f2 :: fs2) ++ Char.ofNat 125 :: rest
        = ',' :: ((stringifyField f2 ++ stringifyFields fs2)
            ++ Char.ofNat 125 :: rest) from by
      rw [show stringifyFields (f2 :: fs2)
          = (',' :: stringifyField f2) ++ stringifyFields fs2 from rfl]
      simp [List.cons_append, List.append_assoc], numStop_cons]
    decide

theorem one_le_steps : ∀ v : Js, 1 ≤ steps v
  | .null => le_refl _
  | .bool _ => le_refl _
  | .num _ => le_refl _
  | .str _ => le_refl _
  | .arr _ => Nat.le_add_right 1 _
  | .obj _ => Nat.le_add_right 1 _

theorem stringifyVal_head {v : Js} (hc : canonVal v = true) :
    ∃ c l, stringifyVal v = c :: l ∧ jsonWs c = false ∧ c ≠ ']' ∧
      c ≠ Char.ofNat 125 := by
  cases v with
  | null => exact ⟨'n', _, rfl, by decide, by decide, by decide⟩
  | bool b =>
    cases b with
    | false => exact ⟨'f', _, rfl, by decide, by decide, by decide⟩
    | true => exact ⟨'t', _, rfl, by decide, by decide, by decide⟩
  | num s =>
    obtain ⟨ld⟩ := s
    cases ld with
    | nil =>
      replace hc : canonNumStr ⟨[]⟩ = true := hc
      simp [canonNumStr] at hc
    | cons c cs =>
      replace hc : ((c :: cs).all Char.isDigit
          && (decide (c ≠ '0') || cs.isEmpty)) = true := hc
      rw [Bool.and_eq_true] at hc
      have hcd : c.isDigit = true := by
        have h2 := hc.1
        simp only [List.all_cons, Bool.and_eq_true] at h2
        exact h2.1
      have hf := digit_char_facts hcd
      exact ⟨c, cs, rfl, hf.1, hf.2.2.2.2.2.2.2.2.2.2.2.1, hf.2.2.2.2.2.2.2.2.2.2.2.2.1⟩
  | str s => exact ⟨'"', _, rfl, by decide, by decide, by decide⟩
  | arr vs =>
    cases vs with
    | nil => exact ⟨'[', _, rfl, by decide, by decide, by decide⟩
    | cons w ws => exact ⟨'[', _, rfl, by decide, by decide, by decide⟩
  | obj fs =>
    cases fs with
    | nil => exact ⟨Char.ofNat 123, _, rfl, by decide, by decide, by decide⟩
    | cons f fs2 => exact ⟨Char.ofNat 123, _, rfl, by decide, by decide, by decide⟩

mutual

theorem steps_le_val : ∀ v : Js, steps v ≤ 2 * (stringifyVal v).length + 1
  | .null => by decide
  | .bool false => by decide
  | .bool true => by decide
  | .num s => by
    show (1 : Nat) ≤ 2 * (stringifyVal (.num s)).length + 1
    omega
  | .str s => by
    show (1 : Nat) ≤ 2 * (stringifyVal (.str s)).length + 1
    omega
  | .arr [] => by decide
  | .arr (w :: ws) => by
    have h1 := steps_le_val w
    have h2 := steps_le_items ws
    have hs : steps (.arr (w :: ws)) = 1 + (1 + steps w + stepsItemsD ws) := rfl
    have hlen : (stringifyVal (.arr (w :: ws))).length
        = 2 + (stringifyVal w).length + (stringifyItems ws).length := by
      rw [show stringifyVal (.arr (w :: ws))
          = ('[' :: (stringifyVal w ++ stringifyItems ws)) ++ [']'] from rfl]
      simp only [List.length_append, List.length_cons, List.length_nil]
      omega
    rw [hs, hlen]
    omega
  | .obj [] => by decide
  | .obj ((k, w) :: fs) => by
    have h1 := steps_le_val w
    have h2 := steps_le_fields fs
    have hs : steps (.obj ((k, w) :: fs))
        = 1 + (1 + steps w + stepsFieldsD fs) := rfl
    have hflen : (stringifyField (k, w)).length
        = (stringifyStr k).length + 1 + (stringifyVal w).length := by
      rw [show stringifyField (k, w) = stringifyStr k ++ ':' :: stringifyVal w from rfl]
      simp only [List.length_append, List.length_cons, List.length_nil]
      omega
    have hlen : (stringifyVal (.obj ((k, w) :: fs))).length
        = 2 + (stringifyField (k, w)).length + (stringifyFields fs).length := by
      rw [show stringifyVal (.obj ((k, w) :: fs))
          = (Char.ofNat 123 :: (stringifyField (k, w) ++ stringifyFields fs))
            ++ [Char.ofNat 125] from rfl]
      simp only [List.length_append, List.length_cons, List.length_nil]
      omega
    rw [hs, hlen, hflen]
    omega

theorem steps_le_items : ∀ vs : List Js, stepsItemsD vs ≤ 2 * (stringifyItems vs).length
  | [] => by decide
  | w :: ws => by
    have h1 := steps_le_val w
    have h2 := steps_le_items ws
    have hs : stepsItemsD (w :: ws) = 1 + steps w + stepsItemsD ws := rfl
    have hlen : (stringifyItems (w :: ws)).length
        = 1 + (stringifyVal w).length + (stringifyItems ws).length := by
      rw [show stringifyItems (w :: ws)
          = (',' :: stringifyVal w) ++ stringifyItems ws from rfl]
      simp only [List.length_append, List.length_cons, List.length_nil]
      omega
    rw [hs, hlen]
    omega

theorem steps_le_fields : ∀ fs : List (String × Js),
    stepsFieldsD fs ≤ 2 * (stringifyFields fs).length
  | [] => by decide
  | (k, w) :: fs => by
    have h1 := steps_le_val w
    have h2 := steps_le_fields fs
    have hs : stepsFieldsD ((k, w) :: fs) = 1 + steps w + stepsFieldsD fs := rfl
    have hflen : (stringifyField (k, w)).length
        = (stringifyStr k).length + 1 + (stringifyVal w).length := by
      rw [show stringifyField (k, w) = stringifyStr k ++ ':' :: stringifyVal w from rfl]
      simp only [List.length_append, List.length_cons, List.length_nil]
      omega
    have hlen : (stringifyFields ((k, w) :: fs)).length
        = 1 + (stringifyField (k, w)).length + (stringifyFields fs).length := by
      rw [show stringifyFields ((k, w) :: fs)
          = (',' :: stringifyField (k, w)) ++ stringifyFields fs from rfl]
      simp only [List.length_append, List.length_cons, List.length_nil]
      omega
    rw [hs, hlen, hflen]
    omega

end

theorem parse_stringify : ∀ fuel : Nat,
    (∀ (v : Js) (rest : List Char), canonVal v = true → steps v ≤ fuel →
      numStop rest = true →
      parseValue fuel (stringifyVal v ++ rest) = some (v, rest)) ∧
    (∀ (v : Js) (vs : List Js) (acc : List Js) (rest : List Char),
      canonVal v = true → canonItems vs = true →
      1 + steps v + stepsItemsD vs ≤ fuel →
      parseItems fuel (stringifyVal v ++ (stringifyItems vs ++ ']' :: rest)) acc
        = some (.arr (acc ++ v :: vs), rest)) ∧
    (∀ (k : String) (v : Js) (fs : List (String × Js))
        (acc : List (String × Js)) (rest : List Char),
      canonVal v = true → canonFieldsB fs = true →
      (((acc ++ (k, v) :: fs).map Prod.fst).Nodup) →
      1 + steps v + stepsFieldsD fs ≤ fuel →
      parseFields fuel (stringifyStr k ++ ':' :: (stringifyVal v
          ++ (stringifyFields fs ++ Char.ofNat 125 :: rest))) acc
        = some (.obj (acc ++ (k, v) :: fs), rest)) := by
  intro fuel
  induction fuel with
  | zero =>
    refine ⟨?_, ?_, ?_⟩
    · intro v rest _ hst _
      have h1 := one_le_steps v
      omega
    · intro v vs acc rest _ _ hle
      omega
    · intro k v fs acc rest _ _ _ hle
      omega
  | succ fuel ih =>
    obtain ⟨ihA, ihB, ihC⟩ := ih
    refine ⟨?_, ?_, ?_⟩
    · intro v rest hcv hst hstop
      cases v with
      | null =>
        rw [show stringifyVal .null ++ rest = 'n' :: 'u' :: 'l' :: 'l' :: rest from rfl]
        conv_lhs => unfold parseValue
        rw [skipWs_cons _ (by decide)]
        dsimp only []
        rw [if_pos rfl]
        rw [if_pos ⟨rfl, rfl, rfl⟩]
      | bool b =>
        cases b with
        | true =>
          rw [show stringifyVal (.bool true) ++ rest
              = 't' :: 'r' :: 'u' :: 'e' :: rest from rfl]
          conv_lhs => unfold parseValue
          rw [skipWs_cons _ (by decide)]
          dsimp only []
          rw [if_neg (by decide), if_pos rfl]
          rw [if_pos ⟨rfl, rfl, rfl⟩]
        | false =>
          rw [show stringifyVal (.bool false) ++ rest
              = 'f' :: 'a' :: 'l' :: 's' :: 'e' :: rest from rfl]
          conv_lhs => unfold parseValue
          rw [skipWs_cons _ (by decide)]
          dsimp only []
          rw [if_neg (by decide), if_neg (by decide), if_pos rfl]
          rw [if_pos ⟨rfl, rfl, rfl, rfl⟩]
      | num s =>
        replace hcv : canonNumStr s = true := hcv
        obtain ⟨ld⟩ := s
        cases ld with
        | nil => simp [canonNumStr] at hcv
        | cons c cs =>
          have hcv2 : ((c :: cs).all Char.isDigit
              && (decide (c ≠ '0') || cs.isEmpty)) = true := hcv
          rw [Bool.and_eq_true] at hcv2
          have hcd : c.isDigit = true := by
            have h2 := hcv2.1
            simp only [List.all_cons, Bool.and_eq_true] at h2
            exact h2.1
          have hf := digit_char_facts hcd
          show parseValue (fuel + 1) (c :: (cs ++ rest)) = some (.num ⟨c :: cs⟩, rest)
          conv_lhs => unfold parseValue
          rw [skipWs_cons _ hf.1]
          dsimp only []
          rw [if_neg hf.2.1, if_neg hf.2.2.1, if_neg hf.2.2.2.1, if_neg hf.2.2.2.2.1,
            if_neg hf.2.2.2.2.2.1, if_neg hf.2.2.2.2.2.2.1]
          rw [show lexNumber (c :: (cs ++ rest)) = some (⟨c :: cs⟩, rest) from
            @lexNumber_canon ⟨c :: cs⟩ rest hcv hstop]
      | str s =>
        have hshape : stringifyVal (.str s) ++ rest
            = '"' :: ((s.data.map escapeChar).flatten ++ '"' :: rest) := by
          rw [show stringifyVal (.str s)
              = '"' :: (s.data.map escapeChar).flatten ++ ['"'] from rfl]
          simp [List.cons_append, List.append_assoc]
        rw [hshape]
        conv_lhs => unfold parseValue
        rw [skipWs_cons _ (by decide)]
        dsimp only []
        rw [if_neg (by decide), if_neg (by decide), if_neg (by decide), if_pos rfl]
        rw [lexStringBody_flatten s.data rest]
      | arr vs =>
        cases vs with
        | nil =>
          rw [show stringifyVal (.arr []) ++ rest = '[' :: ']' :: rest from rfl]
          conv_lhs => unfold parseValue
          rw [skipWs_cons _ (by decide)]
          dsimp only []
          rw [if_neg (by decide), if_neg (by decide), if_neg (by decide),
            if_neg (by decide), if_pos rfl]
          rw [skipWs_cons _ (by decide)]
          dsimp only []
          rw [if_pos rfl]
        | cons w ws =>
          replace hcv : (canonVal w && canonItems ws) = true := hcv
          rw [Bool.and_eq_true] at hcv
          have hshape : stringifyVal (.arr (w :: ws)) ++ rest
              = '[' :: (stringifyVal w ++ (stringifyItems ws ++ ']' :: rest)) := by
            rw [show stringifyVal (.arr (w :: ws))
                = ('[' :: (stringifyVal w ++ stringifyItems ws)) ++ [']'] from rfl]
            simp [List.cons_append, List.append_assoc]
          rw [hshape]
          conv_lhs => unfold parseValue
          rw [skipWs_cons _ (by decide)]
          dsimp only []
          rw [if_neg (by decide), if_neg (by decide), if_neg (by decide),
            if_neg (by decide), if_pos rfl]
          obtain ⟨c1, l1, hsv1, hws1, hnrb, hncb⟩ := stringifyVal_head hcv.1
          have hsk : skipWs (stringifyVal w ++ (stringifyItems ws ++ ']' :: rest))
              = c1 :: (l1 ++ (stringifyItems ws ++ ']' :: rest)) := by
            rw [hsv1, List.cons_append, skipWs_cons _ hws1]
          rw [hsk]
          dsimp only []
          rw [if_neg hnrb]
          have hdem : 1 + steps w + stepsItemsD ws ≤ fuel := by
            have hs : steps (.arr (w :: ws)) = 1 + (1 + steps w + stepsItemsD ws) := rfl
            omega
          exact ihB w ws [] rest hcv.1 hcv.2 hdem
      | obj fs0 =>
        cases fs0 with
        | nil =>
          rw [show stringifyVal (.obj []) ++ rest
              = Char.ofNat 123 :: Char.ofNat 125 :: rest from rfl]
          conv_lhs => unfold parseValue
          rw [skipWs_cons _ (by decide)]
          dsimp only []
          rw [if_neg (by decide), if_neg (by decide), if_neg (by decide),
            if_neg (by decide), if_neg (by decide), if_pos rfl]
          rw [skipWs_cons _ (by decide)]
          dsimp only []
          rw [if_pos rfl]
        | cons f fs =>
          obtain ⟨k, w⟩ := f
          replace hcv : ((canonVal w && canonFieldsB fs)
              && decide ((((k, w) :: fs).map Prod.fst).Nodup)) = true := hcv
          rw [Bool.and_eq_true, Bool.and_eq_true] at hcv
          obtain ⟨⟨hcw, hcfs⟩, hnd'⟩ := hcv
          have hnd := of_decide_eq_true hnd'
          have hshape : stringifyVal (.obj ((k, w) :: fs)) ++ rest
              = Char.ofNat 123 :: (stringifyStr k
                  ++ ':' :: (stringifyVal w ++ (stringifyFields fs
                    ++ Char.ofNat 125 :: rest))) := by
            rw [show stringifyVal (.obj ((k, w) :: fs))
                = (Char.ofNat 123 :: (stringifyField (k, w) ++ stringifyFields fs))
                  ++ [Char.ofNat 125] from rfl,
              show stringifyField (k, w)
                = stringifyStr k ++ ':' :: stringifyVal w from rfl]
            simp [List.cons_append, List.append_assoc]
          rw [hshape]
          conv_lhs => unfold parseValue
          rw [skipWs_cons _ (by decide)]
          dsimp only []
          rw [if_neg (by decide), if_neg (by decide), if_neg (by decide),
            if_neg (by decide), if_neg (by decide), if_pos rfl]
          have hF : stringifyStr k ++ ':' :: (stringifyVal w ++ (stringifyFields fs
                ++ Char.ofNat 125 :: rest))
              = '"' :: ((k.data.map escapeChar).flatten
                  ++ '"' :: (':' :: (stringifyVal w ++ (stringifyFields fs
                    ++ Char.ofNat 125 :: rest)))) := by
            rw [show stringifyStr k
                = '"' :: (k.data.map escapeChar).flatten ++ ['"'] from rfl]
            simp [List.cons_append, List.append_assoc]
          have hsk : skipWs (stringifyStr k ++ ':' :: (stringifyVal w
                ++ (stringifyFields fs ++ Char.ofNat 125 :: rest)))
              = '"' :: ((k.data.map escapeChar).flatten
                  ++ '"' :: (':' :: (stringifyVal w ++ (stringifyFields fs
                    ++ Char.ofNat 125 :: rest)))) := by
            rw [hF, skipWs_cons _ (by decide)]
          rw [hsk]
          dsimp only []
          rw [if_neg (by decide)]
          have hdem : 1 + steps w + stepsFieldsD fs ≤ fuel := by
            have hs : steps (.obj ((k, w) :: fs))
                = 1 + (1 + steps w + stepsFieldsD fs) := rfl
            omega
          exact ihC k w fs [] rest hcw hcfs hnd hdem
    · intro w ws acc rest hcw hcws hle
      conv_lhs => unfold parseItems
      have hdem : steps w ≤ fuel := by omega
      rw [ihA w (stringifyItems ws ++ ']' :: rest) hcw hdem (numStop_items ws rest)]
      dsimp only []
      cases ws with
      | nil =>
        rw [show stringifyItems ([] : List Js) ++ ']' :: rest = ']' :: rest from rfl]
        rw [skipWs_cons _ (by decide)]
        dsimp only []
        rw [if_neg (by decide), if_pos rfl]
      | cons w2 ws2 =>
        replace hcws : (canonVal w2 && canonItems ws2) = true := hcws
        rw [Bool.and_eq_true] at hcws
        have hskr : skipWs (stringifyItems (w2 :: ws2) ++ ']' :: rest)
            = ',' :: (stringifyVal w2 ++ (stringifyItems ws2 ++ ']' :: rest)) := by
          rw [show stringifyItems (w2 :: ws2) ++ ']' :: rest
              = ',' :: (stringifyVal w2 ++ (stringifyItems ws2 ++ ']' :: rest)) from by
            rw [show stringifyItems (w2 :: ws2)
                = (',' :: stringifyVal w2) ++ stringifyItems ws2 from rfl]
            simp [List.cons_append, List.append_assoc]]
          rw [skipWs_cons _ (by decide)]
        rw [hskr]
        dsimp only []
        rw [if_pos rfl]
        have hdem2 : 1 + steps w2 + stepsItemsD ws2 ≤ fuel := by
          have hsI : stepsItemsD (w2 :: ws2) = 1 + steps w2 + stepsItemsD ws2 := rfl
          omega
        rw [ihB w2 ws2 (acc ++ [w]) rest hcws.1 hcws.2 hdem2, List.append_assoc,
          List.singleton_append]
    · intro k w fs acc rest hcw hcfs hnd hle
      conv_lhs => unfold parseFields
      have hF : stringifyStr k ++ ':' :: (stringifyVal w ++ (stringifyFields fs
            ++ Char.ofNat 125 :: rest))
          = '"' :: ((k.data.map escapeChar).flatten
              ++ '"' :: (':' :: (stringifyVal w ++ (stringifyFields fs
                ++ Char.ofNat 125 :: rest)))) := by
        rw [show stringifyStr k
            = '"' :: (k.data.map escapeChar).flatten ++ ['"'] from rfl]
        simp [List.cons_append, List.append_assoc]
      rw [show skipWs (stringifyStr k ++ ':' :: (stringifyVal w ++ (stringifyFields fs
            ++ Char.ofNat 125 :: rest)))
          = '"' :: ((k.data.map escapeChar).flatten
              ++ '"' :: (':' :: (stringifyVal w ++ (stringifyFields fs
                ++ Char.ofNat 125 :: rest)))) from by
        rw [hF, skipWs_cons _ (by decide)]]
      dsimp only []
      rw [if_pos rfl]
      rw [lexStringBody_flatten k.data (':' :: (stringifyVal w ++ (stringifyFields fs
        ++ Char.ofNat 125 :: rest)))]
      dsimp only []
      rw [skipWs_cons _ (by decide)]
      dsimp only []
      rw [if_pos rfl]
      have hdem : steps w ≤ fuel := by omega
      rw [ihA w (stringifyFields fs ++ Char.ofNat 125 :: rest) hcw hdem
        (numStop_fields fs rest)]
      dsimp only []
      rw [show (⟨k.data⟩ : String) = k from rfl]
      have hnd3 := hnd
      rw [List.map_append] at hnd3
      have hknot : ∀ p ∈ acc, p.1 ≠ k := by
        intro p hp he
        have h1 : k ∈ acc.map Prod.fst := by
          rw [← he]
          exact List.mem_map_of_mem _ hp
        have h2 : k ∈ ((k, w) :: fs).map Prod.fst := by simp
        exact (List.nodup_append.mp hnd3).2.2 h1 h2
      rw [setField_append w hknot]
      cases fs with
      | nil =>
        rw [show stringifyFields ([] : List (String × Js)) ++ Char.ofNat 125 :: rest
            = Char.ofNat 125 :: rest from rfl]
        rw [skipWs_cons _ (by decide)]
        dsimp only []
        rw [if_neg (by decide), if_pos rfl]
      | cons f2 fs2 =>
        obtain ⟨k2, w2⟩ := f2
        replace hcfs : (canonVal w2 && canonFieldsB fs2) = true := hcfs
        rw [Bool.and_eq_true] at hcfs
        have hskr : skipWs (stringifyFields ((k2, w2) :: fs2) ++ Char.ofNat 125 :: rest)
            = ',' :: (stringifyField (k2, w2) ++ (stringifyFields fs2
                ++ Char.ofNat 125 :: rest)) := by
          rw [show stringifyFields ((k2, w2) :: fs2) ++ Char.ofNat 125 :: rest
              = ',' :: (stringifyField (k2, w2) ++ (stringifyFields fs2
                  ++ Char.ofNat 125 :: rest)) from by
            rw [show stringifyFields ((k2, w2) :: fs2)
                = (',' :: stringifyField (k2, w2)) ++ stringifyFields fs2 from rfl]
            simp [List.cons_append, List.append_assoc]]
          rw [skipWs_cons _ (by decide)]
        rw [hskr]
        dsimp only []
        rw [if_pos rfl]
        have hform : stringifyField (k2, w2) ++ (stringifyFields fs2
              ++ Char.ofNat 125 :: rest)
            = stringifyStr k2 ++ ':' :: (stringifyVal w2 ++ (stringifyFields fs2
              ++ Char.ofNat 125 :: rest)) := by
          rw [show stringifyField (k2, w2)
              = stringifyStr k2 ++ ':' :: stringifyVal w2 from rfl]
          simp [List.cons_append, List.append_assoc]
        rw [hform]
        have hnd2 : (((acc ++ [(k, w)]) ++ (k2, w2) :: fs2).map Prod.fst).Nodup := by
          rw [List.append_assoc]
          exact hnd
        have hdem2 : 1 + steps w2 + stepsFieldsD fs2 ≤ fuel := by
          have hsF : stepsFieldsD ((k2, w2) :: fs2)
              = 1 + steps w2 + stepsFieldsD fs2 := rfl
          omega
        rw [ihC k2 w2 fs2 (acc ++ [(k, w)]) rest hcfs.1 hcfs.2 hnd2 hdem2,
          List.append_assoc, List.singleton_append]

theorem jsonParse_canon {v : Js} (hc : canonVal v = true) :
    jsonParse ⟨stringifyVal v⟩ = some v := by
  unfold jsonParse
  have hle : steps v ≤ 2 * (⟨stringifyVal v⟩ : String).length + 2 := by
    have h1 := steps_le_val v
    have hl : (⟨stringifyVal v⟩ : String).length = (stringifyVal v).length := rfl
    omega
  have h := (parse_stringify (2 * (⟨stringifyVal v⟩ : String).length + 2)).1 v []
    hc hle (by decide)
  rw [List.append_nil] at h
  rw [show (⟨stringifyVal v⟩ : String).data = stringifyVal v from rfl, h]
  dsimp only []
  rw [if_pos (show skipWs [] = [] from rfl)]

theorem canon_todoToJs (t : Todo) : canonVal (todoToJs t) = true := by
  cases hdl : t.deadline with
  | none =>
    have hform : todoToJs t = Js.obj [("id", .num (natStr t.id)),
        ("title", .str t.title), ("completed", .bool t.completed),
        ("order", .num (natStr t.order))] := by
      unfold todoToJs
      rw [hdl]
      rfl
    rw [hform]
    show ((canonNumStr (natStr t.id) && (true && (true
        && (canonNumStr (natStr t.order) && true))))
      && decide ((["id", "title", "completed", "order"] : List String).Nodup)) = true
    rw [canonNumStr_natStr, canonNumStr_natStr]
    decide
  | some d =>
    have hform : todoToJs t = Js.obj [("id", .num (natStr t.id)),
        ("title", .str t.title), ("completed", .bool t.completed),
        ("deadline", .str d), ("order", .num (natStr t.order))] := by
      unfold todoToJs
      rw [hdl]
      rfl
    rw [hform]
    show ((canonNumStr (natStr t.id) && (true && (true && (true
        && (canonNumStr (natStr t.order) && true)))))
      && decide ((["id", "title", "completed", "deadline", "order"]
        : List String).Nodup)) = true
    rw [canonNumStr_natStr, canonNumStr_natStr]
    decide

theorem canonItems_map : ∀ T : List Todo, canonItems (T.map todoToJs) = true
  | [] => rfl
  | t :: ts => by
    show (canonVal (todoToJs t) && canonItems (ts.map todoToJs)) = true
    rw [canon_todoToJs t, canonItems_map ts]
    rfl

theorem loadPassElem_todoToJs (i : Nat) (t : Todo) :
    loadPassElem i (todoToJs t) = some (todoToJs t) := by
  cases hdl : t.deadline with
  | none =>
    have hform : todoToJs t = Js.obj [("id", .num (natStr t.id)),
        ("title", .str t.title), ("completed", .bool t.completed),
        ("order", .num (natStr t.order))] := by
      unfold todoToJs
      rw [hdl]
      rfl
    rw [hform]
    rfl
  | some d =>
    have hform : todoToJs t = Js.obj [("id", .num (natStr t.id)),
        ("title", .str t.title), ("completed", .bool t.completed),
        ("deadline", .str d), ("order", .num (natStr t.order))] := by
      unfold todoToJs
      rw [hdl]
      rfl
    rw [hform]
    rfl

theorem loadPassAux_map : ∀ (T : List Todo) (i : Nat),
    loadPassAux i (T.map todoToJs) = some (T.map todoToJs)
  | [], _ => rfl
  | t :: ts, i => by
    show (match loadPassElem i (todoToJs t) with
      | none => none
      | some w =>
        match loadPassAux (i + 1) (ts.map todoToJs) with
        | none => none
        | some ws => some (w :: ws)) = some (todoToJs t :: ts.map todoToJs)
    rw [loadPassElem_todoToJs i t, loadPassAux_map ts (i + 1)]

theorem jsToTodo_todoToJs (t : Todo) : jsToTodo (todoToJs t) = some t := by
  cases hdl : t.deadline with
  | none =>
    have hform : todoToJs t = Js.obj [("id", .num (natStr t.id)),
        ("title", .str t.title), ("completed", .bool t.completed),
        ("order", .num (natStr t.order))] := by
      unfold todoToJs
      rw [hdl]
      rfl
    rw [hform]
    show (match decodeNat (natStr t.id), decodeNat (natStr t.order) with
      | some idv, some ov => some (⟨idv, t.title, t.completed, none, ov⟩ : Todo)
      | _, _ => none) = some t
    rw [decodeNat_natStr, decodeNat_natStr]
    dsimp only []
    rw [← hdl]
  | some d =>
    have hform : todoToJs t = Js.obj [("id", .num (natStr t.id)),
        ("title", .str t.title), ("completed", .bool t.completed),
        ("deadline", .str d), ("order", .num (natStr t.order))] := by
      unfold todoToJs
      rw [hdl]
      rfl
    rw [hform]
    show (match decodeNat (natStr t.id), decodeNat (natStr t.order) with
      | some idv, some ov => some (⟨idv, t.title, t.completed, some d, ov⟩ : Todo)
      | _, _ => none) = some t
    rw [decodeNat_natStr, decodeNat_natStr]
    dsimp only []
    rw [← hdl]

/-- **C5.** Round trip of persistence: loading the stored representation
produced by saving a collection `T` yields exactly the serialized objects of
`T` (the legacy order-assignment pass is a no-op on them, since every `order`
is present), and each such object reads back as precisely the original todo —
a todo with `deadline = undefined` is stored with the `deadline` key omitted
and decodes back to `deadline = none`. -/
theorem loadTodos_saveTodos_roundtrip (T : List Todo) :
    loadTodos (some (saveTodos T)) = T.map todoToJs ∧
    ∀ t ∈ T, jsToTodo (todoToJs t) = some t := by
  constructor
  · unfold loadTodos
    dsimp only []
    have hne : saveTodos T ≠ "" := by
      intro h
      have hd := congrArg String.data h
      rw [show (saveTodos T).data = stringifyVal (.arr (T.map todoToJs)) from rfl,
        show ("" : String).data = [] from rfl] at hd
      cases T with
      | nil =>
        rw [show stringifyVal (.arr (([] : List Todo).map todoToJs))
            = ['[', ']'] from rfl] at hd
        exact List.noConfusion hd
      | cons t ts =>
        rw [show stringifyVal (.arr ((t :: ts).map todoToJs))
            = '[' :: (stringifyVal (todoToJs t)
                ++ stringifyItems (List.map todoToJs ts) ++ [']']) from rfl] at hd
        exact List.noConfusion hd
    rw [if_neg hne]
    have hj : jsonParse (saveTodos T) = some (.arr (T.map todoToJs)) :=
      @jsonParse_canon (.arr (T.map todoToJs)) (canonItems_map T)
    rw [hj]
    dsimp only []
    rw [show loadPass (.arr (T.map todoToJs)) = loadPassAux 0 (T.map todoToJs) from rfl,
      loadPassAux_map T 0]
  · intro t _
    exact jsToTodo_todoToJs t

/-- **C6.** Amended corrupt-input safety: `loadTodos` is total (the model of
"never raises to the caller") and returns the empty collection when the
storage slot is absent or empty, when the stored content fails `JSON.parse`
(including the literal string `"corrupt-json-data"`), and when the parsed
value makes the legacy pass throw (a non-array, or an array containing
`null`). A parseable array of non-null non-todo values is NOT caught — see
the counterexample. -/
theorem loadTodos_corrupt_safe :
    loadTodos none = [] ∧
    loadTodos (some "") = [] ∧
    (∀ s : String, jsonParse s = none → loadTodos (some s) = []) ∧
    (∀ (s : String) (v : Js), jsonParse s = some v → loadPass v = none →
      loadTodos (some s) = []) ∧
    loadTodos (some "corrupt-json-data") = [] := by
  refine ⟨rfl, rfl, ?_, ?_, rfl⟩
  · intro s hj
    unfold loadTodos
    dsimp only []
    by_cases hs : s = ""
    · rw [if_pos hs]
    · rw [if_neg hs, hj]
  · intro s v hj hp
    unfold loadTodos
    dsimp only []
    by_cases hs : s = ""
    · rw [if_pos hs]
    · rw [if_neg hs, hj]
      dsimp only []
      rw [hp]

/-- Witness for the C6 theorem: a parse failure (`"12x"`), a parsed non-array
(`"\x7b\x7d"`), and an array containing `null` (`"[null]"`) all load as the
empty collection. -/
theorem loadTodos_corrupt_safe_witness :
    jsonParse "12x" = none ∧ loadTodos (some "12x") = [] ∧
    jsonParse "\x7b\x7d" = some (.obj []) ∧ loadPass (.obj []) = none ∧
    loadTodos (some "\x7b\x7d") = [] ∧
    jsonParse "[null]" = some (.arr [.null]) ∧ loadPass (.arr [.null]) = none ∧
    loadTodos (some "[null]") = [] := by
  refine ⟨rfl, loadTodos_corrupt_safe.2.2.1 "12x" rfl, rfl, rfl,
    loadTodos_corrupt_safe.2.2.2.1 "\x7b\x7d" (.obj []) rfl rfl, rfl, rfl,
    loadTodos_corrupt_safe.2.2.2.1 "[null]" (.arr [.null]) rfl rfl⟩

/-- Counterexample for C6 as frozen: the structurally invalid stored content
`"[0]"` (an array whose element is a number, not a todo object) parses, and
the legacy pass turns it into a NON-empty junk collection instead of the
claimed empty one. -/
theorem loadTodos_corrupt_cx :
    loadTodos (some "[0]") = [Js.obj [("order", Js.num "0")]] ∧
    loadTodos (some "[0]") ≠ [] := by
  refine ⟨rfl, ?_⟩
  intro h
  rw [show loadTodos (some "[0]") = [Js.obj [("order", Js.num "0")]] from rfl] at h
  exact List.noConfusion h

theorem canon_storedToJs (s : StoredTodo) : canonVal (storedToJs s) = true := by
  cases hdl : s.deadline with
  | none =>
    cases ho : s.order with
    | none =>
      have hform : storedToJs s = Js.obj [("id", .num (natStr s.id)),
          ("title", .str s.title), ("completed", .bool s.completed)] := by
        unfold storedToJs
        rw [hdl, ho]
        rfl
      rw [hform]
      show ((canonNumStr (natStr s.id) && (true && true))
        && decide ((["id", "title", "completed"] : List String).Nodup)) = true
      rw [canonNumStr_natStr]
      decide
    | some o =>
      have hform : storedToJs s = Js.obj [("id", .num (natStr s.id)),
          ("title", .str s.title), ("completed", .bool s.completed),
          ("order", .num (natStr o))] := by
        unfold storedToJs
        rw [hdl, ho]
        rfl
      rw [hform]
      show ((canonNumStr (natStr s.id) && (true && (true
          && (canonNumStr (natStr o) && true))))
        && decide ((["id", "title", "completed", "order"] : List String).Nodup)) = true
      rw [canonNumStr_natStr, canonNumStr_natStr]
      decide
  | some d =>
    cases ho : s.order with
    | none =>
      have hform : storedToJs s = Js.obj [("id", .num (natStr s.id)),
          ("title", .str s.title), ("completed", .bool s.completed),
          ("deadline", .str d)] := by
        unfold storedToJs
        rw [hdl, ho]
        rfl
      rw [hform]
      show ((canonNumStr (natStr s.id) && (true && (true && true)))
        && decide ((["id", "title", "completed", "deadline"]
          : List String).Nodup)) = true
      rw [canonNumStr_natStr]
      decide
    | some o =>
      have hform : storedToJs s = Js.obj [("id", .num (natStr s.id)),
          ("title", .str s.title), ("completed", .bool s.completed),
          ("deadline", .str d), ("order", .num (natStr o))] := by
        unfold storedToJs
        rw [hdl, ho]
        rfl
      rw [hform]
      show ((canonNumStr (natStr s.id) && (true && (true && (true
          && (canonNumStr (natStr o) && true)))))
        && decide ((["id", "title", "completed", "deadline", "order"]
          : List String).Nodup)) = true
      rw [canonNumStr_natStr, canonNumStr_natStr]
      decide

theorem canonItems_map_stored : ∀ S : List StoredTodo,
    canonItems (S.map storedToJs) = true
  | [] => rfl
  | s :: ss => by
    show (canonVal (storedToJs s) && canonItems (ss.map storedToJs)) = true
    rw [canon_storedToJs s, canonItems_map_stored ss]
    rfl

theorem loadPassElem_storedToJs (i : Nat) (s : StoredTodo) :
    loadPassElem i (storedToJs s)
      = some (todoToJs ⟨s.id, s.title, s.completed, s.deadline, s.order.getD i⟩) := by
  cases hdl : s.deadline with
  | none =>
    cases ho : s.order with
    | none =>
      rw [show storedToJs s = Js.obj [("id", .num (natStr s.id)),
          ("title", .str s.title), ("completed", .bool s.completed)] from by
        unfold storedToJs
        rw [hdl, ho]
        rfl]
      rfl
    | some o =>
      rw [show storedToJs s = Js.obj [("id", .num (natStr s.id)),
          ("title", .str s.title), ("completed", .bool s.completed),
          ("order", .num (natStr o))] from by
        unfold storedToJs
        rw [hdl, ho]
        rfl]
      rfl
  | some d =>
    cases ho : s.order with
    | none =>
      rw [show storedToJs s = Js.obj [("id", .num (natStr s.id)),
          ("title", .str s.title), ("completed", .bool s.completed),
          ("deadline", .str d)] from by
        unfold storedToJs
        rw [hdl, ho]
        rfl]
      rfl
    | some o =>
      rw [show storedToJs s = Js.obj [("id", .num (natStr s.id)),
          ("title", .str s.title), ("completed", .bool s.completed),
          ("deadline", .str d), ("order", .num (natStr o))] from by
        unfold storedToJs
        rw [hdl, ho]
        rfl]
      rfl

theorem loadPassAux_storedToJs : ∀ (S : List StoredTodo) (i : Nat),
    loadPassAux i (S.map storedToJs) = some ((legacyPassAux i S).map todoToJs)
  | [], _ => rfl
  | s :: ss, i => by
    show (match loadPassElem i (storedToJs s) with
      | none => none
      | some w =>
        match loadPassAux (i + 1) (ss.map storedToJs) with
        | none => none
        | some ws => some (w :: ws)) = _
    rw [loadPassElem_storedToJs i s, loadPassAux_storedToJs ss (i + 1)]
    rfl

theorem legacyPassAux_length : ∀ (S : List StoredTodo) (i : Nat),
    (legacyPassAux i S).length = S.length
  | [], _ => rfl
  | _ :: ss, i => by
    show (legacyPassAux (i + 1) ss).length + 1 = ss.length + 1
    rw [legacyPassAux_length ss (i + 1)]

theorem legacyPassAux_get : ∀ (S : List StoredTodo) (i j : Nat)
    (hj : j < S.length) (hj2 : j < (legacyPassAux i S).length),
    (legacyPassAux i S).get ⟨j, hj2⟩
      = ⟨(S.get ⟨j, hj⟩).id, (S.get ⟨j, hj⟩).title, (S.get ⟨j, hj⟩).completed,
         (S.get ⟨j, hj⟩).deadline, (S.get ⟨j, hj⟩).order.getD (i + j)⟩
  | [], _, j, hj, _ => by cases hj
  | s :: ss, i, 0, _, _ => rfl
  | s :: ss, i, j + 1, hj, hj2 => by
    have hj' : j < ss.length := by simpa using hj
    have hj2' : j < (legacyPassAux (i + 1) ss).length := by
      rw [legacyPassAux_length]
      exact hj'
    show (legacyPassAux (i + 1) ss).get ⟨j, hj2'⟩ = _
    rw [legacyPassAux_get ss (i + 1) j hj' hj2']
    have harith : i + 1 + j = i + (j + 1) := by omega
    rw [harith]
    rfl

theorem legacyPassAux_orders : ∀ (S : List StoredTodo) (i : Nat),
    (∀ s ∈ S, s.order = none) →
    (legacyPassAux i S).map (·.order) = List.range' i S.length
  | [], _, _ => rfl
  | s :: ss, i, h => by
    show (s.order.getD i) :: (legacyPassAux (i + 1) ss).map (·.order)
      = List.range' i (ss.length + 1)
    rw [h s (by simp), legacyPassAux_orders ss (i + 1) (fun u hu => h u (by simp [hu])),
      List.range'_succ]
    rfl

theorem legacyPassAux_deadlines : ∀ (S : List StoredTodo) (i : Nat) (κ : Option String),
    (∀ s ∈ S, s.deadline = κ) →
    ∀ t ∈ legacyPassAux i S, t.deadline = κ
  | [], _, _, _ => by intro t ht; cases ht
  | s :: ss, i, κ, h => by
    intro t ht
    rcases List.mem_cons.mp ht with rfl | hmem
    · exact h s (by simp)
    · exact legacyPassAux_deadlines ss (i + 1) κ (fun u hu => h u (by simp [hu])) t hmem

/-- **C7.** Amended legacy order assignment: loading a stored collection
(possibly with missing `order` fields) yields exactly the legacy pass of that
collection — each todo lacking `order` gets its positional index in the
loaded array, each todo that has `order` keeps it — and the assignment
restores Invariant I1 when the legacy collection is all-orderless and lies in
a single bucket `κ`. For collections spanning several buckets the global
positional index does NOT restore per-bucket density (see the
counterexample). -/
theorem loadTodos_legacy (S : List StoredTodo) (κ : Option String) :
    loadTodos (some ⟨stringifyVal (.arr (S.map storedToJs))⟩)
      = (legacyPass S).map todoToJs ∧
    (∀ (j : Nat) (hj : j < S.length) (hj2 : j < (legacyPass S).length),
      (legacyPass S).get ⟨j, hj2⟩
        = ⟨(S.get ⟨j, hj⟩).id, (S.get ⟨j, hj⟩).title, (S.get ⟨j, hj⟩).completed,
           (S.get ⟨j, hj⟩).deadline, (S.get ⟨j, hj⟩).order.getD j⟩) ∧
    ((∀ s ∈ S, s.order = none ∧ s.deadline = κ) →
      DenseP (inBucket κ) (legacyPass S)) := by
  refine ⟨?_, ?_, ?_⟩
  · unfold loadTodos
    dsimp only []
    have hne : (⟨stringifyVal (.arr (S.map storedToJs))⟩ : String) ≠ "" := by
      intro h
      have hd := congrArg String.data h
      rw [show (⟨stringifyVal (.arr (S.map storedToJs))⟩ : String).data
          = stringifyVal (.arr (S.map storedToJs)) from rfl,
        show ("" : String).data = [] from rfl] at hd
      cases S with
      | nil =>
        rw [show stringifyVal (.arr (([] : List StoredTodo).map storedToJs))
            = ['[', ']'] from rfl] at hd
        exact List.noConfusion hd
      | cons s ss =>
        rw [show stringifyVal (.arr ((s :: ss).map storedToJs))
            = '[' :: (stringifyVal (storedToJs s)
                ++ stringifyItems (List.map storedToJs ss) ++ [']']) from rfl] at hd
        exact List.noConfusion hd
    rw [if_neg hne]
    rw [jsonParse_canon (show canonVal (.arr (S.map storedToJs)) = true from
      canonItems_map_stored S)]
    dsimp only []
    rw [show loadPass (.arr (S.map storedToJs))
        = loadPassAux 0 (S.map storedToJs) from rfl,
      loadPassAux_storedToJs S 0]
    rfl
  · intro j hj hj2
    have h := legacyPassAux_get S 0 j hj hj2
    rw [Nat.zero_add] at h
    exact h
  · intro hall
    have horders : (legacyPass S).map (·.order) = List.range' 0 S.length :=
      legacyPassAux_orders S 0 (fun s hs => (hall s hs).1)
    have hfe : (legacyPass S).filter (inBucket κ) = legacyPass S := by
      rw [List.filter_eq_self]
      intro t ht
      have hdl := legacyPassAux_deadlines S 0 κ (fun s hs => (hall s hs).2) t ht
      simp [inBucket, hdl]
    unfold DenseP bucketOrders
    rw [hfe, horders, show (legacyPass S).length = S.length from
      legacyPassAux_length S 0, List.range_eq_range']

/-- Witness for the C7 theorem: a mixed legacy collection keeps the present
`order = 5` and assigns positional index `1` to the orderless todo; an
all-orderless single-bucket collection comes back densely ordered. -/
theorem loadTodos_legacy_witness :
    loadTodos (some ⟨stringifyVal (.arr (([⟨1, "a", false, none, some 5⟩,
        ⟨2, "b", false, none, none⟩] : List StoredTodo).map storedToJs))⟩)
      = (legacyPass [⟨1, "a", false, none, some 5⟩,
          ⟨2, "b", false, none, none⟩]).map todoToJs ∧
    (legacyPass [⟨1, "a", false, none, some 5⟩,
        ⟨2, "b", false, none, none⟩]).get ⟨0, by decide⟩
      = ⟨1, "a", false, none, 5⟩ ∧
    (legacyPass [⟨1, "a", false, none, some 5⟩,
        ⟨2, "b", false, none, none⟩]).get ⟨1, by decide⟩
      = ⟨2, "b", false, none, 1⟩ ∧
    (∀ s ∈ ([⟨1, "a", false, none, none⟩,
        ⟨2, "b", false, none, none⟩] : List StoredTodo),
      s.order = none ∧ s.deadline = none) ∧
    DenseP (inBucket none)
      (legacyPass [⟨1, "a", false, none, none⟩, ⟨2, "b", false, none, none⟩]) := by
  refine ⟨(loadTodos_legacy [⟨1, "a", false, none, some 5⟩,
      ⟨2, "b", false, none, none⟩] none).1,
    (loadTodos_legacy [⟨1, "a", false, none, some 5⟩,
      ⟨2, "b", false, none, none⟩] none).2.1 0 (by decide) (by decide),
    (loadTodos_legacy [⟨1, "a", false, none, some 5⟩,
      ⟨2, "b", false, none, none⟩] none).2.1 1 (by decide) (by decide),
    by decide,
    (loadTodos_legacy [⟨1, "a", false, none, none⟩,
      ⟨2, "b", false, none, none⟩] none).2.2 (by decide)⟩

/-- Counterexample for C7 as frozen ("including ones whose todos span
multiple buckets"): a two-bucket all-orderless legacy collection gets global
indices 0 and 1, leaving the `"2025-03-10"` bucket with order set `{1}`
instead of the dense `{0}`. -/
theorem loadTodos_legacy_cx :
    legacyPass [⟨1, "a", false, none, none⟩,
        ⟨2, "b", false, some "2025-03-10", none⟩]
      = [⟨1, "a", false, none, 0⟩, ⟨2, "b", false, some "2025-03-10", 1⟩] ∧
    ¬ DenseP (inBucket (some "2025-03-10"))
      (legacyPass [⟨1, "a", false, none, none⟩,
        ⟨2, "b", false, some "2025-03-10", none⟩]) := by
  exact ⟨rfl, by decide⟩

theorem handleDragEnd_of_reorderStep_none (todos : List Todo)
    (activeId overId : String)
    (h : reorderStep todos (jsParseInt (jsRemoveFirst activeId "todo-"))
      (jsParseInt (jsRemoveFirst overId "todo-")) = none) :
    handleDragEnd todos activeId (some overId)
      = zoneStep todos (jsParseInt (jsRemoveFirst activeId "todo-")) overId := by
  show (match reorderStep todos (jsParseInt (jsRemoveFirst activeId "todo-"))
      (jsParseInt (jsRemoveFirst overId "todo-")) with
    | some result => result
    | none => zoneStep todos (jsParseInt (jsRemoveFirst activeId "todo-")) overId) = _
  rw [h]

theorem isDateFormat_head_not_digit {s : String} {c : Char}
    (hh : s.data.head? = some c) (hc : c.isDigit = false) :
    isDateFormat s = false := by
  unfold isDateFormat
  split
  · next y1 y2 y3 y4 h1 m1 m2 h2 d1 d2 heq =>
    rw [heq] at hh
    simp only [List.head?_cons, Option.some.injEq] at hh
    rw [hh, hc]
    simp
  · rfl

theorem todoPrefix_head (x : String) :
    ("todo-" ++ x).data.head? = some 't' := by
  rw [String.data_append]
  rfl

theorem todoPrefix_ne_unscheduled (x : String) : ("todo-" ++ x) ≠ "unscheduled" := by
  intro h
  have hd := congrArg String.data h
  rw [String.data_append] at hd
  simp at hd

theorem selfReorderStep_none (todos : List Todo) (p : Option Int) :
    reorderStep todos p p = none := by
  unfold reorderStep
  cases hf : findById todos p with
  | none => rfl
  | some a =>
    dsimp only []
    rw [if_pos rfl]
    cases hfi : findIndexById (reorderList todos a) p with
    | none => rfl
    | some i =>
      dsimp only []
      rw [if_neg (show ¬ i ≠ i from fun hcon => hcon rfl)]

/-- **C8.** The no-op cases of `handleDragEnd`: (1) a cancelled drag
(`over = null`) leaves the collection unchanged; (2) dropping a todo onto
itself — both drag ids are the DOM sortable id `"todo-" ++ n` of the same
todo — leaves it unchanged (the reorder branch computes equal positions and
falls through, and the id string is neither the `"unscheduled"` zone nor a
date); (3) a drop target that is not a todo of the dragged todo's bucket,
not `"unscheduled"`, and not of the form `YYYY-MM-DD` is silently ignored. -/
theorem handleDragEnd_noop (todos : List Todo) (activeId overId : String) (n : Nat) :
    handleDragEnd todos activeId none = todos ∧
    handleDragEnd todos ("todo-" ++ natStr n) (some ("todo-" ++ natStr n)) = todos ∧
    (overId ≠ "unscheduled" → isDateFormat overId = false →
      (∀ a o, findById todos (jsParseInt (jsRemoveFirst activeId "todo-")) = some a →
        findById todos (jsParseInt (jsRemoveFirst overId "todo-")) = some o →
        a.deadline ≠ o.deadline) →
      handleDragEnd todos activeId (some overId) = todos) := by
  refine ⟨rfl, ?_, ?_⟩
  · rw [handleDragEnd_of_reorderStep_none todos _ _ (selfReorderStep_none todos _)]
    unfold zoneStep
    rw [if_neg (todoPrefix_ne_unscheduled (natStr n)),
      if_neg (by simp [isDateFormat_head_not_digit (todoPrefix_head (natStr n))
        (by decide : ('t' : Char).isDigit = false)])]
  · intro h1 h2 h3
    have hro : reorderStep todos (jsParseInt (jsRemoveFirst activeId "todo-"))
        (jsParseInt (jsRemoveFirst overId "todo-")) = none := by
      unfold reorderStep
      cases hfa : findById todos (jsParseInt (jsRemoveFirst activeId "todo-")) with
      | none => rfl
      | some a =>
        cases hfo : findById todos (jsParseInt (jsRemoveFirst overId "todo-")) with
        | none => rfl
        | some o =>
          dsimp only []
          rw [if_neg (h3 a o hfa hfo)]
    rw [handleDragEnd_of_reorderStep_none todos _ _ hro]
    unfold zoneStep
    rw [if_neg h1, if_neg (by simp [h2])]

/-- Witness for the C8 theorem: a one-todo collection with a cancelled drag,
a drop of `"todo-1"` onto itself, and a drop onto the malformed target
`"garbage"`. -/
theorem handleDragEnd_noop_witness :
    handleDragEnd [⟨1, "a", false, none, 0⟩] "todo-1" none
      = [⟨1, "a", false, none, 0⟩] ∧
    handleDragEnd [⟨1, "a", false, none, 0⟩] ("todo-" ++ natStr 1)
        (some ("todo-" ++ natStr 1))
      = [⟨1, "a", false, none, 0⟩] ∧
    ("garbage" : String) ≠ "unscheduled" ∧ isDateFormat "garbage" = false ∧
    handleDragEnd [⟨1, "a", false, none, 0⟩] "todo-1" (some "garbage")
      = [⟨1, "a", false, none, 0⟩] := by
  refine ⟨(handleDragEnd_noop [⟨1, "a", false, none, 0⟩] "todo-1" "garbage" 1).1,
    (handleDragEnd_noop [⟨1, "a", false, none, 0⟩] "todo-1" "garbage" 1).2.1,
    by decide, by decide,
    (handleDragEnd_noop [⟨1, "a", false, none, 0⟩] "todo-1" "garbage" 1).2.2
      (by decide) (by decide) ?_⟩
  intro a o hfa hfo
  have hfc : findById [(⟨1, "a", false, none, 0⟩ : Todo)]
      (jsParseInt (jsRemoveFirst "garbage" "todo-")) = none := by decide
  rw [hfc] at hfo
  cases hfo

/-- **C9.** The edit operation (the item component's `handleSave` feeding
`editTodo`): when the new title trims to a non-empty string, the todo with
the given id gets exactly that trimmed title and nothing else changes (every
position holds the same todo, with only the matching todo's `title`
replaced); when it trims to the empty string, the collection is entirely
unchanged. -/
theorem handleSave_edit (todos : List Todo) (id : Nat) (editValue : String) :
    (jsTrim editValue ≠ "" → ∀ j : Nat,
      (handleSave todos id editValue).get? j
        = (todos.get? j).map (fun t =>
            if t.id = id then { t with title := jsTrim editValue } else t)) ∧
    (jsTrim editValue = "" → handleSave todos id editValue = todos) := by
  constructor
  · intro hne j
    unfold handleSave
    rw [if_pos hne]
    unfold editTodo
    rw [List.get?_map]
  · intro he
    unfold handleSave
    rw [if_neg (fun hc => hc he)]

/-- Witness for the C9 theorem: editing with `"  new  "` stores the trimmed
`"new"`; editing with whitespace only is discarded. -/
theorem handleSave_edit_witness :
    jsTrim "  new  " ≠ "" ∧
    (handleSave [⟨1, "old", false, none, 0⟩] 1 "  new  ").get? 0
      = some ⟨1, "new", false, none, 0⟩ ∧
    jsTrim "   " = "" ∧
    handleSave [⟨1, "old", false, none, 0⟩] 1 "   " = [⟨1, "old", false, none, 0⟩] := by
  refine ⟨by decide, ?_, by decide,
    (handleSave_edit [⟨1, "old", false, none, 0⟩] 1 "   ").2 (by decide)⟩
  rw [(handleSave_edit [⟨1, "old", false, none, 0⟩] 1 "  new  ").1 (by decide) 0]
  rfl

/-- **C10.** For every input whose trimmed form is non-empty, `addTodo`
appends a todo whose `title` is the *raw* input string (whitespace
preserved) even though the emptiness check trims, while the edit path stores
the *trimmed* string — so whenever the input differs from its trim, the two
operations store different titles for the same text. -/
theorem addTodo_raw_vs_edit_trimmed (todos : List Todo) (newId id : Nat)
    (s : String) (hne : jsTrim s ≠ "") :
    ((addTodo todos newId s).get? todos.length).map (·.title) = some s ∧
    (∀ j t, todos.get? j = some t → t.id = id →
      ((handleSave todos id s).get? j).map (·.title) = some (jsTrim s) ∧
      (s ≠ jsTrim s →
        ((handleSave todos id s).get? j).map (·.title)
          ≠ ((addTodo todos newId s).get? todos.length).map (·.title))) := by
  have hadd : ((addTodo todos newId s).get? todos.length).map (·.title) = some s := by
    unfold addTodo
    rw [if_neg hne]
    show ((todos ++ [(⟨newId, s, false, none,
        (todos.filter fun t => t.noDeadline).length⟩ : Todo)]).get?
          todos.length).map (·.title) = some s
    rw [List.get?_concat_length]
    rfl
  refine ⟨hadd, ?_⟩
  intro j t hget ht
  have hedit : ((handleSave todos id s).get? j).map (·.title) = some (jsTrim s) := by
    unfold handleSave
    rw [if_pos hne]
    unfold editTodo
    rw [List.get?_map, hget]
    show some ((if t.id = id then { t with title := jsTrim s } else t).title)
      = some (jsTrim s)
    rw [if_pos ht]
  refine ⟨hedit, ?_⟩
  intro hs heq
  rw [hedit, hadd] at heq
  exact hs ((Option.some.inj heq).symm)

/-- Witness for the C10 theorem: adding `"  hi  "` stores the padded title
verbatim, while editing an existing todo with the same text stores `"hi"`. -/
theorem addTodo_raw_vs_edit_trimmed_witness :
    jsTrim "  hi  " ≠ "" ∧
    ((addTodo [⟨1, "old", false, none, 0⟩] 2 "  hi  ").get?
        ([(⟨1, "old", false, none, 0⟩ : Todo)].length)).map (fun t => t.title)
      = some "  hi  " ∧
    [(⟨1, "old", false, none, 0⟩ : Todo)].get? 0 = some ⟨1, "old", false, none, 0⟩ ∧
    ((handleSave [⟨1, "old", false, none, 0⟩] 1 "  hi  ").get? 0).map (fun t => t.title)
      = some "hi" ∧
    "  hi  " ≠ jsTrim "  hi  " ∧
    ((handleSave [⟨1, "old", false, none, 0⟩] 1 "  hi  ").get? 0).map (fun t => t.title)
      ≠ ((addTodo [⟨1, "old", false, none, 0⟩] 2 "  hi  ").get?
          ([(⟨1, "old", false, none, 0⟩ : Todo)].length)).map (fun t => t.title) := by
  have h := addTodo_raw_vs_edit_trimmed [⟨1, "old", false, none, 0⟩] 2 1 "  hi  "
    (by decide)
  have h2 := h.2 0 ⟨1, "old", false, none, 0⟩ (by decide) (by decide)
  exact ⟨by decide, h.1, by decide,
    by rw [h2.1]; rfl, by decide, h2.2 (by decide)⟩
